import Mathlib

/-!
AriaCoda: desired-action channels and their arbitration.

A shallow embedding of `include/Aria/ArActionDesired.h`.

* C++ `double` is modelled by `ℚ`: a total order, no NaN, no infinity.  The
  operations `merge`, `addAverage`, `endAverage` compute exactly; where the
  rounding of the `double` arithmetic matters for a statement, `mergeWith`
  carries the rounding function of the arithmetic as a parameter, and
  `roundBinary64` is the rounding of IEEE 754 binary64.
* The constants `NO_STRENGTH`, `MIN_STRENGTH` and `MAX_STRENGTH` are declared
  in the header but defined in a translation unit that is not part of the
  sources at hand; they are the parameter `Strengths` of every operation.
* A method `void C::m(args)` becomes a function from the state of the object
  before the call to its state after the call.  The pointer argument of
  `merge` and `addAverage` is taken to point to an object other than `*this`,
  so that the argument is the state of that object before the call.
-/

namespace AriaCoda

/-- The three strength constants of `ArActionDesiredChannel` (declared
`static const double`, defined outside the header). -/
structure Strengths where
  NO_STRENGTH : ℚ
  MIN_STRENGTH : ℚ
  MAX_STRENGTH : ℚ

/-- The conventional ordering of the constants: `NO_STRENGTH = 0 < MIN_STRENGTH ≤ MAX_STRENGTH`. -/
def Strengths.Ordered (K : Strengths) : Prop :=
  K.NO_STRENGTH = 0 ∧ 0 < K.MIN_STRENGTH ∧ K.MIN_STRENGTH ≤ K.MAX_STRENGTH

/-- A concrete choice of constants, with `MAX_STRENGTH = 1.0` as the header documents. -/
def stdStrengths : Strengths :=
  { NO_STRENGTH := 0, MIN_STRENGTH := 1 / 1000000, MAX_STRENGTH := 1 }

/-- The data members of `class ArActionDesiredChannel`. -/
structure ArActionDesiredChannel where
  myDesired : ℚ
  myStrength : ℚ
  myAllowOverride : Bool
  myDesiredTotal : ℚ
  myStrengthTotal : ℚ
  myOverrideDoesLessThan : Bool
deriving DecidableEq

namespace ArActionDesiredChannel

/-- Source: `void reset()`: `myDesired = 0; myStrength = NO_STRENGTH; myAllowOverride = true;`. -/
def reset (K : Strengths) (c : ArActionDesiredChannel) : ArActionDesiredChannel :=
  { c with myDesired := 0, myStrength := K.NO_STRENGTH, myAllowOverride := true }

/-- The default member initialisers of the class (the state before the constructor body runs). -/
def defaultMembers (K : Strengths) : ArActionDesiredChannel :=
  { myDesired := 0, myStrength := K.NO_STRENGTH, myAllowOverride := true,
    myDesiredTotal := 0, myStrengthTotal := K.NO_STRENGTH, myOverrideDoesLessThan := true }

/-- Source: `ArActionDesiredChannel() { reset(); myOverrideDoesLessThan = true; }`. -/
def new (K : Strengths) : ArActionDesiredChannel :=
  { reset K (defaultMembers K) with myOverrideDoesLessThan := true }

/-- Source: `void setOverrideDoesLessThan(bool overrideDoesLessThan)`. -/
def setOverrideDoesLessThan (c : ArActionDesiredChannel) (overrideDoesLessThan : Bool) :
    ArActionDesiredChannel :=
  { c with myOverrideDoesLessThan := overrideDoesLessThan }

/-- The strength stored by `setDesired`: first capped at `MAX_STRENGTH`, then
coerced to `NO_STRENGTH` when below `MIN_STRENGTH` (the two `if`s run in this order). -/
def clampStrength (K : Strengths) (desiredStrength : ℚ) : ℚ :=
  let s1 := if desiredStrength > K.MAX_STRENGTH then K.MAX_STRENGTH else desiredStrength
  if s1 < K.MIN_STRENGTH then K.NO_STRENGTH else s1

/-- Source: `void setDesired(double desired, double desiredStrength, bool allowOverride = false)`. -/
def setDesired (K : Strengths) (c : ArActionDesiredChannel) (desired desiredStrength : ℚ)
    (allowOverride : Bool) : ArActionDesiredChannel :=
  { c with myDesired := desired, myStrength := clampStrength K desiredStrength,
           myAllowOverride := allowOverride }

/-- The local `otherStrength` of `merge` after the cap:
`if (myStrength + otherStrength > MAX_STRENGTH) otherStrength = MAX_STRENGTH - myStrength;`. -/
def mergeOtherStrength (K : Strengths) (c d : ArActionDesiredChannel) : ℚ :=
  if c.myStrength + d.myStrength > K.MAX_STRENGTH then K.MAX_STRENGTH - c.myStrength
  else d.myStrength

/-- Source: `void merge(ArActionDesiredChannel *desiredChannel)`; `c` is `*this`, `d` is `*desiredChannel`. -/
def merge (K : Strengths) (c d : ArActionDesiredChannel) : ArActionDesiredChannel :=
  let otherStrength := mergeOtherStrength K c d
  let oldStrength := c.myStrength
  let newStrength := c.myStrength + otherStrength
  let newAllowOverride := c.myAllowOverride && d.myAllowOverride
  let newDesired :=
    if newAllowOverride = true ∧ newStrength ≥ K.MIN_STRENGTH then
      if oldStrength ≥ K.MIN_STRENGTH ∧ d.myStrength ≥ K.MIN_STRENGTH then
        if c.myOverrideDoesLessThan = true then min c.myDesired d.myDesired
        else max c.myDesired d.myDesired
      else if d.myStrength ≥ K.MIN_STRENGTH then d.myDesired
      else c.myDesired
    else if newStrength ≥ K.MIN_STRENGTH then
      (oldStrength * c.myDesired + d.myDesired * otherStrength) / newStrength
    else c.myDesired
  { c with myDesired := newDesired, myStrength := newStrength,
           myAllowOverride := newAllowOverride }

/-- Source: `void merge(ArActionDesiredChannel *desiredChannel)`, with the rounding of the
`double` arithmetic made explicit: every `+`, `-`, `*` and `/` of the method delivers `rnd`
of its exact result, each operation rounded on its own, in the order the expressions of the
method are evaluated; comparisons, `std::min`, `std::max` and assignments are exact.  With
`rnd` the identity this is `merge`. -/
def mergeWith (rnd : ℚ → ℚ) (K : Strengths) (c d : ArActionDesiredChannel) :
    ArActionDesiredChannel :=
  let otherStrength :=
    if rnd (c.myStrength + d.myStrength) > K.MAX_STRENGTH then
      rnd (K.MAX_STRENGTH - c.myStrength)
    else d.myStrength
  let oldStrength := c.myStrength
  let newStrength := rnd (c.myStrength + otherStrength)
  let newAllowOverride := c.myAllowOverride && d.myAllowOverride
  let newDesired :=
    if newAllowOverride = true ∧ newStrength ≥ K.MIN_STRENGTH then
      if oldStrength ≥ K.MIN_STRENGTH ∧ d.myStrength ≥ K.MIN_STRENGTH then
        if c.myOverrideDoesLessThan = true then min c.myDesired d.myDesired
        else max c.myDesired d.myDesired
      else if d.myStrength ≥ K.MIN_STRENGTH then d.myDesired
      else c.myDesired
    else if newStrength ≥ K.MIN_STRENGTH then
      rnd (rnd (rnd (oldStrength * c.myDesired) + rnd (d.myDesired * otherStrength))
        / newStrength)
    else c.myDesired
  { c with myDesired := newDesired, myStrength := newStrength,
           myAllowOverride := newAllowOverride }

/-- Source: `void startAverage()`. -/
def startAverage (c : ArActionDesiredChannel) : ArActionDesiredChannel :=
  { c with myDesiredTotal := c.myDesired * c.myStrength, myStrengthTotal := c.myStrength }

/-- Source: `void addAverage(ArActionDesiredChannel *desiredChannel)`. -/
def addAverage (K : Strengths) (c d : ArActionDesiredChannel) : ArActionDesiredChannel :=
  let newAllowOverride := c.myAllowOverride && d.myAllowOverride
  let newDesired :=
    if newAllowOverride = true then
      if c.myStrength ≥ K.MIN_STRENGTH ∧ d.myStrength ≥ K.MIN_STRENGTH then
        if c.myOverrideDoesLessThan = true then min c.myDesired d.myDesired
        else max c.myDesired d.myDesired
      else if d.myStrength ≥ K.MIN_STRENGTH then d.myDesired
      else c.myDesired
    else c.myDesired
  { c with myDesired := newDesired, myAllowOverride := newAllowOverride,
           myDesiredTotal := c.myDesiredTotal + d.myDesired * d.myStrength,
           myStrengthTotal := c.myStrengthTotal + d.myStrength }

/-- Source: `void endAverage()`. -/
def endAverage (K : Strengths) (c : ArActionDesiredChannel) : ArActionDesiredChannel :=
  if c.myStrengthTotal < K.MIN_STRENGTH then
    { c with myStrength := K.NO_STRENGTH }
  else
    let newDesired :=
      if c.myAllowOverride = false then c.myDesiredTotal / c.myStrengthTotal else c.myDesired
    let s := c.myStrengthTotal
    { c with myDesired := newDesired,
             myStrength := if s > K.MAX_STRENGTH then K.MAX_STRENGTH else s }

/-- Source: `void checkLowerBound(const char *actionName, const char *typeName, int lowerBound)`.
The helper `ArMath::roundInt` lives in `Aria/ariaUtil.h`, which is not among the sources, and
is the parameter `roundInt`; a C++ `int` is an integer.  The call to `ArLog::log` only
writes a message and is left out; no path of the method fails. -/
def checkLowerBound (roundInt : ℚ → ℤ) (K : Strengths) (c : ArActionDesiredChannel)
    (lowerBound : ℤ) : ArActionDesiredChannel :=
  if c.myStrength < K.MIN_STRENGTH then c
  else if roundInt c.myDesired < lowerBound then { c with myDesired := (lowerBound : ℚ) }
  else c

/-- Source: `void checkUpperBound(const char *actionName, const char *typeName, int upperBound)`,
with `ArMath::roundInt` as the parameter `roundInt` and the log message left out. -/
def checkUpperBound (roundInt : ℚ → ℤ) (K : Strengths) (c : ArActionDesiredChannel)
    (upperBound : ℤ) : ArActionDesiredChannel :=
  if c.myStrength < K.MIN_STRENGTH then c
  else if roundInt c.myDesired > upperBound then { c with myDesired := (upperBound : ℚ) }
  else c

/-- The channel carries strength: `myStrength >= MIN_STRENGTH`. -/
def hasStrength (K : Strengths) (c : ArActionDesiredChannel) : Bool :=
  decide (K.MIN_STRENGTH ≤ c.myStrength)

/-- The data-model invariant of a channel: its strength is `NO_STRENGTH` or lies in
`[MIN_STRENGTH, MAX_STRENGTH]`. -/
def StrengthOK (K : Strengths) (c : ArActionDesiredChannel) : Prop :=
  c.myStrength = K.NO_STRENGTH ∨ (K.MIN_STRENGTH ≤ c.myStrength ∧ c.myStrength ≤ K.MAX_STRENGTH)

/-- Merging the channels of a list one after another into `acc`, first element first. -/
def mergeList (K : Strengths) (acc : ArActionDesiredChannel) (ds : List ArActionDesiredChannel) :
    ArActionDesiredChannel :=
  ds.foldl (merge K) acc

/-- The averaging protocol on one channel: `startAverage`, one `addAverage` per element of
the list (first element first), `endAverage`. -/
def averageList (K : Strengths) (acc : ArActionDesiredChannel) (ds : List ArActionDesiredChannel) :
    ArActionDesiredChannel :=
  endAverage K (ds.foldl (addAverage K) (startAverage acc))

end ArActionDesiredChannel

/-- Modelled from the spec: the angle normalisation behind `ArMath::subAngle`, which is
declared in `Aria/ariaUtil.h`, a header that is not among the sources.  The specification
says that the delta heading is `normalize(h - r)` into `[-180, 180)`: the representative of
the angle modulo a full turn of 360 degrees that lies in that half-open range. -/
def normalize (x : ℚ) : ℚ :=
  x - 360 * (⌊(x + 180) / 360⌋ : ℤ)

/-- Modelled from the spec: `ArMath::subAngle(ang1, ang2)` of `Aria/ariaUtil.h` (not among
the sources), the normalised difference `normalize(ang1 - ang2)`. -/
def ArMath.subAngle (ang1 ang2 : ℚ) : ℚ :=
  normalize (ang1 - ang2)

/-- Modelled from the spec: `ArMath::roundInt` of `Aria/ariaUtil.h` (not among the
sources).  The specification speaks of "the rounded value" of a channel that is compared
with an integer bound: the value rounded to the nearest integer. -/
def ArMath.roundInt (x : ℚ) : ℤ :=
  round x

/-- Rounding of a rational to the nearest integer, a tie going to the even neighbour. -/
def roundHalfEven (q : ℚ) : ℤ :=
  if q - ⌊q⌋ < 1 / 2 then ⌊q⌋
  else if q - ⌊q⌋ > 1 / 2 then ⌊q⌋ + 1
  else if ⌊q⌋ % 2 = 0 then ⌊q⌋ else ⌊q⌋ + 1

/-- The rounding that the arithmetic of a C++ `double` (IEEE 754 binary64, round to nearest,
ties to even) applies to the exact result `x` of an operation: `x` is scaled so that its
magnitude lies in `[2^52, 2^53)`, rounded to an integer and scaled back, which keeps a
significand of 53 bits.  Results outside the normal range (overflow, subnormal numbers),
infinities and NaN are not modelled. -/
def roundBinary64 (x : ℚ) : ℚ :=
  if x = 0 then 0
  else (roundHalfEven (x / 2 ^ (Int.log 2 |x| - 52)) : ℚ) * 2 ^ (Int.log 2 |x| - 52)

/-- The `double` nearest to one tenth, the value of the literal `0.1`. -/
def oneTenth : ℚ := 3602879701896397 / 36028797018963968

/-- The data members of `class ArActionDesired`, in declaration order. -/
structure ArActionDesired where
  myHeading : ℚ
  myHeadingStrength : ℚ
  myHeadingSet : Bool
  myVelDes : ArActionDesiredChannel
  myMaxVelDes : ArActionDesiredChannel
  myMaxNegVelDes : ArActionDesiredChannel
  myTransAccelDes : ArActionDesiredChannel
  myTransDecelDes : ArActionDesiredChannel
  myRotVelDes : ArActionDesiredChannel
  myDeltaHeadingDes : ArActionDesiredChannel
  myMaxRotVelDes : ArActionDesiredChannel
  myMaxRotVelPosDes : ArActionDesiredChannel
  myMaxRotVelNegDes : ArActionDesiredChannel
  myRotAccelDes : ArActionDesiredChannel
  myRotDecelDes : ArActionDesiredChannel
  myLatVelDes : ArActionDesiredChannel
  myMaxLeftLatVelDes : ArActionDesiredChannel
  myMaxRightLatVelDes : ArActionDesiredChannel
  myLatAccelDes : ArActionDesiredChannel
  myLatDecelDes : ArActionDesiredChannel
deriving DecidableEq

/-- The names of the seventeen channel members of `ArActionDesired`. -/
inductive Chan where
  | vel | maxVel | maxNegVel | transAccel | transDecel
  | rotVel | deltaHeading | maxRotVel | maxRotVelPos | maxRotVelNeg | rotAccel | rotDecel
  | latVel | maxLeftLatVel | maxRightLatVel | latAccel | latDecel
deriving DecidableEq

namespace ArActionDesired

/-- The channel member of a given name. -/
def chan (a : ArActionDesired) : Chan → ArActionDesiredChannel
  | .vel => a.myVelDes
  | .maxVel => a.myMaxVelDes
  | .maxNegVel => a.myMaxNegVelDes
  | .transAccel => a.myTransAccelDes
  | .transDecel => a.myTransDecelDes
  | .rotVel => a.myRotVelDes
  | .deltaHeading => a.myDeltaHeadingDes
  | .maxRotVel => a.myMaxRotVelDes
  | .maxRotVelPos => a.myMaxRotVelPosDes
  | .maxRotVelNeg => a.myMaxRotVelNegDes
  | .rotAccel => a.myRotAccelDes
  | .rotDecel => a.myRotDecelDes
  | .latVel => a.myLatVelDes
  | .maxLeftLatVel => a.myMaxLeftLatVelDes
  | .maxRightLatVel => a.myMaxRightLatVelDes
  | .latAccel => a.myLatAccelDes
  | .latDecel => a.myLatDecelDes

/-- The constructor `ArActionDesired()`: heading members from the initialiser list, every
channel default-constructed, then `setOverrideDoesLessThan(false)` on `myTransDecelDes`,
`myRotDecelDes` and `myMaxNegVelDes`. -/
def new (K : Strengths) : ArActionDesired :=
  { myHeading := 0, myHeadingStrength := K.MIN_STRENGTH, myHeadingSet := false,
    myVelDes := ArActionDesiredChannel.new K,
    myMaxVelDes := ArActionDesiredChannel.new K,
    myMaxNegVelDes := (ArActionDesiredChannel.new K).setOverrideDoesLessThan false,
    myTransAccelDes := ArActionDesiredChannel.new K,
    myTransDecelDes := (ArActionDesiredChannel.new K).setOverrideDoesLessThan false,
    myRotVelDes := ArActionDesiredChannel.new K,
    myDeltaHeadingDes := ArActionDesiredChannel.new K,
    myMaxRotVelDes := ArActionDesiredChannel.new K,
    myMaxRotVelPosDes := ArActionDesiredChannel.new K,
    myMaxRotVelNegDes := ArActionDesiredChannel.new K,
    myRotAccelDes := ArActionDesiredChannel.new K,
    myRotDecelDes := (ArActionDesiredChannel.new K).setOverrideDoesLessThan false,
    myLatVelDes := ArActionDesiredChannel.new K,
    myMaxLeftLatVelDes := ArActionDesiredChannel.new K,
    myMaxRightLatVelDes := ArActionDesiredChannel.new K,
    myLatAccelDes := ArActionDesiredChannel.new K,
    myLatDecelDes := ArActionDesiredChannel.new K }

/-- Source: `void setVel(double vel, double strength = MAX_STRENGTH)`. -/
def setVel (K : Strengths) (a : ArActionDesired) (vel strength : ℚ) : ArActionDesired :=
  { a with myVelDes := a.myVelDes.setDesired K vel strength false }

/-- Source: `void setDeltaHeading(double deltaHeading, double strength = MAX_STRENGTH)`. -/
def setDeltaHeading (K : Strengths) (a : ArActionDesired) (deltaHeading strength : ℚ) :
    ArActionDesired :=
  { a with myDeltaHeadingDes := a.myDeltaHeadingDes.setDesired K deltaHeading strength false }

/-- Source: `void setHeading(double heading, double strength = MAX_STRENGTH)`. -/
def setHeading (a : ArActionDesired) (heading strength : ℚ) : ArActionDesired :=
  { a with myHeading := heading, myHeadingStrength := strength, myHeadingSet := true }

/-- Source: `void setRotVel(double rotVel, double strength = MAX_STRENGTH)`. -/
def setRotVel (K : Strengths) (a : ArActionDesired) (rotVel strength : ℚ) : ArActionDesired :=
  { a with myRotVelDes := a.myRotVelDes.setDesired K rotVel strength false }

/-- Source: `void setMaxVel(double maxVel, double strength = MAX_STRENGTH, bool useSlowest = true)`. -/
def setMaxVel (K : Strengths) (a : ArActionDesired) (maxVel strength : ℚ) (useSlowest : Bool) :
    ArActionDesired :=
  { a with myMaxVelDes := a.myMaxVelDes.setDesired K maxVel strength useSlowest }

/-- Source: `void reset()`: every channel is reset, `myHeadingStrength = 0`, `myHeadingSet = false`;
`myHeading` is not assigned. -/
def reset (K : Strengths) (a : ArActionDesired) : ArActionDesired :=
  { a with
    myVelDes := a.myVelDes.reset K,
    myMaxVelDes := a.myMaxVelDes.reset K,
    myMaxNegVelDes := a.myMaxNegVelDes.reset K,
    myTransAccelDes := a.myTransAccelDes.reset K,
    myTransDecelDes := a.myTransDecelDes.reset K,
    myRotVelDes := a.myRotVelDes.reset K,
    myDeltaHeadingDes := a.myDeltaHeadingDes.reset K,
    myMaxRotVelDes := a.myMaxRotVelDes.reset K,
    myMaxRotVelPosDes := a.myMaxRotVelPosDes.reset K,
    myMaxRotVelNegDes := a.myMaxRotVelNegDes.reset K,
    myRotAccelDes := a.myRotAccelDes.reset K,
    myRotDecelDes := a.myRotDecelDes.reset K,
    myHeadingStrength := 0,
    myHeadingSet := false,
    myLatVelDes := a.myLatVelDes.reset K,
    myMaxLeftLatVelDes := a.myMaxLeftLatVelDes.reset K,
    myMaxRightLatVelDes := a.myMaxRightLatVelDes.reset K,
    myLatAccelDes := a.myLatAccelDes.reset K,
    myLatDecelDes := a.myLatDecelDes.reset K }

/-- The rotation part of `ArActionDesired::merge`: the pair (rotational velocity, delta
heading) of `*this` after the three-way branch on the strengths `*this` already carries. -/
def mergeRotation (K : Strengths) (a b : ArActionDesired) :
    ArActionDesiredChannel × ArActionDesiredChannel :=
  if a.myDeltaHeadingDes.myStrength > K.NO_STRENGTH then
    (a.myRotVelDes, a.myDeltaHeadingDes.merge K b.myDeltaHeadingDes)
  else if a.myRotVelDes.myStrength > K.NO_STRENGTH then
    (a.myRotVelDes.merge K b.myRotVelDes, a.myDeltaHeadingDes)
  else
    (a.myRotVelDes.merge K b.myRotVelDes, a.myDeltaHeadingDes.merge K b.myDeltaHeadingDes)

/-- Source: `void merge(ArActionDesired *actDesired)`; `none` is the `NULL` pointer, on which the
method returns at once. -/
def merge (K : Strengths) (a : ArActionDesired) : Option ArActionDesired → ArActionDesired
  | none => a
  | some b =>
    { a with
      myVelDes := a.myVelDes.merge K b.myVelDes,
      myRotVelDes := (mergeRotation K a b).1,
      myDeltaHeadingDes := (mergeRotation K a b).2,
      myMaxVelDes := a.myMaxVelDes.merge K b.myMaxVelDes,
      myMaxNegVelDes := a.myMaxNegVelDes.merge K b.myMaxNegVelDes,
      myMaxRotVelDes := a.myMaxRotVelDes.merge K b.myMaxRotVelDes,
      myMaxRotVelPosDes := a.myMaxRotVelPosDes.merge K b.myMaxRotVelPosDes,
      myMaxRotVelNegDes := a.myMaxRotVelNegDes.merge K b.myMaxRotVelNegDes,
      myTransAccelDes := a.myTransAccelDes.merge K b.myTransAccelDes,
      myTransDecelDes := a.myTransDecelDes.merge K b.myTransDecelDes,
      myRotAccelDes := a.myRotAccelDes.merge K b.myRotAccelDes,
      myRotDecelDes := a.myRotDecelDes.merge K b.myRotDecelDes,
      myLatVelDes := a.myLatVelDes.merge K b.myLatVelDes,
      myMaxLeftLatVelDes := a.myMaxLeftLatVelDes.merge K b.myMaxLeftLatVelDes,
      myMaxRightLatVelDes := a.myMaxRightLatVelDes.merge K b.myMaxRightLatVelDes,
      myLatAccelDes := a.myLatAccelDes.merge K b.myLatAccelDes,
      myLatDecelDes := a.myLatDecelDes.merge K b.myLatDecelDes }

/-- Source: `void startAverage()`. -/
def startAverage (a : ArActionDesired) : ArActionDesired :=
  { a with
    myVelDes := a.myVelDes.startAverage,
    myMaxVelDes := a.myMaxVelDes.startAverage,
    myMaxNegVelDes := a.myMaxNegVelDes.startAverage,
    myTransAccelDes := a.myTransAccelDes.startAverage,
    myTransDecelDes := a.myTransDecelDes.startAverage,
    myRotVelDes := a.myRotVelDes.startAverage,
    myDeltaHeadingDes := a.myDeltaHeadingDes.startAverage,
    myMaxRotVelDes := a.myMaxRotVelDes.startAverage,
    myMaxRotVelPosDes := a.myMaxRotVelPosDes.startAverage,
    myMaxRotVelNegDes := a.myMaxRotVelNegDes.startAverage,
    myRotAccelDes := a.myRotAccelDes.startAverage,
    myRotDecelDes := a.myRotDecelDes.startAverage,
    myLatVelDes := a.myLatVelDes.startAverage,
    myMaxLeftLatVelDes := a.myMaxLeftLatVelDes.startAverage,
    myMaxRightLatVelDes := a.myMaxRightLatVelDes.startAverage,
    myLatAccelDes := a.myLatAccelDes.startAverage,
    myLatDecelDes := a.myLatDecelDes.startAverage }

/-- The rotation part of `ArActionDesired::addAverage`: the pair (rotational velocity, delta
heading) of `*this` after the three-way branch, which tests the rotational velocity first. -/
def addAverageRotation (K : Strengths) (a b : ArActionDesired) :
    ArActionDesiredChannel × ArActionDesiredChannel :=
  if a.myRotVelDes.myStrength > K.NO_STRENGTH then
    (a.myRotVelDes.addAverage K b.myRotVelDes, a.myDeltaHeadingDes)
  else if a.myDeltaHeadingDes.myStrength > K.NO_STRENGTH then
    (a.myRotVelDes, a.myDeltaHeadingDes.addAverage K b.myDeltaHeadingDes)
  else
    (a.myRotVelDes.addAverage K b.myRotVelDes,
     a.myDeltaHeadingDes.addAverage K b.myDeltaHeadingDes)

/-- Source: `void addAverage(ArActionDesired *actDesired)`; `none` is the `NULL` pointer. -/
def addAverage (K : Strengths) (a : ArActionDesired) : Option ArActionDesired → ArActionDesired
  | none => a
  | some b =>
    { a with
      myVelDes := a.myVelDes.addAverage K b.myVelDes,
      myMaxVelDes := a.myMaxVelDes.addAverage K b.myMaxVelDes,
      myMaxNegVelDes := a.myMaxNegVelDes.addAverage K b.myMaxNegVelDes,
      myTransAccelDes := a.myTransAccelDes.addAverage K b.myTransAccelDes,
      myTransDecelDes := a.myTransDecelDes.addAverage K b.myTransDecelDes,
      myRotVelDes := (addAverageRotation K a b).1,
      myDeltaHeadingDes := (addAverageRotation K a b).2,
      myMaxRotVelDes := a.myMaxRotVelDes.addAverage K b.myMaxRotVelDes,
      myMaxRotVelPosDes := a.myMaxRotVelPosDes.addAverage K b.myMaxRotVelPosDes,
      myMaxRotVelNegDes := a.myMaxRotVelNegDes.addAverage K b.myMaxRotVelNegDes,
      myRotAccelDes := a.myRotAccelDes.addAverage K b.myRotAccelDes,
      myRotDecelDes := a.myRotDecelDes.addAverage K b.myRotDecelDes,
      myLatVelDes := a.myLatVelDes.addAverage K b.myLatVelDes,
      myMaxLeftLatVelDes := a.myMaxLeftLatVelDes.addAverage K b.myMaxLeftLatVelDes,
      myMaxRightLatVelDes := a.myMaxRightLatVelDes.addAverage K b.myMaxRightLatVelDes,
      myLatAccelDes := a.myLatAccelDes.addAverage K b.myLatAccelDes,
      myLatDecelDes := a.myLatDecelDes.addAverage K b.myLatDecelDes }

/-- Source: `void endAverage()`. -/
def endAverage (K : Strengths) (a : ArActionDesired) : ArActionDesired :=
  { a with
    myVelDes := a.myVelDes.endAverage K,
    myMaxVelDes := a.myMaxVelDes.endAverage K,
    myMaxNegVelDes := a.myMaxNegVelDes.endAverage K,
    myTransAccelDes := a.myTransAccelDes.endAverage K,
    myTransDecelDes := a.myTransDecelDes.endAverage K,
    myRotVelDes := a.myRotVelDes.endAverage K,
    myDeltaHeadingDes := a.myDeltaHeadingDes.endAverage K,
    myMaxRotVelDes := a.myMaxRotVelDes.endAverage K,
    myMaxRotVelPosDes := a.myMaxRotVelPosDes.endAverage K,
    myMaxRotVelNegDes := a.myMaxRotVelNegDes.endAverage K,
    myRotAccelDes := a.myRotAccelDes.endAverage K,
    myRotDecelDes := a.myRotDecelDes.endAverage K,
    myLatVelDes := a.myLatVelDes.endAverage K,
    myMaxLeftLatVelDes := a.myMaxLeftLatVelDes.endAverage K,
    myMaxRightLatVelDes := a.myMaxRightLatVelDes.endAverage K,
    myLatAccelDes := a.myLatAccelDes.endAverage K,
    myLatDecelDes := a.myLatDecelDes.endAverage K }

/-- Source: `void accountForRobotHeading(double robotHeading)`. -/
def accountForRobotHeading (K : Strengths) (a : ArActionDesired) (robotHeading : ℚ) :
    ArActionDesired :=
  let a1 :=
    if a.myHeadingSet = true then
      a.setDeltaHeading K (ArMath.subAngle a.myHeading robotHeading) a.myHeadingStrength
    else a
  { a1 with myHeadingSet := false }

/-- The whole averaging protocol on a desired action: `startAverage`, one `addAverage` per
contribution (first element first), `endAverage`. -/
def averageList (K : Strengths) (acc : ArActionDesired) (ds : List ArActionDesired) :
    ArActionDesired :=
  endAverage K (ds.foldl (fun a d => addAverage K a (some d)) (startAverage acc))

/-- Merging the desired actions of a list one after another into `acc`, first element
first, as a resolver does with the actions in priority order. -/
def mergeList (K : Strengths) (acc : ArActionDesired) (ds : List ArActionDesired) :
    ArActionDesired :=
  ds.foldl (fun a d => merge K a (some d)) acc

/-- The rotation channels that `ArActionDesired::merge` feeds from the state `a` of `*this`,
as the pair (rotational velocity is merged, delta heading is merged): the three-way branch
of the method, which tests the delta heading first. -/
def mergeFeeds (K : Strengths) (a : ArActionDesired) : Bool × Bool :=
  if a.myDeltaHeadingDes.myStrength > K.NO_STRENGTH then (false, true)
  else if a.myRotVelDes.myStrength > K.NO_STRENGTH then (true, false)
  else (true, true)

/-- The rotation channels that `ArActionDesired::addAverage` feeds from the state `a` of
`*this`, as the pair (rotational velocity is added, delta heading is added): the three-way
branch of the method, which tests the rotational velocity first. -/
def addAverageFeeds (K : Strengths) (a : ArActionDesired) : Bool × Bool :=
  if a.myRotVelDes.myStrength > K.NO_STRENGTH then (true, false)
  else if a.myDeltaHeadingDes.myStrength > K.NO_STRENGTH then (false, true)
  else (true, true)

/-- A desired action on which both `setDeltaHeading(30)` and `setRotVel(50)` were called
with the default strength `MAX_STRENGTH = 1`. -/
def bothRotations : ArActionDesired :=
  ((new stdStrengths).setDeltaHeading stdStrengths 30 1).setRotVel stdStrengths 50 1

/-- A contribution that proposes a delta heading of 10 and a rotational velocity of 20, each
at strength 1/2. -/
def rotationProposal : ArActionDesired :=
  ((new stdStrengths).setDeltaHeading stdStrengths 10 (1 / 2)).setRotVel stdStrengths 20 (1 / 2)

/-- Source: `void setTransAccel(double transAccel, double strength = MAX_STRENGTH,
bool useSlowest = true)`. -/
def setTransAccel (K : Strengths) (a : ArActionDesired) (transAccel strength : ℚ)
    (useSlowest : Bool) : ArActionDesired :=
  { a with myTransAccelDes := a.myTransAccelDes.setDesired K transAccel strength useSlowest }

/-- Source: `void setTransDecel(double transDecel, double strength = MAX_STRENGTH,
bool useFastestDecel = true)`. -/
def setTransDecel (K : Strengths) (a : ArActionDesired) (transDecel strength : ℚ)
    (useFastestDecel : Bool) : ArActionDesired :=
  { a with myTransDecelDes := a.myTransDecelDes.setDesired K transDecel strength useFastestDecel }

/-- Source: `void setRotAccel(double rotAccel, double strength = MAX_STRENGTH,
bool useSlowest = true)`. -/
def setRotAccel (K : Strengths) (a : ArActionDesired) (rotAccel strength : ℚ)
    (useSlowest : Bool) : ArActionDesired :=
  { a with myRotAccelDes := a.myRotAccelDes.setDesired K rotAccel strength useSlowest }

/-- Source: `void setRotDecel(double rotDecel, double strength = MAX_STRENGTH,
bool useFastest = true)`. -/
def setRotDecel (K : Strengths) (a : ArActionDesired) (rotDecel strength : ℚ)
    (useFastest : Bool) : ArActionDesired :=
  { a with myRotDecelDes := a.myRotDecelDes.setDesired K rotDecel strength useFastest }

/-- Source: `void setLatDecel(double latDecel, double strength = MAX_STRENGTH,
bool useFastest = true)`. -/
def setLatDecel (K : Strengths) (a : ArActionDesired) (latDecel strength : ℚ)
    (useFastest : Bool) : ArActionDesired :=
  { a with myLatDecelDes := a.myLatDecelDes.setDesired K latDecel strength useFastest }

/-- Source: `double getMaxVel() const`. -/
def getMaxVel (a : ArActionDesired) : ℚ := a.myMaxVelDes.myDesired

/-- Source: `double getTransAccel() const`. -/
def getTransAccel (a : ArActionDesired) : ℚ := a.myTransAccelDes.myDesired

/-- Source: `double getTransDecel() const`. -/
def getTransDecel (a : ArActionDesired) : ℚ := a.myTransDecelDes.myDesired

/-- Source: `double getRotAccel() const`. -/
def getRotAccel (a : ArActionDesired) : ℚ := a.myRotAccelDes.myDesired

/-- Source: `double getRotDecel() const`. -/
def getRotDecel (a : ArActionDesired) : ℚ := a.myRotDecelDes.myDesired

/-- Source: `double getLatDecel() const`. -/
def getLatDecel (a : ArActionDesired) : ℚ := a.myLatDecelDes.myDesired

/-- The override policy (`myOverrideDoesLessThan`) that the constructor `ArActionDesired()`
leaves in each channel: `false` on `myTransDecelDes`, `myRotDecelDes` and `myMaxNegVelDes`,
on which it calls `setOverrideDoesLessThan(false)`, and the default `true` on the others. -/
def constructedPolicy : Chan → Bool
  | .transDecel => false
  | .rotDecel => false
  | .maxNegVel => false
  | _ => true

/-- The channels of `a` have the override policies the constructor sets.  The channels are
protected members and `setOverrideDoesLessThan` is called in the constructor only, so every
`ArActionDesired` object of a program is in such a state. -/
def HasConstructedPolicies (a : ArActionDesired) : Prop :=
  ∀ ch : Chan, (a.chan ch).myOverrideDoesLessThan = constructedPolicy ch

/-- The rotation part of `ArActionDesired::merge` with the rounding `rnd` of the channel
arithmetic made explicit (see `ArActionDesiredChannel.mergeWith`). -/
def mergeRotationWith (rnd : ℚ → ℚ) (K : Strengths) (a b : ArActionDesired) :
    ArActionDesiredChannel × ArActionDesiredChannel :=
  if a.myDeltaHeadingDes.myStrength > K.NO_STRENGTH then
    (a.myRotVelDes, a.myDeltaHeadingDes.mergeWith rnd K b.myDeltaHeadingDes)
  else if a.myRotVelDes.myStrength > K.NO_STRENGTH then
    (a.myRotVelDes.mergeWith rnd K b.myRotVelDes, a.myDeltaHeadingDes)
  else
    (a.myRotVelDes.mergeWith rnd K b.myRotVelDes,
     a.myDeltaHeadingDes.mergeWith rnd K b.myDeltaHeadingDes)

/-- Source: `void merge(ArActionDesired *actDesired)` with the rounding `rnd` of the channel
arithmetic made explicit; `none` is the `NULL` pointer.  With `rnd` the identity this is
`merge`. -/
def mergeWith (rnd : ℚ → ℚ) (K : Strengths) (a : ArActionDesired) :
    Option ArActionDesired → ArActionDesired
  | none => a
  | some b =>
    { a with
      myVelDes := a.myVelDes.mergeWith rnd K b.myVelDes,
      myRotVelDes := (mergeRotationWith rnd K a b).1,
      myDeltaHeadingDes := (mergeRotationWith rnd K a b).2,
      myMaxVelDes := a.myMaxVelDes.mergeWith rnd K b.myMaxVelDes,
      myMaxNegVelDes := a.myMaxNegVelDes.mergeWith rnd K b.myMaxNegVelDes,
      myMaxRotVelDes := a.myMaxRotVelDes.mergeWith rnd K b.myMaxRotVelDes,
      myMaxRotVelPosDes := a.myMaxRotVelPosDes.mergeWith rnd K b.myMaxRotVelPosDes,
      myMaxRotVelNegDes := a.myMaxRotVelNegDes.mergeWith rnd K b.myMaxRotVelNegDes,
      myTransAccelDes := a.myTransAccelDes.mergeWith rnd K b.myTransAccelDes,
      myTransDecelDes := a.myTransDecelDes.mergeWith rnd K b.myTransDecelDes,
      myRotAccelDes := a.myRotAccelDes.mergeWith rnd K b.myRotAccelDes,
      myRotDecelDes := a.myRotDecelDes.mergeWith rnd K b.myRotDecelDes,
      myLatVelDes := a.myLatVelDes.mergeWith rnd K b.myLatVelDes,
      myMaxLeftLatVelDes := a.myMaxLeftLatVelDes.mergeWith rnd K b.myMaxLeftLatVelDes,
      myMaxRightLatVelDes := a.myMaxRightLatVelDes.mergeWith rnd K b.myMaxRightLatVelDes,
      myLatAccelDes := a.myLatAccelDes.mergeWith rnd K b.myLatAccelDes,
      myLatDecelDes := a.myLatDecelDes.mergeWith rnd K b.myLatDecelDes }

/-- A desired action on which `setVel(3, 0.1)` was called: velocity 3 at the strength that
the literal `0.1` denotes, without override. -/
def velocityThree : ArActionDesired :=
  (new stdStrengths).setVel stdStrengths 3 oneTenth

end ArActionDesired


/-- The code of a character, as the `int` that `ArModeCommand::addChar` receives and the
`char` that it stores. -/
def charCode (c : Char) : Int := Int.ofNat c.toNat

/-- The key codes `ArKeyHandler::BACKSPACE` and `ArKeyHandler::SPACE`; the enumeration is
declared in `Aria/ArKeyHandler.h`, which is not among the sources, so both are parameters. -/
structure KeyCodes where
  BACKSPACE : Int
  SPACE : Int

/-- The commands `ArModeCommand::finishParsing` sends to the robot: `myRobot->com(command)`,
`myRobot->comInt(command, int1)` and `myRobot->com2Bytes(command, int1, int2)`, with the
`int` arguments of the call. -/
inductive RobotCommand where
  | com (command : Int)
  | comInt (command int1 : Int)
  | com2Bytes (command int1 int2 : Int)
deriving DecidableEq

/-- What `finishParsing` reads from the `ArArgumentBuilder` after `addPlain(myCommandString)`:
`getArgc()`, `getArgInt(i)` and `isArgInt(i)`.  The class is declared in
`Aria/ArArgumentBuilder.h`, which is not among the sources. -/
structure ArArgumentBuilder where
  getArgc : Nat
  getArgInt : Nat → Int
  isArgInt : Nat → Bool

namespace ArModeCommand

/-- Source: `sizeof(myCommandString)` for the member `char myCommandString[70]`. -/
def size : Nat := 70

/-- Source: `void ArModeCommand::reset(bool print)`: `myCommandString[0] = 0`; the printing
is left out.  The command string is the list of the character codes before the
terminator. -/
def reset : List Int := []

/-- Source: `void ArModeCommand::addChar(int ch)`.  The state is the content of
`myCommandString` before its terminator, as a list of character codes, `strlen` is its
length; writing a character at index `len` and the terminator at `len + 1` appends to the
list, also when these indices lie beyond the buffer.  The output to the terminal and to the
log is left out.  In the last branch `ch` is stored as a `char`, which keeps the code of
every character of the ASCII range. -/
def addChar (k : KeyCodes) (myCommandString : List Int) (ch : Int) : List Int :=
  if ch < charCode '0' ∧ ch > charCode '9' ∧ ch ≠ charCode '-' ∧ ch ≠ k.BACKSPACE ∧
      ch ≠ k.SPACE then
    myCommandString
  else
    let len := myCommandString.length
    if ch = k.BACKSPACE then
      if len < 1 then myCommandString else myCommandString.dropLast
    else if ch = k.SPACE then
      if len < 1 ∨ myCommandString.getLast? = some (charCode ' ') ∨
          myCommandString.getLast? = some (charCode '-') then
        myCommandString
      else myCommandString ++ [charCode ' ']
    else if ch = charCode '-' then
      if len < 1 ∨ myCommandString.getLast? ≠ some (charCode ' ') then myCommandString
      else myCommandString ++ [charCode '-']
    else if len + 1 ≥ size then reset
    else myCommandString ++ [ch]

/-- The keys of the claims about `addChar`: a digit, `-`, the space key or the backspace
key. -/
def IsCommandKey (k : KeyCodes) (ch : Int) : Prop :=
  (charCode '0' ≤ ch ∧ ch ≤ charCode '9') ∨ ch = charCode '-' ∨ ch = k.SPACE ∨
    ch = k.BACKSPACE

/-- The command string after a sequence of `addChar` calls, starting from the empty
string. -/
def typeKeys (k : KeyCodes) (keys : List Int) : List Int :=
  keys.foldl (addChar k) reset

/-- Two adjacent characters `a`, `b` of a well-formed command string: not two spaces, a `-`
only right after a space, and no space right after a `-`. -/
def AdjacentOK (a b : Int) : Prop :=
  ¬ (a = charCode ' ' ∧ b = charCode ' ') ∧ (b = charCode '-' → a = charCode ' ') ∧
    ¬ (a = charCode '-' ∧ b = charCode ' ')

/-- The command string is well formed: it does not begin with a space or a `-`, and every
two adjacent characters satisfy `AdjacentOK`. -/
def WellFormed (s : List Int) : Prop :=
  s.head? ≠ some (charCode ' ') ∧ s.head? ≠ some (charCode '-') ∧ List.Chain' AdjacentOK s

/-- Source: `void ArModeCommand::finishParsing()`.  The parameter `addPlain` gives what the
builder reports after `builder.addPlain(myCommandString)`.  The result is the list of the
commands sent to the robot and the command string after the call; the log messages are left
out.  With `getArgc() == 0` the first test only logs and control reaches the last `else`. -/
def finishParsing (addPlain : List Int → ArArgumentBuilder) (myCommandString : List Int) :
    List RobotCommand × List Int :=
  let builder := addPlain myCommandString
  if myCommandString = [] then ([], myCommandString)
  else if builder.getArgc = 1 then
    let command := builder.getArgInt 0
    if command < 0 ∨ command > 255 ∨ builder.isArgInt 0 = false then ([], reset)
    else ([RobotCommand.com command], reset)
  else if builder.getArgc = 2 then
    let command := builder.getArgInt 0
    let int1 := builder.getArgInt 1
    if command < 0 ∨ command > 255 ∨ builder.isArgInt 0 = false then ([], reset)
    else if int1 < -32767 ∨ int1 > 32767 ∨ builder.isArgInt 1 = false then ([], reset)
    else ([RobotCommand.comInt command int1], reset)
  else if builder.getArgc = 3 then
    let command := builder.getArgInt 0
    let int1 := builder.getArgInt 1
    let int2 := builder.getArgInt 2
    if command < 0 ∨ command > 255 ∨ builder.isArgInt 0 = false then ([], reset)
    else if int1 < -128 ∨ int1 > 255 ∨ builder.isArgInt 1 = false then ([], reset)
    else if int2 < -128 ∨ int2 > 255 ∨ builder.isArgInt 2 = false then ([], reset)
    else ([RobotCommand.com2Bytes command int1 int2], reset)
  else ([], reset)

/-- The condition of the claim on the command line, in terms of what the builder reports:
1, 2 or 3 arguments that all parse as integers, the command id in `0..255`, the second
argument of the two-argument form in `-32767..32767`, and both byte arguments of the
three-argument form in `-128..255`. -/
def ValidLine (b : ArArgumentBuilder) : Prop :=
  (b.getArgc = 1 ∨ b.getArgc = 2 ∨ b.getArgc = 3) ∧
  (∀ i : Nat, i < b.getArgc → b.isArgInt i = true) ∧
  (0 ≤ b.getArgInt 0 ∧ b.getArgInt 0 ≤ 255) ∧
  (b.getArgc = 2 → -32767 ≤ b.getArgInt 1 ∧ b.getArgInt 1 ≤ 32767) ∧
  (b.getArgc = 3 → (-128 ≤ b.getArgInt 1 ∧ b.getArgInt 1 ≤ 255) ∧
    (-128 ≤ b.getArgInt 2 ∧ b.getArgInt 2 ≤ 255))

/-- The command of the claim for a valid line: `com(id)`, `comInt(id, n)` or
`com2Bytes(id, b1, b2)` for one, two or three arguments, with the parsed values. -/
def expectedCommand (b : ArArgumentBuilder) : RobotCommand :=
  if b.getArgc = 1 then RobotCommand.com (b.getArgInt 0)
  else if b.getArgc = 2 then RobotCommand.comInt (b.getArgInt 0) (b.getArgInt 1)
  else RobotCommand.com2Bytes (b.getArgInt 0) (b.getArgInt 1) (b.getArgInt 2)

/-- An example assignment of the two key codes, outside the range of the characters. -/
def exampleKeys : KeyCodes := { BACKSPACE := 264, SPACE := 261 }

/-- An example builder for the line `4 -100`: two arguments, both integers. -/
def exampleBuilder : ArArgumentBuilder :=
  { getArgc := 2,
    getArgInt := fun i => if i = 0 then 4 else if i = 1 then -100 else 0,
    isArgInt := fun i => decide (i < 2) }

end ArModeCommand

open ArActionDesiredChannel

/-- The values proposed by the strength-bearing channels of a list, in list order. -/
def strengthBearingValues (K : Strengths) (ds : List ArActionDesiredChannel) : List ℚ :=
  (ds.filter (hasStrength K)).map myDesired

/-- The rational `x` is the least (policy `lessThan = true`) or the greatest (policy
`lessThan = false`) element of the list `l`. -/
def IsExtremum (lessThan : Bool) (l : List ℚ) (x : ℚ) : Prop :=
  x ∈ l ∧ ∀ y ∈ l, if lessThan = true then x ≤ y else y ≤ x

/-- The sum of the strengths `s_i` of the strength-bearing channels of a list. -/
def strengthSum (K : Strengths) (ds : List ArActionDesiredChannel) : ℚ :=
  ((ds.filter (hasStrength K)).map myStrength).sum

/-- The sum of the products `s_i * v_i` over the strength-bearing channels of a list. -/
def weightedSum (K : Strengths) (ds : List ArActionDesiredChannel) : ℚ :=
  ((ds.filter (hasStrength K)).map (fun c => c.myStrength * c.myDesired)).sum

/-- Three override-allowing contributions: 800 at strength 1, 500 at strength 1/2 and 300 at
strength 1. -/
def overrideInputs : List ArActionDesiredChannel :=
  [setDesired stdStrengths (new stdStrengths) 800 1 true,
   setDesired stdStrengths (new stdStrengths) 500 (1 / 2) true,
   setDesired stdStrengths (new stdStrengths) 300 1 true]

/-- Three contributions without override: 100 at strength 1/4, 200 at strength 1/2 and 40
at strength 0 (which `setDesired` stores as `NO_STRENGTH`). -/
def averageInputs : List ArActionDesiredChannel :=
  [setDesired stdStrengths (new stdStrengths) 100 (1 / 4) false,
   setDesired stdStrengths (new stdStrengths) 200 (1 / 2) false,
   setDesired stdStrengths (new stdStrengths) 40 0 false]

/-- The channel states reachable from a newly constructed channel by `reset`, `setDesired`
(with arbitrary arguments), `merge`, `startAverage`, `addAverage` and `endAverage`, where
the channel argument of `merge` and of `addAverage` is itself a reachable state. -/
inductive Reachable (K : Strengths) : ArActionDesiredChannel → Prop
  | new : Reachable K (ArActionDesiredChannel.new K)
  | reset {c : ArActionDesiredChannel} : Reachable K c → Reachable K (c.reset K)
  | setDesired {c : ArActionDesiredChannel} (desired desiredStrength : ℚ)
      (allowOverride : Bool) :
      Reachable K c → Reachable K (c.setDesired K desired desiredStrength allowOverride)
  | merge {c d : ArActionDesiredChannel} :
      Reachable K c → Reachable K d → Reachable K (c.merge K d)
  | startAverage {c : ArActionDesiredChannel} : Reachable K c → Reachable K c.startAverage
  | addAverage {c d : ArActionDesiredChannel} :
      Reachable K c → Reachable K d → Reachable K (c.addAverage K d)
  | endAverage {c : ArActionDesiredChannel} : Reachable K c → Reachable K (c.endAverage K)

/-- C9: after `setDesired(v, s, o)` the value is `v`, the flag is `o`, and the strength is
`MAX_STRENGTH` if `s > MAX_STRENGTH`, `NO_STRENGTH` if `s < MIN_STRENGTH`, and `s` otherwise
(assuming `MIN_STRENGTH ≤ MAX_STRENGTH`). -/
theorem setDesired_spec (K : Strengths) (hK : K.MIN_STRENGTH ≤ K.MAX_STRENGTH)
    (c : ArActionDesiredChannel) (v s : ℚ) (o : Bool) :
    (setDesired K c v s o).myDesired = v ∧
    (setDesired K c v s o).myAllowOverride = o ∧
    (s > K.MAX_STRENGTH → (setDesired K c v s o).myStrength = K.MAX_STRENGTH) ∧
    (s < K.MIN_STRENGTH → (setDesired K c v s o).myStrength = K.NO_STRENGTH) ∧
    (¬ s > K.MAX_STRENGTH → ¬ s < K.MIN_STRENGTH → (setDesired K c v s o).myStrength = s) := by
  refine ⟨rfl, rfl, ?_, ?_, ?_⟩
  · intro h
    simp only [setDesired, clampStrength, if_pos h, if_neg (not_lt.mpr hK)]
  · intro h
    have h2 : ¬ s > K.MAX_STRENGTH := not_lt.mpr (le_trans h.le hK)
    simp only [setDesired, clampStrength, if_neg h2, if_pos h]
  · intro h1 h2
    simp only [setDesired, clampStrength, if_neg h1, if_neg h2]

/-- A witness for `setDesired_spec`: `setDesired(500, 3/2, true)` with `MAX_STRENGTH = 1`
stores the strength 1. -/
theorem setDesired_spec_witness :
    stdStrengths.MIN_STRENGTH ≤ stdStrengths.MAX_STRENGTH ∧
    ((3 / 2 : ℚ) > stdStrengths.MAX_STRENGTH →
      (setDesired stdStrengths (new stdStrengths) 500 (3 / 2) true).myStrength
        = stdStrengths.MAX_STRENGTH) :=
  ⟨by norm_num [stdStrengths],
   (setDesired_spec stdStrengths (by norm_num [stdStrengths]) (new stdStrengths) 500 (3 / 2)
      true).2.2.1⟩

/-- C10: for channels with strengths `s1`, `s2` in `[0, MAX_STRENGTH]`, the strength after
`a.merge(b)` is `min (s1 + s2) MAX_STRENGTH` (of the four bounds only `s1 ≤ MAX_STRENGTH`
and `0 ≤ s2` are needed); it never exceeds `MAX_STRENGTH`, it is `s1`
plus the share `min s2 (MAX_STRENGTH - s1)` left to the second contributor, so the first
share is never reduced and only the second is cut, to `MAX_STRENGTH - s1`, when the sum
would exceed the cap. -/
theorem merge_strength_capped (K : Strengths) (a b : ArActionDesiredChannel)
    (ha1 : a.myStrength ≤ K.MAX_STRENGTH) (hb0 : 0 ≤ b.myStrength) :
    (merge K a b).myStrength = min (a.myStrength + b.myStrength) K.MAX_STRENGTH ∧
    (merge K a b).myStrength ≤ K.MAX_STRENGTH ∧
    a.myStrength ≤ (merge K a b).myStrength ∧
    (merge K a b).myStrength = a.myStrength + mergeOtherStrength K a b ∧
    mergeOtherStrength K a b = min b.myStrength (K.MAX_STRENGTH - a.myStrength) ∧
    0 ≤ mergeOtherStrength K a b ∧
    (a.myStrength + b.myStrength > K.MAX_STRENGTH →
      mergeOtherStrength K a b = K.MAX_STRENGTH - a.myStrength) := by
  have hs : (merge K a b).myStrength = a.myStrength + mergeOtherStrength K a b := rfl
  by_cases h : a.myStrength + b.myStrength > K.MAX_STRENGTH
  · have ho : mergeOtherStrength K a b = K.MAX_STRENGTH - a.myStrength := by
      simp only [mergeOtherStrength, if_pos h]
    have hmin : min (a.myStrength + b.myStrength) K.MAX_STRENGTH = K.MAX_STRENGTH :=
      min_eq_right h.le
    have hmin2 : min b.myStrength (K.MAX_STRENGTH - a.myStrength) = K.MAX_STRENGTH - a.myStrength :=
      min_eq_right (by linarith)
    rw [hs, ho, hmin, hmin2]
    refine ⟨by ring, by linarith, by linarith, rfl, rfl, by linarith, fun _ => rfl⟩
  · have ho : mergeOtherStrength K a b = b.myStrength := by
      simp only [mergeOtherStrength, if_neg h]
    have h2 : a.myStrength + b.myStrength ≤ K.MAX_STRENGTH := not_lt.mp h
    have hmin : min (a.myStrength + b.myStrength) K.MAX_STRENGTH = a.myStrength + b.myStrength :=
      min_eq_left h2
    have hmin2 : min b.myStrength (K.MAX_STRENGTH - a.myStrength) = b.myStrength :=
      min_eq_left (by linarith)
    rw [hs, ho, hmin, hmin2]
    exact ⟨rfl, h2, by linarith, rfl, rfl, hb0, fun h3 => absurd h3 h⟩

/-- A witness for `merge_strength_capped`: two channels of strength `3/4` with
`MAX_STRENGTH = 1`, where the cap is reached. -/
theorem merge_strength_capped_witness :
    (merge stdStrengths (setDesired stdStrengths (new stdStrengths) 10 (3 / 4) false)
        (setDesired stdStrengths (new stdStrengths) 20 (3 / 4) false)).myStrength
      = min ((setDesired stdStrengths (new stdStrengths) 10 (3 / 4) false).myStrength
          + (setDesired stdStrengths (new stdStrengths) 20 (3 / 4) false).myStrength)
          stdStrengths.MAX_STRENGTH :=
  (merge_strength_capped stdStrengths
    (setDesired stdStrengths (new stdStrengths) 10 (3 / 4) false)
    (setDesired stdStrengths (new stdStrengths) 20 (3 / 4) false)
    (by norm_num [setDesired, clampStrength, stdStrengths])
    (by norm_num [setDesired, clampStrength, stdStrengths])).1

/-- C6: when the accumulator already carries strength on its delta-heading channel
(`> NO_STRENGTH`), `ArActionDesired::merge` leaves the accumulator's rotational-velocity
channel exactly as it was, whatever is merged in. -/
theorem merge_keeps_rotVel_after_deltaHeading (K : Strengths) (a : ArActionDesired)
    (ob : Option ArActionDesired)
    (h : a.myDeltaHeadingDes.myStrength > K.NO_STRENGTH) :
    (a.merge K ob).myRotVelDes = a.myRotVelDes := by
  cases ob with
  | none => rfl
  | some b =>
    show (ArActionDesired.mergeRotation K a b).1 = a.myRotVelDes
    simp only [ArActionDesired.mergeRotation, if_pos h]

/-- A witness for `merge_keeps_rotVel_after_deltaHeading`: the accumulator turns by 30
degrees at full strength and the contribution proposes a rotational velocity of 50. -/
theorem merge_keeps_rotVel_after_deltaHeading_witness :
    (((ArActionDesired.new stdStrengths).setDeltaHeading stdStrengths 30 1).merge stdStrengths
        (some ((ArActionDesired.new stdStrengths).setRotVel stdStrengths 50 1))).myRotVelDes
      = ((ArActionDesired.new stdStrengths).setDeltaHeading stdStrengths 30 1).myRotVelDes :=
  merge_keeps_rotVel_after_deltaHeading stdStrengths
    ((ArActionDesired.new stdStrengths).setDeltaHeading stdStrengths 30 1)
    (some ((ArActionDesired.new stdStrengths).setRotVel stdStrengths 50 1))
    (by norm_num [ArActionDesired.setDeltaHeading, ArActionDesired.new, setDesired,
      clampStrength, stdStrengths])

/-- Counterexample to C3: with `MAX_STRENGTH = 1`, contribution A proposes 500 at strength 1
without override, contribution B proposes 0 at strength 1 with override allowed, and both are
merged in the order A, B into a newly constructed (reset, policy `min`) channel: the final
value is 500, not the smaller value 0. -/
theorem scenario_A_then_B_counterexample :
    (mergeList stdStrengths (reset stdStrengths (new stdStrengths))
        [setDesired stdStrengths (new stdStrengths) 500 1 false,
         setDesired stdStrengths (new stdStrengths) 0 1 true]).myDesired = 500 ∧
    (mergeList stdStrengths (reset stdStrengths (new stdStrengths))
        [setDesired stdStrengths (new stdStrengths) 500 1 false,
         setDesired stdStrengths (new stdStrengths) 0 1 true]).myDesired ≠ min 500 0 := by
  norm_num [mergeList, merge, mergeOtherStrength, reset, new, defaultMembers, setDesired,
    clampStrength, stdStrengths]

/-- C3 as amended: when A proposes a value at strength `MAX_STRENGTH` without override and B
proposes a value at strength `MAX_STRENGTH` with override allowed, merging A then B into a
reset accumulator channel (of either override policy) yields the value of A, at strength
`MAX_STRENGTH` and with the override flag cleared. -/
theorem scenario_A_then_B_first_wins (K : Strengths) (hK : K.Ordered)
    (acc ca cb : ArActionDesiredChannel) (va vb : ℚ) :
    (mergeList K (reset K acc)
        [setDesired K ca va K.MAX_STRENGTH false,
         setDesired K cb vb K.MAX_STRENGTH true]).myDesired = va ∧
    (mergeList K (reset K acc)
        [setDesired K ca va K.MAX_STRENGTH false,
         setDesired K cb vb K.MAX_STRENGTH true]).myStrength = K.MAX_STRENGTH ∧
    (mergeList K (reset K acc)
        [setDesired K ca va K.MAX_STRENGTH false,
         setDesired K cb vb K.MAX_STRENGTH true]).myAllowOverride = false := by
  obtain ⟨h0, h1, h2⟩ := hK
  have hpos : 0 < K.MAX_STRENGTH := lt_of_lt_of_le h1 h2
  have hne : K.MAX_STRENGTH ≠ 0 := ne_of_gt hpos
  have hc : clampStrength K K.MAX_STRENGTH = K.MAX_STRENGTH := by
    simp [clampStrength, not_lt.mpr h2]
  simp [mergeList, merge, mergeOtherStrength, reset, setDesired, hc, h0, hpos, h2, hne]

/-- A witness for `scenario_A_then_B_first_wins`: A = 500 and B = 0 yield 500. -/
theorem scenario_A_then_B_first_wins_witness :
    stdStrengths.Ordered ∧
    (mergeList stdStrengths (reset stdStrengths (new stdStrengths))
        [setDesired stdStrengths (new stdStrengths) 500 stdStrengths.MAX_STRENGTH false,
         setDesired stdStrengths (new stdStrengths) 0 stdStrengths.MAX_STRENGTH true]).myDesired
      = 500 :=
  ⟨by norm_num [Strengths.Ordered, stdStrengths],
   (scenario_A_then_B_first_wins stdStrengths (by norm_num [Strengths.Ordered, stdStrengths])
      (new stdStrengths) (new stdStrengths) (new stdStrengths) 500 0).1⟩

/-- C4, the code at the failing input: maxVel caps 300, 500 and 800, each set with the
default strength `MAX_STRENGTH = 1` and `useSlowest = true`, fed in this order to the
averaging protocol on a reset accumulator, resolve to 800, the last cap, and not to the
minimum 300; fed in the order 800, 500, 300 they resolve to 300. -/
theorem average_maxVel_last_cap_wins :
    (ArActionDesired.averageList stdStrengths
        ((ArActionDesired.new stdStrengths).reset stdStrengths)
        [(ArActionDesired.new stdStrengths).setMaxVel stdStrengths 300 1 true,
         (ArActionDesired.new stdStrengths).setMaxVel stdStrengths 500 1 true,
         (ArActionDesired.new stdStrengths).setMaxVel stdStrengths 800 1 true]).myMaxVelDes.myDesired
      = 800 ∧
    (ArActionDesired.averageList stdStrengths
        ((ArActionDesired.new stdStrengths).reset stdStrengths)
        [(ArActionDesired.new stdStrengths).setMaxVel stdStrengths 800 1 true,
         (ArActionDesired.new stdStrengths).setMaxVel stdStrengths 500 1 true,
         (ArActionDesired.new stdStrengths).setMaxVel stdStrengths 300 1 true]).myMaxVelDes.myDesired
      = 300 := by
  norm_num [ArActionDesired.averageList, ArActionDesired.endAverage, ArActionDesired.addAverage,
    ArActionDesired.startAverage, ArActionDesired.reset, ArActionDesired.new,
    ArActionDesired.setMaxVel, endAverage, addAverage, startAverage, reset, new, defaultMembers,
    setDesired, clampStrength, stdStrengths]

/-- The normalised angle lies in the half-open range `[-180, 180)`. -/
theorem normalize_range (x : ℚ) : -180 ≤ normalize x ∧ normalize x < 180 := by
  have h1 : ((⌊(x + 180) / 360⌋ : ℤ) : ℚ) ≤ (x + 180) / 360 := Int.floor_le _
  have h2 : (x + 180) / 360 < ((⌊(x + 180) / 360⌋ : ℤ) : ℚ) + 1 := Int.lt_floor_add_one _
  have h3 : (x + 180) / 360 * 360 = x + 180 := by field_simp
  unfold normalize
  constructor
  · nlinarith
  · nlinarith

/-- C7: after `setHeading(h, s)`, `accountForRobotHeading(r)` stores `normalize (h - r)` in
the delta-heading channel, a value in `[-180, 180)` that differs from `h - r` by a whole
number of turns, with the strength `s` clamped as by `setDesired` (and the override flag
cleared, as `setDeltaHeading` does), and clears the absolute-heading flag. -/
theorem accountForRobotHeading_spec (K : Strengths) (a : ArActionDesired) (h s r : ℚ) :
    (((a.setHeading h s).accountForRobotHeading K r).myDeltaHeadingDes.myDesired
        = normalize (h - r)) ∧
    (-180 ≤ ((a.setHeading h s).accountForRobotHeading K r).myDeltaHeadingDes.myDesired) ∧
    (((a.setHeading h s).accountForRobotHeading K r).myDeltaHeadingDes.myDesired < 180) ∧
    (∃ k : ℤ, ((a.setHeading h s).accountForRobotHeading K r).myDeltaHeadingDes.myDesired
        = (h - r) - 360 * k) ∧
    (((a.setHeading h s).accountForRobotHeading K r).myDeltaHeadingDes.myStrength
        = clampStrength K s) ∧
    (((a.setHeading h s).accountForRobotHeading K r).myDeltaHeadingDes
        = (a.myDeltaHeadingDes.setDesired K (normalize (h - r)) s false)) ∧
    ((a.setHeading h s).accountForRobotHeading K r).myHeadingSet = false := by
  have hv : ((a.setHeading h s).accountForRobotHeading K r).myDeltaHeadingDes
      = a.myDeltaHeadingDes.setDesired K (normalize (h - r)) s false := by
    simp [ArActionDesired.accountForRobotHeading, ArActionDesired.setHeading,
      ArActionDesired.setDeltaHeading, ArMath.subAngle]
  have hd : ((a.setHeading h s).accountForRobotHeading K r).myDeltaHeadingDes.myDesired
      = normalize (h - r) := by rw [hv]; rfl
  refine ⟨hd, ?_, ?_, ?_, ?_, hv, rfl⟩
  · rw [hd]; exact (normalize_range _).1
  · rw [hd]; exact (normalize_range _).2
  · exact ⟨⌊(h - r + 180) / 360⌋, by rw [hd]; rfl⟩
  · rw [hv]; rfl

/-- The strength stored by `setDesired` satisfies the channel invariant. -/
theorem clampStrength_ok (K : Strengths) (hK : K.Ordered) (s : ℚ) :
    clampStrength K s = K.NO_STRENGTH ∨
      (K.MIN_STRENGTH ≤ clampStrength K s ∧ clampStrength K s ≤ K.MAX_STRENGTH) := by
  obtain ⟨_, _, h2⟩ := hK
  unfold clampStrength
  by_cases h : s > K.MAX_STRENGTH
  · simp only [if_pos h, if_neg (not_lt.mpr h2)]
    exact Or.inr ⟨h2, le_refl _⟩
  · simp only [if_neg h]
    by_cases h3 : s < K.MIN_STRENGTH
    · simp only [if_pos h3]
      exact Or.inl trivial
    · simp only [if_neg h3]
      exact Or.inr ⟨not_lt.mp h3, not_lt.mp h⟩

/-- The channel merge preserves the channel invariant on the strength. -/
theorem merge_strengthOK (K : Strengths) (hK : K.Ordered) (c d : ArActionDesiredChannel)
    (hc : StrengthOK K c) (hd : StrengthOK K d) : StrengthOK K (merge K c d) := by
  obtain ⟨h0, h1, h2⟩ := hK
  have hs : (merge K c d).myStrength = c.myStrength + mergeOtherStrength K c d := rfl
  unfold StrengthOK at hc hd ⊢
  rw [hs]
  rw [h0] at hc hd ⊢
  unfold mergeOtherStrength
  by_cases h : c.myStrength + d.myStrength > K.MAX_STRENGTH
  · rw [if_pos h]
    exact Or.inr ⟨by linarith, by linarith⟩
  · rw [if_neg h]
    have h3 : c.myStrength + d.myStrength ≤ K.MAX_STRENGTH := not_lt.mp h
    rcases hc with hc | hc <;> rcases hd with hd | hd
    · exact Or.inl (by rw [hc, hd]; norm_num)
    · exact Or.inr ⟨by linarith [hd.1], h3⟩
    · exact Or.inr ⟨by linarith [hc.1], h3⟩
    · exact Or.inr ⟨by linarith [hc.1, hd.1], h3⟩

/-- The end of the averaging protocol always establishes the channel invariant. -/
theorem endAverage_strengthOK (K : Strengths) (hK : K.Ordered) (c : ArActionDesiredChannel) :
    StrengthOK K (endAverage K c) := by
  obtain ⟨_, _, h2⟩ := hK
  unfold StrengthOK endAverage
  by_cases h : c.myStrengthTotal < K.MIN_STRENGTH
  · rw [if_pos h]
    exact Or.inl rfl
  · rw [if_neg h]
    have h3 : K.MIN_STRENGTH ≤ c.myStrengthTotal := not_lt.mp h
    by_cases h4 : c.myStrengthTotal > K.MAX_STRENGTH
    · simp only [if_pos h4]
      exact Or.inr ⟨h2, le_refl _⟩
    · simp only [if_neg h4]
      exact Or.inr ⟨h3, not_lt.mp h4⟩

/-- C8: with `NO_STRENGTH = 0 < MIN_STRENGTH ≤ MAX_STRENGTH`, every channel state reachable
from a newly constructed channel by `reset`, `setDesired`, `merge`, `startAverage`,
`addAverage` and `endAverage` has a strength that is `NO_STRENGTH` or lies in
`[MIN_STRENGTH, MAX_STRENGTH]`. -/
theorem reachable_strengthOK (K : Strengths) (hK : K.Ordered) (c : ArActionDesiredChannel)
    (hc : Reachable K c) :
    c.myStrength = K.NO_STRENGTH ∨
      (K.MIN_STRENGTH ≤ c.myStrength ∧ c.myStrength ≤ K.MAX_STRENGTH) := by
  induction hc with
  | new => exact Or.inl rfl
  | reset _ _ => exact Or.inl rfl
  | setDesired v s o _ _ => exact clampStrength_ok K hK s
  | merge _ _ ihc ihd => exact merge_strengthOK K hK _ _ ihc ihd
  | startAverage _ ih => exact ih
  | addAverage _ _ ihc _ => exact ihc
  | endAverage _ _ => exact endAverage_strengthOK K hK _

/-- A witness for `reachable_strengthOK`: a channel set to strength `3/4`, merged with a
channel set to strength `1/2`, then put through an averaging round with a third channel. -/
theorem reachable_strengthOK_witness :
    stdStrengths.Ordered ∧
    ((endAverage stdStrengths
        (addAverage stdStrengths
          (startAverage
            (merge stdStrengths (setDesired stdStrengths (new stdStrengths) 100 (3 / 4) false)
              (setDesired stdStrengths (new stdStrengths) 40 (1 / 2) true)))
          (setDesired stdStrengths (new stdStrengths) 7 2 false))).myStrength
        = stdStrengths.NO_STRENGTH ∨
      (stdStrengths.MIN_STRENGTH ≤ (endAverage stdStrengths
        (addAverage stdStrengths
          (startAverage
            (merge stdStrengths (setDesired stdStrengths (new stdStrengths) 100 (3 / 4) false)
              (setDesired stdStrengths (new stdStrengths) 40 (1 / 2) true)))
          (setDesired stdStrengths (new stdStrengths) 7 2 false))).myStrength ∧
       (endAverage stdStrengths
        (addAverage stdStrengths
          (startAverage
            (merge stdStrengths (setDesired stdStrengths (new stdStrengths) 100 (3 / 4) false)
              (setDesired stdStrengths (new stdStrengths) 40 (1 / 2) true)))
          (setDesired stdStrengths (new stdStrengths) 7 2 false))).myStrength
        ≤ stdStrengths.MAX_STRENGTH)) :=
  ⟨by norm_num [Strengths.Ordered, stdStrengths],
   reachable_strengthOK stdStrengths (by norm_num [Strengths.Ordered, stdStrengths]) _
    (Reachable.endAverage
      (Reachable.addAverage
        (Reachable.startAverage
          (Reachable.merge (Reachable.setDesired 100 (3 / 4) false Reachable.new)
            (Reachable.setDesired 40 (1 / 2) true Reachable.new)))
        (Reachable.setDesired 7 2 false Reachable.new)))⟩

/-- Under the ordered constants a channel that satisfies the invariant and does not carry
strength has strength `0`. -/
theorem strength_zero_of_not_hasStrength (K : Strengths) (hK : K.Ordered)
    (c : ArActionDesiredChannel) (hc : StrengthOK K c) (h : hasStrength K c = false) :
    c.myStrength = 0 := by
  obtain ⟨h0, _, _⟩ := hK
  rcases hc with hc | hc
  · rw [hc, h0]
  · exact absurd hc.1 (by simpa [hasStrength] using h)

/-- One merge step between two channels that both allow override: the flag stays set, the
policy is kept, the result carries strength exactly when one of the two does, and the value
is the extremum of both values, the value of the only strength-bearing side, or unchanged. -/
theorem merge_override_step (K : Strengths) (hK : K.Ordered) (c d : ArActionDesiredChannel)
    (hc : StrengthOK K c) (hd : StrengthOK K d)
    (hca : c.myAllowOverride = true) (hda : d.myAllowOverride = true) :
    (merge K c d).myAllowOverride = true ∧
    (merge K c d).myOverrideDoesLessThan = c.myOverrideDoesLessThan ∧
    hasStrength K (merge K c d) = (hasStrength K c || hasStrength K d) ∧
    (merge K c d).myDesired =
      (if hasStrength K c = true then
        (if hasStrength K d = true then
          (if c.myOverrideDoesLessThan = true then min c.myDesired d.myDesired
           else max c.myDesired d.myDesired)
         else c.myDesired)
       else if hasStrength K d = true then d.myDesired else c.myDesired) := by
  have hok := merge_strengthOK K hK c d hc hd
  obtain ⟨h0, h1, h2⟩ := hK
  have hs : (merge K c d).myStrength = c.myStrength + mergeOtherStrength K c d := rfl
  have hstr : hasStrength K (merge K c d) = (hasStrength K c || hasStrength K d) := by
    by_cases h : c.myStrength + d.myStrength > K.MAX_STRENGTH
    · have hm : (merge K c d).myStrength = K.MAX_STRENGTH := by
        rw [hs]; simp only [mergeOtherStrength, if_pos h]; ring
      have h3 : hasStrength K (merge K c d) = true := by
        simp only [hasStrength, hm, decide_eq_true_eq]; exact h2
      rw [h3]
      by_contra hcon
      have hcon2 : (hasStrength K c || hasStrength K d) = false := by
        cases hb : (hasStrength K c || hasStrength K d)
        · rfl
        · exact absurd hb.symm hcon
      rw [Bool.or_eq_false_iff] at hcon2
      have e1 := strength_zero_of_not_hasStrength K ⟨h0, h1, h2⟩ c hc hcon2.1
      have e2 := strength_zero_of_not_hasStrength K ⟨h0, h1, h2⟩ d hd hcon2.2
      rw [e1, e2] at h
      linarith
    · have hm : (merge K c d).myStrength = c.myStrength + d.myStrength := by
        rw [hs]; simp only [mergeOtherStrength, if_neg h]
      rcases hc with hc | hc <;> rcases hd with hd | hd
      · simp [hasStrength, hm, hc, hd, h0, h1]
      · have : K.MIN_STRENGTH ≤ d.myStrength := hd.1
        simp [hasStrength, hm, hc, h0, this]
      · have : K.MIN_STRENGTH ≤ c.myStrength := hc.1
        simp [hasStrength, hm, hd, h0, this]
      · have e1 : K.MIN_STRENGTH ≤ c.myStrength := hc.1
        have e2 : K.MIN_STRENGTH ≤ d.myStrength := hd.1
        have e3 : K.MIN_STRENGTH ≤ c.myStrength + d.myStrength := by linarith
        simp [hasStrength, hm, e1, e2, e3]
  refine ⟨by simp [merge, hca, hda], rfl, hstr, ?_⟩
  have hnew : (K.MIN_STRENGTH ≤ c.myStrength + mergeOtherStrength K c d) ↔
      (hasStrength K c || hasStrength K d) = true := by
    rw [← hstr, ← hs]; simp [hasStrength]
  by_cases e1 : K.MIN_STRENGTH ≤ c.myStrength <;> by_cases e2 : K.MIN_STRENGTH ≤ d.myStrength
  · have e3 : K.MIN_STRENGTH ≤ c.myStrength + mergeOtherStrength K c d := by
      rw [hnew]; simp [hasStrength, e1]
    simp [merge, hca, hda, hasStrength, e1, e2, e3]
  · have e3 : K.MIN_STRENGTH ≤ c.myStrength + mergeOtherStrength K c d := by
      rw [hnew]; simp [hasStrength, e1]
    simp [merge, hca, hda, hasStrength, e1, e2, e3]
  · have e3 : K.MIN_STRENGTH ≤ c.myStrength + mergeOtherStrength K c d := by
      rw [hnew]; simp [hasStrength, e2]
    simp [merge, hca, hda, hasStrength, e1, e2, e3]
  · have e3 : ¬ K.MIN_STRENGTH ≤ c.myStrength + mergeOtherStrength K c d := by
      rw [hnew]; simp [hasStrength, e1, e2]
    simp [merge, hca, hda, hasStrength, e1, e2, e3]

/-- Merging a list of override-allowing channels into an override-allowing channel: if the
accumulator carries strength, the result is the extremum of its value and the
strength-bearing inputs; if it does not but some input does, the result is the extremum of
the strength-bearing inputs. -/
theorem mergeList_override_aux (K : Strengths) (hK : K.Ordered)
    (ds : List ArActionDesiredChannel) :
    ∀ c : ArActionDesiredChannel, StrengthOK K c → c.myAllowOverride = true →
      (∀ d ∈ ds, d.myAllowOverride = true ∧ StrengthOK K d) →
      (hasStrength K c = true →
        IsExtremum c.myOverrideDoesLessThan (c.myDesired :: strengthBearingValues K ds)
          (mergeList K c ds).myDesired) ∧
      (hasStrength K c = false → (∃ d ∈ ds, hasStrength K d = true) →
        IsExtremum c.myOverrideDoesLessThan (strengthBearingValues K ds)
          (mergeList K c ds).myDesired) := by
  induction ds with
  | nil =>
    intro c _ _ _
    refine ⟨fun _ => ?_, fun _ hex => ?_⟩
    · refine ⟨by simp [mergeList, strengthBearingValues], ?_⟩
      intro y hy
      have : y = c.myDesired := by simpa [strengthBearingValues] using hy
      rw [this]
      split_ifs <;> exact le_refl _
    · obtain ⟨d, hd, _⟩ := hex
      exact absurd hd (List.not_mem_nil d)
  | cons d ds ih =>
    intro c hc hca hds
    have hd := hds d (List.mem_cons_self d ds)
    have hrest : ∀ x ∈ ds, x.myAllowOverride = true ∧ StrengthOK K x :=
      fun x hx => hds x (List.mem_cons_of_mem d hx)
    obtain ⟨sa, sl, ss, sv⟩ := merge_override_step K hK c d hc hd.2 hca hd.1
    have hok := merge_strengthOK K hK c d hc hd.2
    obtain ⟨ihA, ihB⟩ := ih (merge K c d) hok sa hrest
    rw [sl] at ihA ihB
    have hml : mergeList K c (d :: ds) = mergeList K (merge K c d) ds := rfl
    rw [hml]
    cases hcs : hasStrength K c <;> cases hdS : hasStrength K d
    · -- neither carries strength
      rw [hcs, hdS] at ss sv
      refine ⟨fun h => absurd h (by simp), fun _ hex => ?_⟩
      have hv : strengthBearingValues K (d :: ds) = strengthBearingValues K ds := by
        simp [strengthBearingValues, List.filter_cons, hdS]
      rw [hv]
      apply ihB (by simpa using ss)
      obtain ⟨x, hx, hxs⟩ := hex
      rcases List.mem_cons.mp hx with hxd | hxd
      · rw [hxd, hdS] at hxs; exact absurd hxs (by simp)
      · exact ⟨x, hxd, hxs⟩
    · -- only the input carries strength
      rw [hcs, hdS] at ss sv
      refine ⟨fun h => absurd h (by simp), fun _ _ => ?_⟩
      have hv : strengthBearingValues K (d :: ds) = d.myDesired :: strengthBearingValues K ds := by
        simp [strengthBearingValues, List.filter_cons, hdS]
      have sv2 : (merge K c d).myDesired = d.myDesired := by simpa using sv
      rw [hv, ← sv2]
      exact ihA (by simpa using ss)
    · -- only the accumulator carries strength
      rw [hcs, hdS] at ss sv
      refine ⟨fun _ => ?_, fun h => absurd h (by simp)⟩
      have hv : strengthBearingValues K (d :: ds) = strengthBearingValues K ds := by
        simp [strengthBearingValues, List.filter_cons, hdS]
      have sv2 : (merge K c d).myDesired = c.myDesired := by simpa using sv
      rw [hv, ← sv2]
      exact ihA (by simpa using ss)
    · -- both carry strength
      rw [hcs, hdS] at ss sv
      refine ⟨fun _ => ?_, fun h => absurd h (by simp)⟩
      have hv : strengthBearingValues K (d :: ds) = d.myDesired :: strengthBearingValues K ds := by
        simp [strengthBearingValues, List.filter_cons, hdS]
      rw [hv]
      obtain ⟨hmem, hle⟩ := ihA (by simpa using ss)
      have hfirst := hle (merge K c d).myDesired (List.mem_cons_self _ _)
      cases hlt : c.myOverrideDoesLessThan
      · -- policy max
        rw [hlt] at hle hfirst sv
        have sv2 : (merge K c d).myDesired = max c.myDesired d.myDesired := by simpa using sv
        rw [sv2] at hmem hle hfirst
        have hfirst2 : max c.myDesired d.myDesired ≤ (mergeList K (merge K c d) ds).myDesired := by
          simpa using hfirst
        constructor
        · rcases List.mem_cons.mp hmem with h | h
          · rcases max_choice c.myDesired d.myDesired with hm | hm
            · rw [h, hm]; exact List.mem_cons_self _ _
            · rw [h, hm]; exact List.mem_cons_of_mem _ (List.mem_cons_self _ _)
          · exact List.mem_cons_of_mem _ (List.mem_cons_of_mem _ h)
        · intro y hy
          simp only [Bool.false_eq_true, if_false]
          rcases List.mem_cons.mp hy with h | h
          · rw [h]; exact le_trans (le_max_left _ _) hfirst2
          · rcases List.mem_cons.mp h with h | h
            · rw [h]; exact le_trans (le_max_right _ _) hfirst2
            · simpa using hle y (List.mem_cons_of_mem _ h)
      · -- policy min
        rw [hlt] at hle hfirst sv
        have sv2 : (merge K c d).myDesired = min c.myDesired d.myDesired := by simpa using sv
        rw [sv2] at hmem hle hfirst
        have hfirst2 : (mergeList K (merge K c d) ds).myDesired ≤ min c.myDesired d.myDesired := by
          simpa using hfirst
        constructor
        · rcases List.mem_cons.mp hmem with h | h
          · rcases min_choice c.myDesired d.myDesired with hm | hm
            · rw [h, hm]; exact List.mem_cons_self _ _
            · rw [h, hm]; exact List.mem_cons_of_mem _ (List.mem_cons_self _ _)
          · exact List.mem_cons_of_mem _ (List.mem_cons_of_mem _ h)
        · intro y hy
          simp only [if_true]
          rcases List.mem_cons.mp hy with h | h
          · rw [h]; exact le_trans hfirst2 (min_le_left _ _)
          · rcases List.mem_cons.mp h with h | h
            · rw [h]; exact le_trans hfirst2 (min_le_right _ _)
            · simpa using hle y (List.mem_cons_of_mem _ h)

/-- A list has at most one extremum for a given policy. -/
theorem IsExtremum.unique {lessThan : Bool} {l : List ℚ} {x y : ℚ}
    (hx : IsExtremum lessThan l x) (hy : IsExtremum lessThan l y) : x = y := by
  have h1 := hx.2 y hy.1
  have h2 := hy.2 x hx.1
  cases lessThan
  · exact le_antisymm (by simpa using h2) (by simpa using h1)
  · exact le_antisymm (by simpa using h1) (by simpa using h2)

/-- The extremum of a list only depends on its elements. -/
theorem IsExtremum.of_perm {lessThan : Bool} {l l2 : List ℚ} {x : ℚ}
    (hp : l.Perm l2) (hx : IsExtremum lessThan l x) : IsExtremum lessThan l2 x :=
  ⟨hp.mem_iff.mp hx.1, fun y hy => hx.2 y (hp.mem_iff.mpr hy)⟩

/-- Merging override-allowing channels into a reset channel gives the extremum of the
strength-bearing inputs. -/
theorem mergeList_reset_override (K : Strengths) (hK : K.Ordered) (acc : ArActionDesiredChannel)
    (cs : List ArActionDesiredChannel)
    (hcs : ∀ c ∈ cs, c.myAllowOverride = true ∧ StrengthOK K c)
    (hex : ∃ c ∈ cs, hasStrength K c = true) :
    IsExtremum acc.myOverrideDoesLessThan (strengthBearingValues K cs)
      (mergeList K (reset K acc) cs).myDesired := by
  have hns : hasStrength K (reset K acc) = false := by
    obtain ⟨h0, h1, _⟩ := hK
    simp [hasStrength, reset, h0, h1]
  exact (mergeList_override_aux K hK cs (reset K acc) (Or.inl rfl) rfl hcs).2 hns hex

/-- C1: with `NO_STRENGTH = 0 < MIN_STRENGTH ≤ MAX_STRENGTH`, let channels that all allow
override (each with a strength that is `NO_STRENGTH` or in `[MIN_STRENGTH, MAX_STRENGTH]`)
be merged one after another into a reset channel, at least one of them carrying strength.
Under the policy `min` the final value is the minimum of the values of the strength-bearing
inputs, under the policy `max` it is their maximum, and the final value is the same for
every permutation of the inputs. -/
theorem mergeList_override_extremum (K : Strengths) (hK : K.Ordered)
    (acc : ArActionDesiredChannel) (cs : List ArActionDesiredChannel)
    (hcs : ∀ c ∈ cs, c.myAllowOverride = true ∧ StrengthOK K c)
    (hex : ∃ c ∈ cs, hasStrength K c = true) :
    (acc.myOverrideDoesLessThan = true →
      (mergeList K (reset K acc) cs).myDesired ∈ strengthBearingValues K cs ∧
      ∀ y ∈ strengthBearingValues K cs, (mergeList K (reset K acc) cs).myDesired ≤ y) ∧
    (acc.myOverrideDoesLessThan = false →
      (mergeList K (reset K acc) cs).myDesired ∈ strengthBearingValues K cs ∧
      ∀ y ∈ strengthBearingValues K cs, y ≤ (mergeList K (reset K acc) cs).myDesired) ∧
    (∀ cs2 : List ArActionDesiredChannel, cs.Perm cs2 →
      (mergeList K (reset K acc) cs2).myDesired = (mergeList K (reset K acc) cs).myDesired) := by
  have hmain := mergeList_reset_override K hK acc cs hcs hex
  refine ⟨fun hlt => ?_, fun hlt => ?_, fun cs2 hp => ?_⟩
  · rw [hlt] at hmain
    exact ⟨hmain.1, fun y hy => by simpa using hmain.2 y hy⟩
  · rw [hlt] at hmain
    exact ⟨hmain.1, fun y hy => by simpa using hmain.2 y hy⟩
  · have hcs2 : ∀ c ∈ cs2, c.myAllowOverride = true ∧ StrengthOK K c :=
      fun c hc => hcs c (hp.mem_iff.mpr hc)
    have hex2 : ∃ c ∈ cs2, hasStrength K c = true := by
      obtain ⟨c, hc, hs⟩ := hex
      exact ⟨c, hp.mem_iff.mp hc, hs⟩
    have h2 := mergeList_reset_override K hK acc cs2 hcs2 hex2
    have hpv : (strengthBearingValues K cs2).Perm (strengthBearingValues K cs) :=
      ((hp.symm.filter _).map _)
    exact IsExtremum.unique (IsExtremum.of_perm hpv h2) hmain

/-- A witness for `mergeList_override_extremum`: caps 800, 500 and 300 merged into a newly
constructed channel (policy `min`). -/
theorem mergeList_override_extremum_witness :
    stdStrengths.Ordered ∧
    ((mergeList stdStrengths (reset stdStrengths (new stdStrengths)) overrideInputs).myDesired
        ∈ strengthBearingValues stdStrengths overrideInputs ∧
      ∀ y ∈ strengthBearingValues stdStrengths overrideInputs,
        (mergeList stdStrengths (reset stdStrengths (new stdStrengths)) overrideInputs).myDesired
          ≤ y) :=
  ⟨by norm_num [Strengths.Ordered, stdStrengths],
   (mergeList_override_extremum stdStrengths (by norm_num [Strengths.Ordered, stdStrengths])
      (new stdStrengths) overrideInputs
      (by
        intro c hc
        simp only [overrideInputs, List.mem_cons, List.mem_singleton, List.not_mem_nil,
          or_false] at hc
        rcases hc with h | h | h <;> subst h <;>
          norm_num [StrengthOK, setDesired, clampStrength, stdStrengths])
      ⟨setDesired stdStrengths (new stdStrengths) 800 1 true, by simp [overrideInputs],
        by norm_num [hasStrength, setDesired, clampStrength, stdStrengths]⟩).1 rfl⟩

/-- A channel satisfying the invariant has a non-negative strength. -/
theorem strengthOK_nonneg {K : Strengths} (hK : K.Ordered) {c : ArActionDesiredChannel}
    (hc : StrengthOK K c) : 0 ≤ c.myStrength := by
  obtain ⟨h0, h1, _⟩ := hK
  rcases hc with hc | hc
  · rw [hc, h0]
  · linarith [hc.1]

/-- The strengths of a list of channels satisfying the invariant sum to a non-negative
number. -/
theorem sum_strength_nonneg (K : Strengths) (hK : K.Ordered) (ds : List ArActionDesiredChannel)
    (hds : ∀ d ∈ ds, StrengthOK K d) : 0 ≤ (ds.map myStrength).sum := by
  apply List.sum_nonneg
  intro x hx
  obtain ⟨d, hd, rfl⟩ := List.mem_map.mp hx
  exact strengthOK_nonneg hK (hds d hd)

/-- Over channels satisfying the invariant, the sums over the strength-bearing channels are
the sums over all channels, the others having strength zero. -/
theorem sums_eq_all (K : Strengths) (hK : K.Ordered) (ds : List ArActionDesiredChannel)
    (hds : ∀ d ∈ ds, StrengthOK K d) :
    strengthSum K ds = (ds.map myStrength).sum ∧
    weightedSum K ds = (ds.map (fun c => c.myStrength * c.myDesired)).sum := by
  induction ds with
  | nil => exact ⟨rfl, rfl⟩
  | cons d ds ih =>
    obtain ⟨ih1, ih2⟩ := ih (fun x hx => hds x (List.mem_cons_of_mem d hx))
    unfold strengthSum weightedSum at *
    cases hd : hasStrength K d
    · have hz := strength_zero_of_not_hasStrength K hK d (hds d (List.mem_cons_self d ds)) hd
      simp [List.filter_cons, hd, ih1, ih2, hz]
    · simp [List.filter_cons, hd, ih1, ih2]

/-- Merging a list of channels that do not allow override, while the cap is not reached:
the strengths add up and the product of strength and value accumulates the weighted sum. -/
theorem mergeList_average_aux (K : Strengths) (hK : K.Ordered)
    (ds : List ArActionDesiredChannel) :
    ∀ c : ArActionDesiredChannel, (c.myStrength = 0 ∨ K.MIN_STRENGTH ≤ c.myStrength) →
      (∀ d ∈ ds, d.myAllowOverride = false ∧ StrengthOK K d) →
      c.myStrength + (ds.map myStrength).sum ≤ K.MAX_STRENGTH →
      (mergeList K c ds).myStrength = c.myStrength + (ds.map myStrength).sum ∧
      (mergeList K c ds).myStrength * (mergeList K c ds).myDesired
        = c.myStrength * c.myDesired + (ds.map (fun x => x.myStrength * x.myDesired)).sum := by
  induction ds with
  | nil =>
    intro c _ _ _
    simp [mergeList]
  | cons d ds ih =>
    intro c hc hds hsum
    have hd := hds d (List.mem_cons_self d ds)
    have hrest : ∀ x ∈ ds, x.myAllowOverride = false ∧ StrengthOK K x :=
      fun x hx => hds x (List.mem_cons_of_mem d hx)
    have hnn : 0 ≤ (ds.map myStrength).sum :=
      sum_strength_nonneg K hK ds (fun x hx => (hrest x hx).2)
    have hdnn : 0 ≤ d.myStrength := strengthOK_nonneg hK hd.2
    obtain ⟨h0, h1, h2⟩ := hK
    have hcnn : 0 ≤ c.myStrength := by
      rcases hc with hc | hc
      · rw [hc]
      · linarith
    simp only [List.map_cons, List.sum_cons] at hsum ⊢
    have hcap : ¬ c.myStrength + d.myStrength > K.MAX_STRENGTH := by
      apply not_lt.mpr; linarith
    have ho : mergeOtherStrength K c d = d.myStrength := by
      simp only [mergeOtherStrength, if_neg hcap]
    have hs : (merge K c d).myStrength = c.myStrength + d.myStrength := by
      show c.myStrength + mergeOtherStrength K c d = _
      rw [ho]
    have hdz : d.myStrength = 0 ∨ K.MIN_STRENGTH ≤ d.myStrength := by
      rcases hd.2 with h | h
      · exact Or.inl (by rw [h, h0])
      · exact Or.inr h.1
    have hv : (merge K c d).myStrength * (merge K c d).myDesired
        = c.myStrength * c.myDesired + d.myStrength * d.myDesired := by
      rw [hs]
      by_cases hm : K.MIN_STRENGTH ≤ c.myStrength + d.myStrength
      · have hne : c.myStrength + d.myStrength ≠ 0 := ne_of_gt (lt_of_lt_of_le h1 hm)
        have hval : (merge K c d).myDesired
            = (c.myStrength * c.myDesired + d.myDesired * d.myStrength)
                / (c.myStrength + d.myStrength) := by
          simp [merge, ho, hd.1, hm]
        rw [hval]
        field_simp
        ring
      · have hcz : c.myStrength = 0 := by
          rcases hc with h | h
          · exact h
          · exact absurd (by linarith) hm
        have hdz2 : d.myStrength = 0 := by
          rcases hdz with h | h
          · exact h
          · exact absurd (by linarith) hm
        rw [hcz, hdz2]
        ring
    have hc2 : (merge K c d).myStrength = 0 ∨ K.MIN_STRENGTH ≤ (merge K c d).myStrength := by
      rw [hs]
      rcases hc with h | h <;> rcases hdz with h3 | h3
      · exact Or.inl (by rw [h, h3]; norm_num)
      · exact Or.inr (by linarith)
      · exact Or.inr (by linarith)
      · exact Or.inr (by linarith)
    have hsum2 : (merge K c d).myStrength + (ds.map myStrength).sum ≤ K.MAX_STRENGTH := by
      rw [hs]; linarith
    obtain ⟨r1, r2⟩ := ih (merge K c d) hc2 hrest hsum2
    have hml : mergeList K c (d :: ds) = mergeList K (merge K c d) ds := rfl
    rw [hml, r2, r1, hv, hs]
    constructor <;> ring

/-- Merging channels that do not allow override into a reset channel, while their strengths
sum to at most `MAX_STRENGTH`: strength and value of the result. -/
theorem mergeList_reset_average (K : Strengths) (hK : K.Ordered) (acc : ArActionDesiredChannel)
    (cs : List ArActionDesiredChannel)
    (hcs : ∀ c ∈ cs, c.myAllowOverride = false ∧ StrengthOK K c)
    (hex : ∃ c ∈ cs, hasStrength K c = true)
    (hsum : (cs.map myStrength).sum ≤ K.MAX_STRENGTH) :
    (mergeList K (reset K acc) cs).myDesired = weightedSum K cs / strengthSum K cs ∧
    (mergeList K (reset K acc) cs).myStrength = strengthSum K cs := by
  have hall := sums_eq_all K hK cs (fun c hc => (hcs c hc).2)
  have hr0 : (reset K acc).myStrength = 0 := hK.1
  obtain ⟨r1, r2⟩ := mergeList_average_aux K hK cs (reset K acc) (Or.inl hr0) hcs
    (by rw [hr0, zero_add]; exact hsum)
  rw [hr0, zero_add] at r1
  rw [hr0, zero_mul, zero_add] at r2
  have hpos : 0 < (cs.map myStrength).sum := by
    obtain ⟨c, hc, hs⟩ := hex
    have h1 : K.MIN_STRENGTH ≤ c.myStrength := by simpa [hasStrength] using hs
    have h2 : c.myStrength ≤ (cs.map myStrength).sum := by
      apply List.single_le_sum
      · intro x hx
        obtain ⟨d, hd, rfl⟩ := List.mem_map.mp hx
        exact strengthOK_nonneg hK (hcs d hd).2
      · exact List.mem_map.mpr ⟨c, hc, rfl⟩
    linarith [hK.2.1]
  rw [hall.1, hall.2]
  refine ⟨?_, r1⟩
  rw [← r2, r1]
  field_simp

/-- C2: with `NO_STRENGTH = 0 < MIN_STRENGTH ≤ MAX_STRENGTH`, let channels none of which
allows override (each with a strength that is `NO_STRENGTH` or in
`[MIN_STRENGTH, MAX_STRENGTH]`) be merged one after another into a reset channel, at least
one of them carrying strength and the strengths summing to at most `MAX_STRENGTH`.  The
final value is exactly `(Σ s_i * v_i) / (Σ s_i)` over the strength-bearing inputs, the final
strength is `Σ s_i`, and both are the same for every permutation of the inputs. -/
theorem mergeList_weighted_mean (K : Strengths) (hK : K.Ordered) (acc : ArActionDesiredChannel)
    (cs : List ArActionDesiredChannel)
    (hcs : ∀ c ∈ cs, c.myAllowOverride = false ∧ StrengthOK K c)
    (hex : ∃ c ∈ cs, hasStrength K c = true)
    (hsum : (cs.map myStrength).sum ≤ K.MAX_STRENGTH) :
    (mergeList K (reset K acc) cs).myDesired = weightedSum K cs / strengthSum K cs ∧
    (mergeList K (reset K acc) cs).myStrength = strengthSum K cs ∧
    (∀ cs2 : List ArActionDesiredChannel, cs.Perm cs2 →
      (mergeList K (reset K acc) cs2).myDesired = (mergeList K (reset K acc) cs).myDesired ∧
      (mergeList K (reset K acc) cs2).myStrength = (mergeList K (reset K acc) cs).myStrength) := by
  obtain ⟨h1, h2⟩ := mergeList_reset_average K hK acc cs hcs hex hsum
  refine ⟨h1, h2, fun cs2 hp => ?_⟩
  have hcs2 : ∀ c ∈ cs2, c.myAllowOverride = false ∧ StrengthOK K c :=
    fun c hc => hcs c (hp.mem_iff.mpr hc)
  have hex2 : ∃ c ∈ cs2, hasStrength K c = true := by
    obtain ⟨c, hc, hs⟩ := hex
    exact ⟨c, hp.mem_iff.mp hc, hs⟩
  have hsum2 : (cs2.map myStrength).sum ≤ K.MAX_STRENGTH := by
    rw [← (hp.map myStrength).sum_eq]; exact hsum
  obtain ⟨g1, g2⟩ := mergeList_reset_average K hK acc cs2 hcs2 hex2 hsum2
  have e1 : strengthSum K cs2 = strengthSum K cs :=
    (((hp.symm.filter _).map _)).sum_eq
  have e2 : weightedSum K cs2 = weightedSum K cs :=
    (((hp.symm.filter _).map _)).sum_eq
  rw [g1, g2, h1, h2, e1, e2]
  exact ⟨rfl, rfl⟩

/-- A witness for `mergeList_weighted_mean`: 100 at strength 1/4, 200 at strength 1/2 and a
contribution without strength. -/
theorem mergeList_weighted_mean_witness :
    stdStrengths.Ordered ∧
    (mergeList stdStrengths (reset stdStrengths (new stdStrengths)) averageInputs).myDesired
      = weightedSum stdStrengths averageInputs / strengthSum stdStrengths averageInputs :=
  ⟨by norm_num [Strengths.Ordered, stdStrengths],
   (mergeList_weighted_mean stdStrengths (by norm_num [Strengths.Ordered, stdStrengths])
      (new stdStrengths) averageInputs
      (by
        intro c hc
        simp only [averageInputs, List.mem_cons, List.mem_singleton, List.not_mem_nil,
          or_false] at hc
        rcases hc with h | h | h <;> subst h <;>
          norm_num [StrengthOK, setDesired, clampStrength, stdStrengths])
      ⟨setDesired stdStrengths (new stdStrengths) 100 (1 / 4) false, by simp [averageInputs],
        by norm_num [hasStrength, setDesired, clampStrength, stdStrengths]⟩
      (by norm_num [averageInputs, setDesired, clampStrength, stdStrengths])).1⟩

/-- The capped share of the second contributor of a merge is `min s2 (MAX_STRENGTH - s1)`,
whatever the two strengths are. -/
theorem mergeOtherStrength_eq_min (K : Strengths) (a b : ArActionDesiredChannel) :
    mergeOtherStrength K a b = min b.myStrength (K.MAX_STRENGTH - a.myStrength) := by
  unfold mergeOtherStrength
  by_cases h : a.myStrength + b.myStrength > K.MAX_STRENGTH
  · rw [if_pos h, min_eq_right (by linarith)]
  · rw [if_neg h, min_eq_left (by linarith [not_lt.mp h])]

/-- The merged strength of two strength-bearing channels is at least `MIN_STRENGTH`, when
`0 ≤ MIN_STRENGTH ≤ MAX_STRENGTH`. -/
theorem merge_strength_ge_min (K : Strengths) (h0 : 0 ≤ K.MIN_STRENGTH)
    (h1 : K.MIN_STRENGTH ≤ K.MAX_STRENGTH) (a b : ArActionDesiredChannel)
    (ha : K.MIN_STRENGTH ≤ a.myStrength) (hb : K.MIN_STRENGTH ≤ b.myStrength) :
    K.MIN_STRENGTH ≤ a.myStrength + mergeOtherStrength K a b := by
  unfold mergeOtherStrength
  by_cases h : a.myStrength + b.myStrength > K.MAX_STRENGTH
  · rw [if_pos h]; linarith
  · rw [if_neg h]; linarith

/-- C12: when `a` and `b` both allow override and both carry strength (`>= MIN_STRENGTH`),
the value of `a` after `a.merge(b)` is `min v1 v2` under the policy "less than" of `a` and
`max v1 v2` otherwise, whatever the two strengths are (the constants being ordered
`0 ≤ MIN_STRENGTH ≤ MAX_STRENGTH`). -/
theorem merge_override_both (K : Strengths) (h0 : 0 ≤ K.MIN_STRENGTH)
    (h1 : K.MIN_STRENGTH ≤ K.MAX_STRENGTH) (a b : ArActionDesiredChannel)
    (haf : a.myAllowOverride = true) (hbf : b.myAllowOverride = true)
    (ha : K.MIN_STRENGTH ≤ a.myStrength) (hb : K.MIN_STRENGTH ≤ b.myStrength) :
    (a.myOverrideDoesLessThan = true →
      (merge K a b).myDesired = min a.myDesired b.myDesired) ∧
    (a.myOverrideDoesLessThan = false →
      (merge K a b).myDesired = max a.myDesired b.myDesired) := by
  have hs := merge_strength_ge_min K h0 h1 a b ha hb
  constructor
  · intro hp
    simp [merge, haf, hbf, ha, hb, hs, hp]
  · intro hp
    simp [merge, haf, hbf, ha, hb, hs, hp]

/-- A witness for `merge_override_both`: caps 800 and 500 at strengths 1 and 1/2, merged
under the policy "less than" of a newly constructed channel. -/
theorem merge_override_both_witness :
    (0 ≤ stdStrengths.MIN_STRENGTH ∧ stdStrengths.MIN_STRENGTH ≤ stdStrengths.MAX_STRENGTH) ∧
    (merge stdStrengths (setDesired stdStrengths (new stdStrengths) 800 1 true)
        (setDesired stdStrengths (new stdStrengths) 500 (1 / 2) true)).myDesired
      = min (setDesired stdStrengths (new stdStrengths) 800 1 true).myDesired
          (setDesired stdStrengths (new stdStrengths) 500 (1 / 2) true).myDesired :=
  ⟨by norm_num [stdStrengths],
   (merge_override_both stdStrengths (by norm_num [stdStrengths]) (by norm_num [stdStrengths])
      (setDesired stdStrengths (new stdStrengths) 800 1 true)
      (setDesired stdStrengths (new stdStrengths) 500 (1 / 2) true)
      rfl rfl
      (by norm_num [setDesired, clampStrength, stdStrengths])
      (by norm_num [setDesired, clampStrength, stdStrengths])).1 rfl⟩

/-- C13: with `NO_STRENGTH = 0 < MIN_STRENGTH ≤ MAX_STRENGTH`, when `a` and `b` both allow
override and exactly one of them carries strength, the other having `NO_STRENGTH`, the value
of `a` after `a.merge(b)` is the value of the strength-bearing side: its own value if `a`
carried the strength, the value of `b` if `b` did. -/
theorem merge_override_one_side (K : Strengths) (hK : K.Ordered) (a b : ArActionDesiredChannel)
    (haf : a.myAllowOverride = true) (hbf : b.myAllowOverride = true) :
    (K.MIN_STRENGTH ≤ a.myStrength → b.myStrength = K.NO_STRENGTH →
      (merge K a b).myDesired = a.myDesired) ∧
    (a.myStrength = K.NO_STRENGTH → K.MIN_STRENGTH ≤ b.myStrength →
      (merge K a b).myDesired = b.myDesired) := by
  obtain ⟨h0, h1, h2⟩ := hK
  constructor
  · intro _ hb
    have hb2 : ¬ K.MIN_STRENGTH ≤ b.myStrength := by rw [hb, h0]; exact not_le.mpr h1
    simp only [merge, haf, hbf, Bool.and_self, true_and, ge_iff_le, hb2, and_false, if_false]
    split_ifs <;> rfl
  · intro ha hb
    have ha2 : ¬ K.MIN_STRENGTH ≤ a.myStrength := by rw [ha, h0]; exact not_le.mpr h1
    have hs : K.MIN_STRENGTH ≤ a.myStrength + mergeOtherStrength K a b := by
      rw [ha, h0, zero_add]
      unfold mergeOtherStrength
      rw [ha, h0, zero_add, sub_zero]
      split_ifs
      · exact h2
      · exact hb
    simp [merge, haf, hbf, ha2, hb, hs]

/-- A witness for `merge_override_one_side`: a reset channel merged with a cap of 300 at
strength 1 takes the value 300. -/
theorem merge_override_one_side_witness :
    stdStrengths.Ordered ∧
    (merge stdStrengths (reset stdStrengths (new stdStrengths))
        (setDesired stdStrengths (new stdStrengths) 300 1 true)).myDesired
      = (setDesired stdStrengths (new stdStrengths) 300 1 true).myDesired :=
  ⟨by norm_num [Strengths.Ordered, stdStrengths],
   (merge_override_one_side stdStrengths (by norm_num [Strengths.Ordered, stdStrengths])
      (reset stdStrengths (new stdStrengths))
      (setDesired stdStrengths (new stdStrengths) 300 1 true) rfl rfl).2 rfl
      (by norm_num [setDesired, clampStrength, stdStrengths])⟩

/-- C14: after `a.merge(b)`, and likewise after `a.addAverage(b)`, the override flag of `a`
is the conjunction of the flags `a` and `b` had before the call, and the override policy of
`a` is the one it had.  Both methods read `b` through its getters only: the state of `b` is
an argument of the embedded function and not part of its result. -/
theorem merge_addAverage_flag (K : Strengths) (a b : ArActionDesiredChannel) :
    (merge K a b).myAllowOverride = (a.myAllowOverride && b.myAllowOverride) ∧
    (addAverage K a b).myAllowOverride = (a.myAllowOverride && b.myAllowOverride) ∧
    (merge K a b).myOverrideDoesLessThan = a.myOverrideDoesLessThan ∧
    (addAverage K a b).myOverrideDoesLessThan = a.myOverrideDoesLessThan :=
  ⟨rfl, rfl, rfl, rfl⟩

/-- C15: when the accumulator holds the strength `MAX_STRENGTH > 0` and the merge does not
allow override (the accumulator or the other channel has the flag cleared), merging a
channel of strength `s2 ≥ 0` leaves the value and the strength of the accumulator exactly as
they were (the bound `s2 ≤ MAX_STRENGTH` is not needed). -/
theorem merge_full_strength_frame (K : Strengths) (hmax : 0 < K.MAX_STRENGTH)
    (a b : ArActionDesiredChannel) (ha : a.myStrength = K.MAX_STRENGTH)
    (hflag : a.myAllowOverride = false ∨ b.myAllowOverride = false)
    (hb : 0 ≤ b.myStrength) :
    (merge K a b).myDesired = a.myDesired ∧ (merge K a b).myStrength = a.myStrength := by
  have ho : mergeOtherStrength K a b = 0 := by
    unfold mergeOtherStrength
    rw [ha]
    split_ifs with h
    · ring
    · linarith [not_lt.mp h]
  have hf : (a.myAllowOverride && b.myAllowOverride) = false := by
    rcases hflag with h | h <;> simp [h]
  have hne : K.MAX_STRENGTH ≠ 0 := ne_of_gt hmax
  constructor
  · simp only [merge, ho, hf, add_zero, mul_zero, Bool.false_eq_true, false_and, if_false]
    split_ifs
    · rw [ha]; field_simp
    · rfl
  · simp only [merge, ho, add_zero]

/-- A witness for `merge_full_strength_frame`: the accumulator wants 500 at strength 1, the
other channel wants 0 at strength 1. -/
theorem merge_full_strength_frame_witness :
    (0 : ℚ) < stdStrengths.MAX_STRENGTH ∧
    (merge stdStrengths (setDesired stdStrengths (new stdStrengths) 500 1 false)
        (setDesired stdStrengths (new stdStrengths) 0 1 true)).myDesired
      = (setDesired stdStrengths (new stdStrengths) 500 1 false).myDesired :=
  ⟨by norm_num [stdStrengths],
   (merge_full_strength_frame stdStrengths (by norm_num [stdStrengths])
      (setDesired stdStrengths (new stdStrengths) 500 1 false)
      (setDesired stdStrengths (new stdStrengths) 0 1 true)
      (by norm_num [setDesired, clampStrength, stdStrengths])
      (Or.inl rfl)
      (by norm_num [setDesired, clampStrength, stdStrengths])).1⟩

/-- The state of a channel after a run of `addAverage` calls: the totals have grown by the
sums over the added channels, the flag is the conjunction of all flags, and the strength and
the policy are untouched. -/
theorem foldl_addAverage_state (K : Strengths) (ds : List ArActionDesiredChannel) :
    ∀ c : ArActionDesiredChannel,
      (ds.foldl (addAverage K) c).myDesiredTotal
        = c.myDesiredTotal + (ds.map (fun d => d.myDesired * d.myStrength)).sum ∧
      (ds.foldl (addAverage K) c).myStrengthTotal
        = c.myStrengthTotal + (ds.map myStrength).sum ∧
      (ds.foldl (addAverage K) c).myAllowOverride
        = (c.myAllowOverride && ds.all (fun d => d.myAllowOverride)) ∧
      (ds.foldl (addAverage K) c).myStrength = c.myStrength := by
  induction ds with
  | nil => intro c; simp
  | cons d ds ih =>
    intro c
    obtain ⟨h1, h2, h3, h4⟩ := ih (addAverage K c d)
    simp only [List.foldl_cons, List.map_cons, List.sum_cons, List.all_cons]
    rw [h1, h2, h3, h4]
    refine ⟨?_, ?_, ?_, rfl⟩
    · show c.myDesiredTotal + d.myDesired * d.myStrength + _ = _
      ring
    · show c.myStrengthTotal + d.myStrength + _ = _
      ring
    · show ((c.myAllowOverride && d.myAllowOverride) && _) = _
      rw [Bool.and_assoc]

/-- C16: let `c0` (value `v0`, strength `s0`) go through `startAverage`, one `addAverage`
per channel `c1..cn` of a list and `endAverage`, the conjunction of all override flags
(that of `c0` included) being false.  If the total `S = s0 + s1 + ... + sn` is at least
`MIN_STRENGTH`, the value of `c0` is `(s0 * v0 + s1 * v1 + ... + sn * vn) / S` and its
strength is `min S MAX_STRENGTH`. -/
theorem averageList_weighted_mean (K : Strengths) (c0 : ArActionDesiredChannel)
    (cs : List ArActionDesiredChannel)
    (hflag : (c0.myAllowOverride && cs.all (fun d => d.myAllowOverride)) = false)
    (hS : K.MIN_STRENGTH ≤ c0.myStrength + (cs.map myStrength).sum) :
    (averageList K c0 cs).myDesired
      = (c0.myStrength * c0.myDesired + (cs.map (fun d => d.myStrength * d.myDesired)).sum)
          / (c0.myStrength + (cs.map myStrength).sum) ∧
    (averageList K c0 cs).myStrength
      = min (c0.myStrength + (cs.map myStrength).sum) K.MAX_STRENGTH := by
  obtain ⟨h1, h2, h3, _⟩ := foldl_addAverage_state K cs (startAverage c0)
  have e1 : (startAverage c0).myDesiredTotal = c0.myDesired * c0.myStrength := rfl
  have e2 : (startAverage c0).myStrengthTotal = c0.myStrength := rfl
  have e3 : (startAverage c0).myAllowOverride = c0.myAllowOverride := rfl
  rw [e1] at h1
  rw [e2] at h2
  rw [e3, hflag] at h3
  have hsw : (cs.map (fun d => d.myDesired * d.myStrength))
      = cs.map (fun d => d.myStrength * d.myDesired) := by
    apply List.map_congr_left
    intro d _
    ring
  have hnot : ¬ (cs.foldl (addAverage K) (startAverage c0)).myStrengthTotal < K.MIN_STRENGTH := by
    rw [h2]; exact not_lt.mpr hS
  unfold averageList endAverage
  rw [if_neg hnot]
  simp only [h1, h2, h3, if_true]
  constructor
  · rw [hsw, mul_comm c0.myDesired]
  · by_cases hc : c0.myStrength + (cs.map myStrength).sum > K.MAX_STRENGTH
    · rw [if_pos hc, min_eq_right hc.le]
    · rw [if_neg hc, min_eq_left (not_lt.mp hc)]

/-- A witness for `averageList_weighted_mean`: a newly constructed channel averaged with 100
at strength 1/4, 200 at strength 1/2 and a contribution without strength. -/
theorem averageList_weighted_mean_witness :
    (averageList stdStrengths (new stdStrengths) averageInputs).myStrength
      = min ((new stdStrengths).myStrength + (averageInputs.map myStrength).sum)
          stdStrengths.MAX_STRENGTH :=
  (averageList_weighted_mean stdStrengths (new stdStrengths) averageInputs
    (by simp [averageInputs, new, reset, defaultMembers, setDesired])
    (by norm_num [averageInputs, new, reset, defaultMembers, setDesired, clampStrength,
      stdStrengths])).2

/-- Counterexample to C17: a newly constructed channel is averaged with one channel whose
strength is exactly `MIN_STRENGTH`.  The accumulated total strength does not exceed
`MIN_STRENGTH`, yet the resulting strength is `MIN_STRENGTH` and not `NO_STRENGTH`. -/
theorem averageList_total_eq_min_counterexample :
    ([setDesired stdStrengths (new stdStrengths) 7 stdStrengths.MIN_STRENGTH false].foldl
        (addAverage stdStrengths) (startAverage (new stdStrengths))).myStrengthTotal
      ≤ stdStrengths.MIN_STRENGTH ∧
    (averageList stdStrengths (new stdStrengths)
        [setDesired stdStrengths (new stdStrengths) 7 stdStrengths.MIN_STRENGTH false]).myStrength
      = stdStrengths.MIN_STRENGTH ∧
    (averageList stdStrengths (new stdStrengths)
        [setDesired stdStrengths (new stdStrengths) 7 stdStrengths.MIN_STRENGTH false]).myStrength
      ≠ stdStrengths.NO_STRENGTH := by
  norm_num [averageList, endAverage, addAverage, startAverage, new, reset, defaultMembers,
    setDesired, clampStrength, stdStrengths]

/-- C17 as amended: after `startAverage`, the `addAverage` calls and `endAverage`, if the
accumulated total strength `s0 + s1 + ... + sn` is less than `MIN_STRENGTH`, the resulting
strength is `NO_STRENGTH`, whatever the values were. -/
theorem averageList_below_min (K : Strengths) (c0 : ArActionDesiredChannel)
    (cs : List ArActionDesiredChannel)
    (hS : c0.myStrength + (cs.map myStrength).sum < K.MIN_STRENGTH) :
    (averageList K c0 cs).myStrength = K.NO_STRENGTH := by
  obtain ⟨_, h2, _, _⟩ := foldl_addAverage_state K cs (startAverage c0)
  have e2 : (startAverage c0).myStrengthTotal = c0.myStrength := rfl
  rw [e2] at h2
  have hlt : (cs.foldl (addAverage K) (startAverage c0)).myStrengthTotal < K.MIN_STRENGTH := by
    rw [h2]; exact hS
  unfold averageList endAverage
  rw [if_pos hlt]

/-- A witness for `averageList_below_min`: a newly constructed channel averaged with a
single channel on which `setDesired(40, 0)` was called. -/
theorem averageList_below_min_witness :
    (averageList stdStrengths (new stdStrengths)
        [setDesired stdStrengths (new stdStrengths) 40 0 false]).myStrength
      = stdStrengths.NO_STRENGTH :=
  averageList_below_min stdStrengths (new stdStrengths)
    [setDesired stdStrengths (new stdStrengths) 40 0 false]
    (by norm_num [new, reset, defaultMembers, setDesired, clampStrength, stdStrengths])

/-- The rotation channels after `ArActionDesired::merge` are the merged channels where
`mergeFeeds` says so and the old channels elsewhere. -/
theorem mergeRotation_eq_feeds (K : Strengths) (a b : ArActionDesired) :
    ArActionDesired.mergeRotation K a b =
      (if (ArActionDesired.mergeFeeds K a).1 = true then a.myRotVelDes.merge K b.myRotVelDes
        else a.myRotVelDes,
       if (ArActionDesired.mergeFeeds K a).2 = true then
        a.myDeltaHeadingDes.merge K b.myDeltaHeadingDes
        else a.myDeltaHeadingDes) := by
  unfold ArActionDesired.mergeRotation ArActionDesired.mergeFeeds
  by_cases h1 : a.myDeltaHeadingDes.myStrength > K.NO_STRENGTH
  · simp [h1]
  · by_cases h2 : a.myRotVelDes.myStrength > K.NO_STRENGTH
    · simp [h1, h2]
    · simp [h1, h2]

/-- The rotation channels after `ArActionDesired::addAverage` are the channels with the
contribution added where `addAverageFeeds` says so and the old channels elsewhere. -/
theorem addAverageRotation_eq_feeds (K : Strengths) (a b : ArActionDesired) :
    ArActionDesired.addAverageRotation K a b =
      (if (ArActionDesired.addAverageFeeds K a).1 = true then
        a.myRotVelDes.addAverage K b.myRotVelDes
        else a.myRotVelDes,
       if (ArActionDesired.addAverageFeeds K a).2 = true then
        a.myDeltaHeadingDes.addAverage K b.myDeltaHeadingDes
        else a.myDeltaHeadingDes) := by
  unfold ArActionDesired.addAverageRotation ArActionDesired.addAverageFeeds
  by_cases h1 : a.myRotVelDes.myStrength > K.NO_STRENGTH
  · simp [h1]
  · by_cases h2 : a.myDeltaHeadingDes.myStrength > K.NO_STRENGTH
    · simp [h1, h2]
    · simp [h1, h2]

/-- As long as the accumulator does not carry strength on both rotation channels, `merge`
and `addAverage` feed the same rotation channels. -/
theorem feeds_agree_unless_both (K : Strengths) (a : ArActionDesired)
    (h : ¬ (a.myDeltaHeadingDes.myStrength > K.NO_STRENGTH ∧
            a.myRotVelDes.myStrength > K.NO_STRENGTH)) :
    ArActionDesired.addAverageFeeds K a = ArActionDesired.mergeFeeds K a := by
  unfold ArActionDesired.addAverageFeeds ArActionDesired.mergeFeeds
  by_cases h1 : a.myDeltaHeadingDes.myStrength > K.NO_STRENGTH <;>
    by_cases h2 : a.myRotVelDes.myStrength > K.NO_STRENGTH
  · exact absurd ⟨h1, h2⟩ h
  · simp [h1, h2]
  · simp [h1, h2]
  · simp [h1, h2]

/-- C18, the code at the failing input: the accumulator carries strength on delta heading
and on rotational velocity (both set at strength 1) and has started an average.  From this
state `addAverage` feeds the rotational-velocity channel only and leaves the delta-heading
channel untouched, whereas `merge` feeds the delta-heading channel only and leaves the
rotational-velocity channel untouched. -/
theorem addAverage_rotation_differs_from_merge :
    ArActionDesired.bothRotations.startAverage.myDeltaHeadingDes.myStrength
      > stdStrengths.NO_STRENGTH ∧
    ArActionDesired.addAverageFeeds stdStrengths ArActionDesired.bothRotations.startAverage
      = (true, false) ∧
    ArActionDesired.mergeFeeds stdStrengths ArActionDesired.bothRotations.startAverage
      = (false, true) ∧
    (ArActionDesired.bothRotations.startAverage.addAverage stdStrengths
        (some ArActionDesired.rotationProposal)).myDeltaHeadingDes
      = ArActionDesired.bothRotations.startAverage.myDeltaHeadingDes ∧
    (ArActionDesired.bothRotations.startAverage.addAverage stdStrengths
        (some ArActionDesired.rotationProposal)).myRotVelDes
      = ArActionDesired.bothRotations.startAverage.myRotVelDes.addAverage stdStrengths
          ArActionDesired.rotationProposal.myRotVelDes ∧
    (ArActionDesired.bothRotations.startAverage.addAverage stdStrengths
        (some ArActionDesired.rotationProposal)).myRotVelDes.myStrengthTotal = 3 / 2 ∧
    ArActionDesired.bothRotations.startAverage.myRotVelDes.myStrengthTotal = 1 ∧
    (ArActionDesired.bothRotations.startAverage.merge stdStrengths
        (some ArActionDesired.rotationProposal)).myRotVelDes
      = ArActionDesired.bothRotations.startAverage.myRotVelDes ∧
    (ArActionDesired.bothRotations.startAverage.merge stdStrengths
        (some ArActionDesired.rotationProposal)).myDeltaHeadingDes
      = ArActionDesired.bothRotations.startAverage.myDeltaHeadingDes.merge stdStrengths
          ArActionDesired.rotationProposal.myDeltaHeadingDes ∧
    (ArActionDesired.bothRotations.startAverage.merge stdStrengths
        (some ArActionDesired.rotationProposal)).myDeltaHeadingDes.myAllowOverride = false := by
  norm_num [ArActionDesired.bothRotations, ArActionDesired.rotationProposal,
    ArActionDesired.addAverageFeeds, ArActionDesired.mergeFeeds, ArActionDesired.addAverage,
    ArActionDesired.addAverageRotation, ArActionDesired.merge, ArActionDesired.mergeRotation,
    ArActionDesired.startAverage, ArActionDesired.setDeltaHeading, ArActionDesired.setRotVel,
    ArActionDesired.new, addAverage, merge, mergeOtherStrength, startAverage, new, reset,
    defaultMembers, setDesired, clampStrength, stdStrengths]

/-- Counterexample to C19: a single desired action on which both `setDeltaHeading(30)` and
`setRotVel(50)` were called is merged into a reset accumulator; the accumulator then carries
strength (`>= MIN_STRENGTH`, hence `> NO_STRENGTH`) on both rotation channels. -/
theorem mergeList_both_rotations_counterexample :
    (ArActionDesired.mergeList stdStrengths ((ArActionDesired.new stdStrengths).reset stdStrengths)
        [ArActionDesired.bothRotations]).myDeltaHeadingDes.myStrength = 1 ∧
    (ArActionDesired.mergeList stdStrengths ((ArActionDesired.new stdStrengths).reset stdStrengths)
        [ArActionDesired.bothRotations]).myRotVelDes.myStrength = 1 ∧
    stdStrengths.MIN_STRENGTH ≤ 1 ∧ stdStrengths.NO_STRENGTH < 1 := by
  norm_num [ArActionDesired.mergeList, ArActionDesired.bothRotations, ArActionDesired.merge,
    ArActionDesired.mergeRotation, ArActionDesired.reset, ArActionDesired.setDeltaHeading,
    ArActionDesired.setRotVel, ArActionDesired.new, merge, mergeOtherStrength, new, reset,
    defaultMembers, setDesired, clampStrength, stdStrengths]

/-- One merge step keeps the rotation channels exclusive: if the accumulator does not carry
strength on both rotation channels and neither does the contribution, the merged
accumulator does not either (`NO_STRENGTH = 0`). -/
theorem merge_rotation_exclusive_step (K : Strengths) (hNO : K.NO_STRENGTH = 0)
    (a b : ArActionDesired)
    (ha : ¬ (a.myDeltaHeadingDes.myStrength > K.NO_STRENGTH ∧
             a.myRotVelDes.myStrength > K.NO_STRENGTH))
    (hb : ¬ (b.myDeltaHeadingDes.myStrength > K.NO_STRENGTH ∧
             b.myRotVelDes.myStrength > K.NO_STRENGTH)) :
    ¬ ((a.merge K (some b)).myDeltaHeadingDes.myStrength > K.NO_STRENGTH ∧
       (a.merge K (some b)).myRotVelDes.myStrength > K.NO_STRENGTH) := by
  have hle : ∀ c d : ArActionDesiredChannel, mergeOtherStrength K c d ≤ d.myStrength := by
    intro c d
    rw [mergeOtherStrength_eq_min]
    exact min_le_left _ _
  have hd : (a.merge K (some b)).myDeltaHeadingDes = (ArActionDesired.mergeRotation K a b).2 := rfl
  have hr : (a.merge K (some b)).myRotVelDes = (ArActionDesired.mergeRotation K a b).1 := rfl
  rw [hd, hr]
  rw [hNO] at ha hb ⊢
  unfold ArActionDesired.mergeRotation
  rw [hNO]
  by_cases h1 : a.myDeltaHeadingDes.myStrength > 0
  · rw [if_pos h1]
    exact fun h => ha ⟨h1, h.2⟩
  · rw [if_neg h1]
    by_cases h2 : a.myRotVelDes.myStrength > 0
    · rw [if_pos h2]
      exact fun h => h1 h.1
    · rw [if_neg h2]
      intro h
      have e1 : (a.myDeltaHeadingDes.merge K b.myDeltaHeadingDes).myStrength
          = a.myDeltaHeadingDes.myStrength
            + mergeOtherStrength K a.myDeltaHeadingDes b.myDeltaHeadingDes := rfl
      have e2 : (a.myRotVelDes.merge K b.myRotVelDes).myStrength
          = a.myRotVelDes.myStrength + mergeOtherStrength K a.myRotVelDes b.myRotVelDes := rfl
      have g1 := hle a.myDeltaHeadingDes b.myDeltaHeadingDes
      have g2 := hle a.myRotVelDes b.myRotVelDes
      have k1 : b.myDeltaHeadingDes.myStrength > 0 := by
        have := h.2
        simp only [e1] at this
        linarith [not_lt.mp h1]
      have k2 : b.myRotVelDes.myStrength > 0 := by
        have := h.1
        simp only [e2] at this
        linarith [not_lt.mp h2]
      exact hb ⟨k1, k2⟩

/-- C19 as amended: with `NO_STRENGTH = 0`, when desired actions none of which carries
strength (`> NO_STRENGTH`) on both its delta-heading and its rotational-velocity channel are
merged in order into a reset accumulator, the accumulator never carries strength on both of
these channels at once. -/
theorem mergeList_rotation_exclusive (K : Strengths) (hNO : K.NO_STRENGTH = 0)
    (acc : ArActionDesired) (ds : List ArActionDesired)
    (hds : ∀ d ∈ ds, ¬ (d.myDeltaHeadingDes.myStrength > K.NO_STRENGTH ∧
                        d.myRotVelDes.myStrength > K.NO_STRENGTH)) :
    ¬ ((ArActionDesired.mergeList K (acc.reset K) ds).myDeltaHeadingDes.myStrength
          > K.NO_STRENGTH ∧
       (ArActionDesired.mergeList K (acc.reset K) ds).myRotVelDes.myStrength
          > K.NO_STRENGTH) := by
  have gen : ∀ (l : List ArActionDesired) (a : ArActionDesired),
      (∀ d ∈ l, ¬ (d.myDeltaHeadingDes.myStrength > K.NO_STRENGTH ∧
                   d.myRotVelDes.myStrength > K.NO_STRENGTH)) →
      ¬ (a.myDeltaHeadingDes.myStrength > K.NO_STRENGTH ∧
         a.myRotVelDes.myStrength > K.NO_STRENGTH) →
      ¬ ((ArActionDesired.mergeList K a l).myDeltaHeadingDes.myStrength > K.NO_STRENGTH ∧
         (ArActionDesired.mergeList K a l).myRotVelDes.myStrength > K.NO_STRENGTH) := by
    intro l
    induction l with
    | nil => intro a _ ha; exact ha
    | cons d l ih =>
      intro a hl ha
      have hstep := merge_rotation_exclusive_step K hNO a d ha (hl d (List.mem_cons_self d l))
      exact ih (a.merge K (some d)) (fun x hx => hl x (List.mem_cons_of_mem d hx)) hstep
  apply gen ds (acc.reset K) hds
  intro h
  have : (acc.reset K).myDeltaHeadingDes.myStrength = K.NO_STRENGTH := rfl
  rw [this] at h
  exact lt_irrefl _ h.1

/-- A witness for `mergeList_rotation_exclusive`: a contribution that turns by 30 degrees,
then one that proposes a rotational velocity of 50, merged into a reset accumulator. -/
theorem mergeList_rotation_exclusive_witness :
    stdStrengths.NO_STRENGTH = 0 ∧
    ¬ ((ArActionDesired.mergeList stdStrengths ((ArActionDesired.new stdStrengths).reset stdStrengths)
          [(ArActionDesired.new stdStrengths).setDeltaHeading stdStrengths 30 1,
           (ArActionDesired.new stdStrengths).setRotVel stdStrengths 50 1]).myDeltaHeadingDes.myStrength
          > stdStrengths.NO_STRENGTH ∧
       (ArActionDesired.mergeList stdStrengths ((ArActionDesired.new stdStrengths).reset stdStrengths)
          [(ArActionDesired.new stdStrengths).setDeltaHeading stdStrengths 30 1,
           (ArActionDesired.new stdStrengths).setRotVel stdStrengths 50 1]).myRotVelDes.myStrength
          > stdStrengths.NO_STRENGTH) :=
  ⟨rfl,
   mergeList_rotation_exclusive stdStrengths rfl (ArActionDesired.new stdStrengths)
    [(ArActionDesired.new stdStrengths).setDeltaHeading stdStrengths 30 1,
     (ArActionDesired.new stdStrengths).setRotVel stdStrengths 50 1]
    (by
      intro d hd
      simp only [List.mem_cons, List.mem_singleton, List.not_mem_nil, or_false] at hd
      rcases hd with h | h <;> subst h <;>
        norm_num [ArActionDesired.setDeltaHeading, ArActionDesired.setRotVel,
          ArActionDesired.new, new, reset, defaultMembers, setDesired, clampStrength,
          stdStrengths])⟩

/-- C20: `checkUpperBound(limit)` and `checkLowerBound(limit)` leave a channel without
strength (`myStrength < MIN_STRENGTH`) completely unchanged; on a strength-bearing channel
they replace the value by the limit exactly when the rounded value is greater than (resp.
less than) the limit and leave the channel unchanged otherwise; strength, override flag,
totals and policy are never modified.  This holds for every rounding function `roundInt`,
and the embedded functions are total: no call fails. -/
theorem checkBounds_spec (roundInt : ℚ → ℤ) (K : Strengths) (c : ArActionDesiredChannel)
    (limit : ℤ) :
    (c.myStrength < K.MIN_STRENGTH →
      checkUpperBound roundInt K c limit = c ∧ checkLowerBound roundInt K c limit = c) ∧
    (¬ c.myStrength < K.MIN_STRENGTH →
      (roundInt c.myDesired > limit →
        (checkUpperBound roundInt K c limit).myDesired = (limit : ℚ)) ∧
      (¬ roundInt c.myDesired > limit → checkUpperBound roundInt K c limit = c) ∧
      (roundInt c.myDesired < limit →
        (checkLowerBound roundInt K c limit).myDesired = (limit : ℚ)) ∧
      (¬ roundInt c.myDesired < limit → checkLowerBound roundInt K c limit = c)) ∧
    ((checkUpperBound roundInt K c limit).myStrength = c.myStrength ∧
      (checkUpperBound roundInt K c limit).myAllowOverride = c.myAllowOverride ∧
      (checkUpperBound roundInt K c limit).myDesiredTotal = c.myDesiredTotal ∧
      (checkUpperBound roundInt K c limit).myStrengthTotal = c.myStrengthTotal ∧
      (checkUpperBound roundInt K c limit).myOverrideDoesLessThan = c.myOverrideDoesLessThan) ∧
    ((checkLowerBound roundInt K c limit).myStrength = c.myStrength ∧
      (checkLowerBound roundInt K c limit).myAllowOverride = c.myAllowOverride ∧
      (checkLowerBound roundInt K c limit).myDesiredTotal = c.myDesiredTotal ∧
      (checkLowerBound roundInt K c limit).myStrengthTotal = c.myStrengthTotal ∧
      (checkLowerBound roundInt K c limit).myOverrideDoesLessThan = c.myOverrideDoesLessThan) := by
  refine ⟨fun h => ?_, fun h => ⟨fun h2 => ?_, fun h2 => ?_, fun h2 => ?_, fun h2 => ?_⟩, ?_, ?_⟩
  · simp [checkUpperBound, checkLowerBound, h]
  · simp [checkUpperBound, h, h2]
  · simp [checkUpperBound, h, h2]
  · simp [checkLowerBound, h, h2]
  · simp [checkLowerBound, h, h2]
  · unfold checkUpperBound
    split_ifs <;> exact ⟨rfl, rfl, rfl, rfl, rfl⟩
  · unfold checkLowerBound
    split_ifs <;> exact ⟨rfl, rfl, rfl, rfl, rfl⟩

/-- Counterexample to C21: a channel with strength 1 and value 1/2.  Whatever the rounding
function is, either `checkUpperBound(0)` leaves the value above 0 or `checkLowerBound(1)`
leaves it below 1.  With rounding to the nearest integer, the value 1004/10 is left above
the upper bound 100 and the value 996/10 below the lower bound 100. -/
theorem checkBounds_unclamped_counterexample :
    (∀ roundInt : ℚ → ℤ,
      ¬ ((checkUpperBound roundInt stdStrengths
            (setDesired stdStrengths (new stdStrengths) (1 / 2) 1 false) 0).myDesired ≤ 0 ∧
         1 ≤ (checkLowerBound roundInt stdStrengths
            (setDesired stdStrengths (new stdStrengths) (1 / 2) 1 false) 1).myDesired)) ∧
    ¬ ((checkUpperBound ArMath.roundInt stdStrengths
          (setDesired stdStrengths (new stdStrengths) (1004 / 10) 1 false) 100).myDesired
        ≤ 100) ∧
    ¬ (100 ≤ (checkLowerBound ArMath.roundInt stdStrengths
          (setDesired stdStrengths (new stdStrengths) (996 / 10) 1 false) 100).myDesired) := by
  have hr1 : round (502 / 5 : ℚ) = 100 := by
    rw [round_eq]
    exact Int.floor_eq_iff.mpr ⟨by norm_num, by norm_num⟩
  have hr2 : round (498 / 5 : ℚ) = 100 := by
    rw [round_eq]
    exact Int.floor_eq_iff.mpr ⟨by norm_num, by norm_num⟩
  refine ⟨?_, ?_, ?_⟩
  · intro roundInt h
    by_cases hpos : roundInt (1 / 2) > 0
    · have h1 : ¬ roundInt (1 / 2) < 1 := by omega
      have := h.2
      norm_num [checkLowerBound, setDesired, clampStrength, stdStrengths, h1] at this
    · have := h.1
      norm_num [checkUpperBound, setDesired, clampStrength, stdStrengths, hpos] at this
  · norm_num [checkUpperBound, ArMath.roundInt, setDesired, clampStrength, stdStrengths, hr1]
  · norm_num [checkLowerBound, ArMath.roundInt, setDesired, clampStrength, stdStrengths, hr2]

/-- C21 as amended: for every strength-bearing channel and every integer bound `L`, after
`checkUpperBound(L)` the rounded value of the channel does not exceed `L`, and after
`checkLowerBound(L)` the rounded value is not below `L`: a value whose rounding violates the
bound is clamped to it.  The rounding function is any function that leaves integers
unchanged. -/
theorem checkBounds_rounded_within (roundInt : ℚ → ℤ) (hfix : ∀ n : ℤ, roundInt (n : ℚ) = n)
    (K : Strengths) (c : ArActionDesiredChannel) (L : ℤ)
    (hc : K.MIN_STRENGTH ≤ c.myStrength) :
    roundInt (checkUpperBound roundInt K c L).myDesired ≤ L ∧
    L ≤ roundInt (checkLowerBound roundInt K c L).myDesired := by
  have hs : ¬ c.myStrength < K.MIN_STRENGTH := not_lt.mpr hc
  constructor
  · unfold checkUpperBound
    rw [if_neg hs]
    by_cases h : roundInt c.myDesired > L
    · rw [if_pos h]
      show roundInt (L : ℚ) ≤ L
      rw [hfix]
    · rw [if_neg h]
      exact not_lt.mp h
  · unfold checkLowerBound
    rw [if_neg hs]
    by_cases h : roundInt c.myDesired < L
    · rw [if_pos h]
      show L ≤ roundInt (L : ℚ)
      rw [hfix]
    · rw [if_neg h]
      exact not_lt.mp h

/-- A witness for `checkBounds_rounded_within`: the value 250 at strength 1 against the
bound 100, with rounding to the nearest integer. -/
theorem checkBounds_rounded_within_witness :
    ArMath.roundInt (checkUpperBound ArMath.roundInt stdStrengths
        (setDesired stdStrengths (new stdStrengths) 250 1 false) 100).myDesired ≤ 100 :=
  (checkBounds_rounded_within ArMath.roundInt (fun n => round_intCast n) stdStrengths
    (setDesired stdStrengths (new stdStrengths) 250 1 false) 100
    (by norm_num [setDesired, clampStrength, stdStrengths])).1

/-- Setting a cap with the default strength `MAX_STRENGTH` and the override flag on two
channels and merging them gives the minimum or the maximum of the two caps, according to the
policy of the first channel. -/
theorem merge_default_caps (K : Strengths) (h0 : 0 ≤ K.MIN_STRENGTH)
    (h1 : K.MIN_STRENGTH ≤ K.MAX_STRENGTH) (c d : ArActionDesiredChannel) (a b : ℚ) :
    (merge K (setDesired K c a K.MAX_STRENGTH true)
        (setDesired K d b K.MAX_STRENGTH true)).myDesired
      = if c.myOverrideDoesLessThan = true then min a b else max a b := by
  have hcl : clampStrength K K.MAX_STRENGTH = K.MAX_STRENGTH := by
    simp [clampStrength, not_lt.mpr h1]
  have hs : K.MIN_STRENGTH ≤ K.MAX_STRENGTH
      + mergeOtherStrength K (setDesired K c a K.MAX_STRENGTH true)
          (setDesired K d b K.MAX_STRENGTH true) := by
    have := merge_strength_ge_min K h0 h1 (setDesired K c a K.MAX_STRENGTH true)
      (setDesired K d b K.MAX_STRENGTH true) (by show _ ≤ clampStrength K _; rw [hcl]; exact h1)
      (by show _ ≤ clampStrength K _; rw [hcl]; exact h1)
    have e : (setDesired K c a K.MAX_STRENGTH true).myStrength = K.MAX_STRENGTH := hcl
    rw [e] at this
    exact this
  simp only [merge, setDesired, hcl, Bool.and_self, true_and, ge_iff_le, h1, and_self, if_true]
  simp only [setDesired, hcl] at hs
  rw [if_pos hs]

/-- C22: let `setMaxVel(a)` be called on `A` and `setMaxVel(b)` on `B` with the default
strength `MAX_STRENGTH` and the default `useSlowest = true`.  After `A.merge(B)`,
`getMaxVel()` on `A` returns `min a b`; likewise `getTransAccel()` after `setTransAccel`
and `getRotAccel()` after `setRotAccel`.  `A` has the override policies of the constructor,
and the constants are ordered `0 ≤ MIN_STRENGTH ≤ MAX_STRENGTH`. -/
theorem merge_selects_slowest (K : Strengths) (h0 : 0 ≤ K.MIN_STRENGTH)
    (h1 : K.MIN_STRENGTH ≤ K.MAX_STRENGTH) (A B : ArActionDesired)
    (hA : A.HasConstructedPolicies) (a b : ℚ) :
    ((A.setMaxVel K a K.MAX_STRENGTH true).merge K
        (some (B.setMaxVel K b K.MAX_STRENGTH true))).getMaxVel = min a b ∧
    ((A.setTransAccel K a K.MAX_STRENGTH true).merge K
        (some (B.setTransAccel K b K.MAX_STRENGTH true))).getTransAccel = min a b ∧
    ((A.setRotAccel K a K.MAX_STRENGTH true).merge K
        (some (B.setRotAccel K b K.MAX_STRENGTH true))).getRotAccel = min a b := by
  have p1 : A.myMaxVelDes.myOverrideDoesLessThan = true := hA Chan.maxVel
  have p2 : A.myTransAccelDes.myOverrideDoesLessThan = true := hA Chan.transAccel
  have p3 : A.myRotAccelDes.myOverrideDoesLessThan = true := hA Chan.rotAccel
  refine ⟨?_, ?_, ?_⟩
  · show (merge K (setDesired K A.myMaxVelDes a K.MAX_STRENGTH true)
        (setDesired K B.myMaxVelDes b K.MAX_STRENGTH true)).myDesired = _
    rw [merge_default_caps K h0 h1, if_pos p1]
  · show (merge K (setDesired K A.myTransAccelDes a K.MAX_STRENGTH true)
        (setDesired K B.myTransAccelDes b K.MAX_STRENGTH true)).myDesired = _
    rw [merge_default_caps K h0 h1, if_pos p2]
  · show (merge K (setDesired K A.myRotAccelDes a K.MAX_STRENGTH true)
        (setDesired K B.myRotAccelDes b K.MAX_STRENGTH true)).myDesired = _
    rw [merge_default_caps K h0 h1, if_pos p3]

/-- A newly constructed desired action has the override policies of the constructor. -/
theorem new_hasConstructedPolicies (K : Strengths) :
    (ArActionDesired.new K).HasConstructedPolicies := by
  intro ch
  cases ch <;> rfl

/-- A witness for `merge_selects_slowest`: maximum velocities 800 and 500 on two newly
constructed desired actions. -/
theorem merge_selects_slowest_witness :
    (0 ≤ stdStrengths.MIN_STRENGTH ∧ stdStrengths.MIN_STRENGTH ≤ stdStrengths.MAX_STRENGTH) ∧
    (((ArActionDesired.new stdStrengths).setMaxVel stdStrengths 800
          stdStrengths.MAX_STRENGTH true).merge stdStrengths
        (some ((ArActionDesired.new stdStrengths).setMaxVel stdStrengths 500
          stdStrengths.MAX_STRENGTH true))).getMaxVel = min 800 500 :=
  ⟨by norm_num [stdStrengths],
   (merge_selects_slowest stdStrengths (by norm_num [stdStrengths]) (by norm_num [stdStrengths])
      (ArActionDesired.new stdStrengths) (ArActionDesired.new stdStrengths)
      (new_hasConstructedPolicies stdStrengths) 800 500).1⟩

/-- C23: let `setTransDecel(a)` be called on `A` and `setTransDecel(b)` on `B` with the
default strength `MAX_STRENGTH` and the default `useFastest = true`.  After `A.merge(B)`,
`getTransDecel()` on `A` returns `max a b`; likewise `getRotDecel()` after `setRotDecel`.
`A` has the override policies of the constructor, and the constants are ordered
`0 ≤ MIN_STRENGTH ≤ MAX_STRENGTH`. -/
theorem merge_selects_fastest_decel (K : Strengths) (h0 : 0 ≤ K.MIN_STRENGTH)
    (h1 : K.MIN_STRENGTH ≤ K.MAX_STRENGTH) (A B : ArActionDesired)
    (hA : A.HasConstructedPolicies) (a b : ℚ) :
    ((A.setTransDecel K a K.MAX_STRENGTH true).merge K
        (some (B.setTransDecel K b K.MAX_STRENGTH true))).getTransDecel = max a b ∧
    ((A.setRotDecel K a K.MAX_STRENGTH true).merge K
        (some (B.setRotDecel K b K.MAX_STRENGTH true))).getRotDecel = max a b := by
  have p1 : A.myTransDecelDes.myOverrideDoesLessThan = false := hA Chan.transDecel
  have p2 : A.myRotDecelDes.myOverrideDoesLessThan = false := hA Chan.rotDecel
  refine ⟨?_, ?_⟩
  · show (merge K (setDesired K A.myTransDecelDes a K.MAX_STRENGTH true)
        (setDesired K B.myTransDecelDes b K.MAX_STRENGTH true)).myDesired = _
    rw [merge_default_caps K h0 h1, p1]
    simp
  · show (merge K (setDesired K A.myRotDecelDes a K.MAX_STRENGTH true)
        (setDesired K B.myRotDecelDes b K.MAX_STRENGTH true)).myDesired = _
    rw [merge_default_caps K h0 h1, p2]
    simp

/-- A witness for `merge_selects_fastest_decel`: translational decelerations 100 and 200 on
two newly constructed desired actions. -/
theorem merge_selects_fastest_decel_witness :
    (0 ≤ stdStrengths.MIN_STRENGTH ∧ stdStrengths.MIN_STRENGTH ≤ stdStrengths.MAX_STRENGTH) ∧
    (((ArActionDesired.new stdStrengths).setTransDecel stdStrengths 100
          stdStrengths.MAX_STRENGTH true).merge stdStrengths
        (some ((ArActionDesired.new stdStrengths).setTransDecel stdStrengths 200
          stdStrengths.MAX_STRENGTH true))).getTransDecel = max 100 200 :=
  ⟨by norm_num [stdStrengths],
   (merge_selects_fastest_decel stdStrengths (by norm_num [stdStrengths])
      (by norm_num [stdStrengths])
      (ArActionDesired.new stdStrengths) (ArActionDesired.new stdStrengths)
      (new_hasConstructedPolicies stdStrengths) 100 200).1⟩

/-- C24, the code at the failing input: `setLatDecel(100)` on one newly constructed desired
action and `setLatDecel(200)` on another, with the default strength `MAX_STRENGTH = 1` and
`useFastest = true`.  After the merge `getLatDecel()` returns 100, the slower deceleration,
and not `max 100 200`: the constructor leaves the policy "less than" on `myLatDecelDes`. -/
theorem merge_latDecel_selects_slowest :
    (ArActionDesired.new stdStrengths).myLatDecelDes.myOverrideDoesLessThan = true ∧
    (((ArActionDesired.new stdStrengths).setLatDecel stdStrengths 100 1 true).merge stdStrengths
        (some ((ArActionDesired.new stdStrengths).setLatDecel stdStrengths 200 1
          true))).getLatDecel = 100 ∧
    (((ArActionDesired.new stdStrengths).setLatDecel stdStrengths 100 1 true).merge stdStrengths
        (some ((ArActionDesired.new stdStrengths).setLatDecel stdStrengths 200 1
          true))).getLatDecel ≠ max 100 200 := by
  norm_num [ArActionDesired.getLatDecel, ArActionDesired.merge, ArActionDesired.setLatDecel,
    ArActionDesired.new, merge, mergeOtherStrength, new, reset, defaultMembers, setDesired,
    clampStrength, stdStrengths]

/-- C26: `accountForRobotHeading` is idempotent, whatever the two robot headings are: a
second call leaves the state the first call produced; and when no absolute heading is set,
a call changes nothing at all. -/
theorem accountForRobotHeading_idempotent (K : Strengths) (a : ArActionDesired) (r1 r2 : ℚ) :
    (a.accountForRobotHeading K r1).accountForRobotHeading K r2
      = a.accountForRobotHeading K r1 ∧
    (a.myHeadingSet = false → a.accountForRobotHeading K r1 = a) := by
  have hoff : ∀ (x : ArActionDesired) (r : ℚ), x.myHeadingSet = false →
      x.accountForRobotHeading K r = x := by
    intro x r hx
    unfold ArActionDesired.accountForRobotHeading
    simp only [hx, Bool.false_eq_true, if_false]
    cases x
    simp_all
  have hset : (a.accountForRobotHeading K r1).myHeadingSet = false := rfl
  exact ⟨hoff _ r2 hset, hoff a r1⟩

/-- C25: on a non-empty command line `finishParsing` sends a command to the robot if and
only if the line is valid (1, 2 or 3 arguments that all parse as integers, the command id in
`0..255`, the integer of the two-argument form in `-32767..32767`, both bytes of the
three-argument form in `-128..255`); it then sends exactly one command, `com(id)`,
`comInt(id, n)` or `com2Bytes(id, b1, b2)` with the parsed values, and otherwise nothing. -/
theorem finishParsing_sends (addPlain : List Int → ArArgumentBuilder) (s : List Int)
    (hs : s ≠ []) :
    (ArModeCommand.ValidLine (addPlain s) →
      (ArModeCommand.finishParsing addPlain s).1
        = [ArModeCommand.expectedCommand (addPlain s)]) ∧
    (¬ ArModeCommand.ValidLine (addPlain s) →
      (ArModeCommand.finishParsing addPlain s).1 = []) ∧
    ((ArModeCommand.finishParsing addPlain s).1 ≠ [] ↔
      ArModeCommand.ValidLine (addPlain s)) := by
  have main : (ArModeCommand.ValidLine (addPlain s) →
        (ArModeCommand.finishParsing addPlain s).1
          = [ArModeCommand.expectedCommand (addPlain s)]) ∧
      (¬ ArModeCommand.ValidLine (addPlain s) →
        (ArModeCommand.finishParsing addPlain s).1 = []) := by
    unfold ArModeCommand.finishParsing ArModeCommand.ValidLine ArModeCommand.expectedCommand
    simp only [hs, if_false]
    generalize addPlain s = b
    obtain ⟨argc, gi, ia⟩ := b
    simp only
    have hall1 : (∀ i : Nat, i < 1 → ia i = true) ↔ ia 0 = true := by
      constructor
      · intro h; exact h 0 (by omega)
      · intro h i hi
        have : i = 0 := by omega
        rw [this]; exact h
    have hall2 : (∀ i : Nat, i < 2 → ia i = true) ↔ (ia 0 = true ∧ ia 1 = true) := by
      constructor
      · intro h; exact ⟨h 0 (by omega), h 1 (by omega)⟩
      · intro h i hi
        have : i = 0 ∨ i = 1 := by omega
        rcases this with e | e
        · rw [e]; exact h.1
        · rw [e]; exact h.2
    have hall3 : (∀ i : Nat, i < 3 → ia i = true)
        ↔ (ia 0 = true ∧ ia 1 = true ∧ ia 2 = true) := by
      constructor
      · intro h; exact ⟨h 0 (by omega), h 1 (by omega), h 2 (by omega)⟩
      · intro h i hi
        have : i = 0 ∨ i = 1 ∨ i = 2 := by omega
        rcases this with e | e | e
        · rw [e]; exact h.1
        · rw [e]; exact h.2.1
        · rw [e]; exact h.2.2
    by_cases h1 : argc = 1
    · subst h1
      rw [hall1]
      cases h0 : ia 0
      all_goals simp
      all_goals (constructor <;> intros <;> split_ifs <;> first | rfl | omega)
    · by_cases h2 : argc = 2
      · subst h2
        rw [hall2]
        cases h0 : ia 0 <;> cases h1 : ia 1
        all_goals simp
        all_goals (constructor <;> intros <;> split_ifs <;> first | rfl | omega)
      · by_cases h3 : argc = 3
        · subst h3
          rw [hall3]
          cases h0 : ia 0 <;> cases h1 : ia 1 <;> cases h2 : ia 2
          all_goals simp
          all_goals (constructor <;> intros <;> split_ifs <;> first | rfl | omega)
        · simp [h1, h2, h3]
  refine ⟨main.1, main.2, ?_⟩
  constructor
  · intro hne
    by_contra hv
    exact hne (main.2 hv)
  · intro hv
    rw [main.1 hv]
    simp

/-- A witness for `finishParsing_sends`: the line `4 -100`, for which the builder reports
two integer arguments, makes the method send `comInt(4, -100)`. -/
theorem finishParsing_sends_witness :
    (ArModeCommand.finishParsing (fun _ => ArModeCommand.exampleBuilder)
        [charCode '4', charCode ' ', charCode '-', charCode '1', charCode '0', charCode '0']).1
      = [ArModeCommand.expectedCommand ArModeCommand.exampleBuilder] :=
  (finishParsing_sends (fun _ => ArModeCommand.exampleBuilder)
    [charCode '4', charCode ' ', charCode '-', charCode '1', charCode '0', charCode '0']
    (by simp)).1
    (by
      refine ⟨Or.inr (Or.inl rfl), ?_, ?_, ?_, ?_⟩
      · intro i hi
        have hi2 : i < 2 := hi
        simp [ArModeCommand.exampleBuilder, hi2]
      · simp [ArModeCommand.exampleBuilder]
      · intro _
        simp [ArModeCommand.exampleBuilder]
      · intro h
        exact absurd h (by simp [ArModeCommand.exampleBuilder]))

/-- The codes of the characters that `addChar` compares with or stores. -/
theorem charCode_values :
    charCode ' ' = 32 ∧ charCode '-' = 45 ∧ charCode '0' = 48 ∧ charCode '1' = 49 ∧
      charCode '9' = 57 :=
  ⟨rfl, rfl, rfl, rfl, rfl⟩

/-- While fewer than 69 characters are stored, a digit key (a key that is neither backspace,
space nor `-`) is appended to the command string. -/
theorem addChar_digit (k : KeyCodes) (s : List Int) (ch : Int)
    (h1 : ch ≠ k.BACKSPACE) (h2 : ch ≠ k.SPACE) (h3 : ch ≠ charCode '-')
    (hlen : s.length + 1 < ArModeCommand.size) :
    ArModeCommand.addChar k s ch = s ++ [ch] := by
  obtain ⟨_, _, c0, _, c9⟩ := charCode_values
  have hfirst : ¬ (ch < charCode '0' ∧ ch > charCode '9' ∧ ch ≠ charCode '-' ∧
      ch ≠ k.BACKSPACE ∧ ch ≠ k.SPACE) := by
    rw [c0, c9]; omega
  unfold ArModeCommand.addChar
  rw [if_neg hfirst]
  simp only [h1, h2, h3, if_false]
  rw [if_neg (by omega)]

/-- Typing `n ≤ 69` times the key `1` from the empty command string stores `n` characters. -/
theorem typeKeys_digits (k : KeyCodes) (h1 : charCode '1' ≠ k.BACKSPACE)
    (h2 : charCode '1' ≠ k.SPACE) (n : Nat) (hn : n ≤ 69) :
    ArModeCommand.typeKeys k (List.replicate n (charCode '1'))
      = List.replicate n (charCode '1') := by
  induction n with
  | zero => rfl
  | succ n ih =>
    have ih2 := ih (by omega)
    unfold ArModeCommand.typeKeys at ih2 ⊢
    rw [List.replicate_succ', List.foldl_append, ih2]
    simp only [List.foldl_cons, List.foldl_nil]
    rw [← List.replicate_succ']
    rw [addChar_digit k _ _ h1 h2 (by decide)
      (by simp only [List.length_replicate, ArModeCommand.size]; omega)]
    rw [List.replicate_succ']

/-- C29, the code at the failing input: 69 times the key `1`, then the space key, for key
codes of backspace and space that differ from each other and from the character `1`.  After
the digits the command string has 69 characters; the space key finds `len = 69`, stores the
space at index 69 and the terminator at index 70, one past the last index of the buffer of
`size = 70` bytes, and the command string has 70 characters; a following `-` key stores at
the indices 70 and 71. -/
theorem addChar_space_writes_past_buffer (k : KeyCodes) (h1 : charCode '1' ≠ k.BACKSPACE)
    (h2 : charCode '1' ≠ k.SPACE) (h3 : k.SPACE ≠ k.BACKSPACE)
    (h4 : charCode '-' ≠ k.BACKSPACE) (h5 : charCode '-' ≠ k.SPACE) :
    (ArModeCommand.typeKeys k (List.replicate 69 (charCode '1'))).length = 69 ∧
    (ArModeCommand.typeKeys k (List.replicate 69 (charCode '1') ++ [k.SPACE])).length = 70 ∧
    (ArModeCommand.typeKeys k
      (List.replicate 69 (charCode '1') ++ [k.SPACE, charCode '-'])).length = 71 ∧
    ArModeCommand.size = 70 := by
  have hd := typeKeys_digits k h1 h2 69 (le_refl _)
  obtain ⟨cs, cm, c0, c1, c9⟩ := charCode_values
  have hlast : (List.replicate 69 (charCode '1')).getLast? = some (charCode '1') := by
    rw [List.replicate_succ', List.getLast?_append]
    rfl
  have hsp : ArModeCommand.addChar k (List.replicate 69 (charCode '1')) k.SPACE
      = List.replicate 69 (charCode '1') ++ [charCode ' '] := by
    have hfirst : ¬ (k.SPACE < charCode '0' ∧ k.SPACE > charCode '9' ∧
        k.SPACE ≠ charCode '-' ∧ k.SPACE ≠ k.BACKSPACE ∧ k.SPACE ≠ k.SPACE) := by
      intro h; exact h.2.2.2.2 rfl
    unfold ArModeCommand.addChar
    rw [if_neg hfirst]
    simp only [h3, if_false, if_true, hlast, List.length_replicate]
    rw [if_neg]
    rw [cs, cm, c1]
    simp
  have hmi : ArModeCommand.addChar k (List.replicate 69 (charCode '1') ++ [charCode ' '])
        (charCode '-')
      = List.replicate 69 (charCode '1') ++ [charCode ' '] ++ [charCode '-'] := by
    have hfirst : ¬ (charCode '-' < charCode '0' ∧ charCode '-' > charCode '9' ∧
        charCode '-' ≠ charCode '-' ∧ charCode '-' ≠ k.BACKSPACE ∧
        charCode '-' ≠ k.SPACE) := by
      intro h; exact h.2.2.1 rfl
    unfold ArModeCommand.addChar
    rw [if_neg hfirst]
    simp only [h4, h5, if_false, if_true]
    rw [if_neg]
    simp
  refine ⟨by rw [hd]; simp, ?_, ?_, rfl⟩
  · unfold ArModeCommand.typeKeys at hd ⊢
    rw [List.foldl_append, hd]
    simp only [List.foldl_cons, List.foldl_nil]
    rw [hsp]
    simp
  · unfold ArModeCommand.typeKeys at hd ⊢
    rw [List.foldl_append, hd]
    simp only [List.foldl_cons, List.foldl_nil]
    rw [hsp, hmi]
    simp

/-- A witness for `addChar_space_writes_past_buffer`, with example key codes. -/
theorem addChar_space_writes_past_buffer_witness :
    (ArModeCommand.typeKeys ArModeCommand.exampleKeys
      (List.replicate 69 (charCode '1') ++ [ArModeCommand.exampleKeys.SPACE])).length = 70 :=
  (addChar_space_writes_past_buffer ArModeCommand.exampleKeys (by decide) (by decide)
    (by decide) (by decide) (by decide)).2.1

/-- Appending a character to a well-formed command string: the result is well formed if the
character may follow the last one and, on the empty string, is neither a space nor a `-`. -/
theorem wellFormed_append (s : List Int) (c : Int) (hs : ArModeCommand.WellFormed s)
    (hadj : ∀ x ∈ s.getLast?, ArModeCommand.AdjacentOK x c)
    (hhead : s = [] → c ≠ charCode ' ' ∧ c ≠ charCode '-') :
    ArModeCommand.WellFormed (s ++ [c]) := by
  obtain ⟨h1, h2, h3⟩ := hs
  have hh : (s ++ [c]).head? = if s = [] then some c else s.head? := by
    cases s <;> simp
  refine ⟨?_, ?_, ?_⟩
  · rw [hh]
    split_ifs with he
    · intro h; exact (hhead he).1 (Option.some.inj h)
    · exact h1
  · rw [hh]
    split_ifs with he
    · intro h; exact (hhead he).2 (Option.some.inj h)
    · exact h2
  · rw [List.chain'_append]
    refine ⟨h3, List.chain'_singleton c, ?_⟩
    intro x hx y hy
    have : y = c := by simpa using hy.symm
    rw [this]
    exact hadj x hx

/-- Removing the last character of a well-formed command string leaves it well formed. -/
theorem wellFormed_dropLast (s : List Int) (hs : ArModeCommand.WellFormed s) :
    ArModeCommand.WellFormed s.dropLast := by
  obtain ⟨h1, h2, h3⟩ := hs
  refine ⟨?_, ?_, h3.infix (List.dropLast_prefix s).isInfix⟩
  · rw [List.head?_dropLast]
    split_ifs
    · exact h1
    · simp
  · rw [List.head?_dropLast]
    split_ifs
    · exact h2
    · simp

/-- One `addChar` call with a digit, `-`, space or backspace key keeps the command string
well formed. -/
theorem addChar_wellFormed (k : KeyCodes) (s : List Int) (ch : Int)
    (hs : ArModeCommand.WellFormed s) (hch : ArModeCommand.IsCommandKey k ch) :
    ArModeCommand.WellFormed (ArModeCommand.addChar k s ch) := by
  obtain ⟨cs, cm, c0, c1, c9⟩ := charCode_values
  have hnil : ArModeCommand.WellFormed [] := ⟨by simp, by simp, List.chain'_nil⟩
  unfold ArModeCommand.addChar
  dsimp only
  split_ifs with hf hb hl hsp hc hm hc2 hfull
  · exact hs
  · exact hs
  · exact wellFormed_dropLast s hs
  · exact hs
  · -- the space key, after a character that is neither a space nor a minus
    have hlen : ¬ s.length < 1 := fun h => hc (Or.inl h)
    have hl1 : s.getLast? ≠ some (charCode ' ') := fun h => hc (Or.inr (Or.inl h))
    have hl2 : s.getLast? ≠ some (charCode '-') := fun h => hc (Or.inr (Or.inr h))
    apply wellFormed_append s _ hs
    · intro x hx
      have hx2 : s.getLast? = some x := hx
      have n1 : x ≠ charCode ' ' := fun h => hl1 (by rw [hx2, h])
      have n2 : x ≠ charCode '-' := fun h => hl2 (by rw [hx2, h])
      refine ⟨fun h => n1 h.1, fun h => ?_, fun h => n2 h.1⟩
      rw [cs, cm] at h
      exact absurd h (by decide)
    · intro he
      rw [he] at hlen
      exact absurd (by simp) hlen
  · exact hs
  · -- the minus key, right after a space
    have hlen : ¬ s.length < 1 := fun h => hc2 (Or.inl h)
    have hl1 : s.getLast? = some (charCode ' ') := by
      by_contra h
      exact hc2 (Or.inr h)
    apply wellFormed_append s _ hs
    · intro x hx
      have hx2 : s.getLast? = some x := hx
      have e : x = charCode ' ' := by
        rw [hl1] at hx2
        exact (Option.some.inj hx2).symm
      refine ⟨fun h => ?_, fun _ => e, fun h => ?_⟩
      · have := h.2
        rw [cs, cm] at this
        exact absurd this (by decide)
      · have := h.1
        rw [e, cs, cm] at this
        exact absurd this (by decide)
    · intro he
      rw [he] at hlen
      exact absurd (by simp) hlen
  · exact hnil
  · -- a digit key
    have hdig : charCode '0' ≤ ch ∧ ch ≤ charCode '9' := by
      rcases hch with h | h | h | h
      · exact h
      · exact absurd h hm
      · exact absurd h hsp
      · exact absurd h hb
    rw [c0, c9] at hdig
    have n1 : ch ≠ charCode ' ' := by rw [cs]; omega
    have n2 : ch ≠ charCode '-' := by rw [cm]; omega
    apply wellFormed_append s _ hs
    · intro x _
      exact ⟨fun h => n1 h.2, fun h => absurd h n2, fun h => n1 h.2⟩
    · intro _
      exact ⟨n1, n2⟩

/-- C30: starting from the empty command string, after every finite sequence of `addChar`
calls with digit, `-`, space and backspace keys the command string is well formed: it does
not begin with a space or a `-`, it has no two consecutive spaces, every `-` comes right
after a space and no space comes right after a `-`; and the backspace key on the empty
string changes nothing. -/
theorem typeKeys_wellFormed (k : KeyCodes) (keys : List Int)
    (hkeys : ∀ ch ∈ keys, ArModeCommand.IsCommandKey k ch) :
    ArModeCommand.WellFormed (ArModeCommand.typeKeys k keys) ∧
    ArModeCommand.addChar k [] k.BACKSPACE = [] := by
  constructor
  · have gen : ∀ (l : List Int) (s : List Int), ArModeCommand.WellFormed s →
        (∀ ch ∈ l, ArModeCommand.IsCommandKey k ch) →
        ArModeCommand.WellFormed (l.foldl (ArModeCommand.addChar k) s) := by
      intro l
      induction l with
      | nil => intro s hs _; exact hs
      | cons c l ih =>
        intro s hs hl
        exact ih _ (addChar_wellFormed k s c hs (hl c (List.mem_cons_self c l)))
          (fun x hx => hl x (List.mem_cons_of_mem c hx))
    exact gen keys [] ⟨by simp, by simp, List.chain'_nil⟩ hkeys
  · unfold ArModeCommand.addChar
    dsimp only
    split_ifs <;> simp_all

/-- A witness for `typeKeys_wellFormed`: the keys `4`, space, space, `-`, `1`, backspace. -/
theorem typeKeys_wellFormed_witness :
    ArModeCommand.WellFormed (ArModeCommand.typeKeys ArModeCommand.exampleKeys
      [charCode '4', ArModeCommand.exampleKeys.SPACE, ArModeCommand.exampleKeys.SPACE,
       charCode '-', charCode '1', ArModeCommand.exampleKeys.BACKSPACE]) :=
  (typeKeys_wellFormed ArModeCommand.exampleKeys
    [charCode '4', ArModeCommand.exampleKeys.SPACE, ArModeCommand.exampleKeys.SPACE,
     charCode '-', charCode '1', ArModeCommand.exampleKeys.BACKSPACE]
    (by
      intro ch hch
      simp only [List.mem_cons, List.mem_singleton, List.not_mem_nil, or_false] at hch
      rcases hch with h | h | h | h | h | h <;> subst h
      · exact Or.inl (by decide)
      · exact Or.inr (Or.inr (Or.inl rfl))
      · exact Or.inr (Or.inr (Or.inl rfl))
      · exact Or.inr (Or.inl rfl)
      · exact Or.inl (by decide)
      · exact Or.inr (Or.inr (Or.inr rfl)))).1

/-- While `*this` carries strength on neither rotation channel, `ArActionDesired::merge` is
the channel merge on every channel. -/
theorem chan_merge_of_no_rotation_strength (K : Strengths) (a b : ArActionDesired)
    (h1 : a.myDeltaHeadingDes.myStrength = K.NO_STRENGTH)
    (h2 : a.myRotVelDes.myStrength = K.NO_STRENGTH) (ch : Chan) :
    (a.merge K (some b)).chan ch = merge K (a.chan ch) (b.chan ch) := by
  have hr : ArActionDesired.mergeRotation K a b
      = (a.myRotVelDes.merge K b.myRotVelDes,
         a.myDeltaHeadingDes.merge K b.myDeltaHeadingDes) := by
    unfold ArActionDesired.mergeRotation
    rw [h1, h2]
    simp
  cases ch
  case rotVel =>
    show (ArActionDesired.mergeRotation K a b).1 = _
    rw [hr]; rfl
  case deltaHeading =>
    show (ArActionDesired.mergeRotation K a b).2 = _
    rw [hr]; rfl
  all_goals rfl

/-- Merging into a channel of strength 0 a channel whose strength does not exceed
`MAX_STRENGTH` gives the strength of the latter. -/
theorem merge_strength_from_zero (K : Strengths) (c d : ArActionDesiredChannel)
    (hc : c.myStrength = 0) (hd : d.myStrength ≤ K.MAX_STRENGTH) :
    (merge K c d).myStrength = d.myStrength := by
  show c.myStrength + mergeOtherStrength K c d = _
  unfold mergeOtherStrength
  simp only [hc, zero_add]
  rw [if_neg (not_lt.mpr hd)]

/-- Merging a channel of non-negative strength into a channel whose strength does not exceed
`MAX_STRENGTH` does not lower the strength and keeps it within `MAX_STRENGTH`. -/
theorem merge_strength_mono (K : Strengths) (c d : ArActionDesiredChannel)
    (hc : c.myStrength ≤ K.MAX_STRENGTH) (hd : 0 ≤ d.myStrength) :
    c.myStrength ≤ (merge K c d).myStrength ∧ (merge K c d).myStrength ≤ K.MAX_STRENGTH := by
  have hs : (merge K c d).myStrength = c.myStrength + mergeOtherStrength K c d := rfl
  rw [hs, mergeOtherStrength_eq_min]
  have h1 : 0 ≤ min d.myStrength (K.MAX_STRENGTH - c.myStrength) :=
    le_min hd (by linarith)
  have h2 : min d.myStrength (K.MAX_STRENGTH - c.myStrength) ≤ K.MAX_STRENGTH - c.myStrength :=
    min_le_right _ _
  constructor <;> linarith

/-- Under the ordered constants, a channel that satisfies the invariant and does not have a
strength above `NO_STRENGTH` has the strength `NO_STRENGTH`. -/
theorem strength_eq_no_of_not_gt (K : Strengths) (hK : K.Ordered) (c : ArActionDesiredChannel)
    (hc : StrengthOK K c) (h : ¬ c.myStrength > K.NO_STRENGTH) : c.myStrength = K.NO_STRENGTH := by
  obtain ⟨h0, h1, _⟩ := hK
  rcases hc with hc | hc
  · exact hc
  · exfalso
    apply h
    rw [h0]
    linarith [hc.1]

/-- Once the accumulator carries strength on delta heading, further merges never touch its
rotational-velocity channel and it keeps carrying strength on delta heading. -/
theorem mergeList_after_deltaHeading (K : Strengths) (hK : K.Ordered)
    (post : List ArActionDesired) :
    ∀ a : ArActionDesired, a.myDeltaHeadingDes.myStrength > K.NO_STRENGTH →
      a.myDeltaHeadingDes.myStrength ≤ K.MAX_STRENGTH →
      (∀ d ∈ post, StrengthOK K d.myDeltaHeadingDes) →
      (ArActionDesired.mergeList K a post).myRotVelDes = a.myRotVelDes ∧
      (ArActionDesired.mergeList K a post).myDeltaHeadingDes.myStrength > K.NO_STRENGTH := by
  induction post with
  | nil => intro a h _ _; exact ⟨rfl, h⟩
  | cons d post ih =>
    intro a h hmax hpost
    have hd := hpost d (List.mem_cons_self d post)
    have hr : ArActionDesired.mergeRotation K a d
        = (a.myRotVelDes, a.myDeltaHeadingDes.merge K d.myDeltaHeadingDes) := by
      unfold ArActionDesired.mergeRotation
      rw [if_pos h]
    have e1 : (a.merge K (some d)).myRotVelDes = a.myRotVelDes := by
      show (ArActionDesired.mergeRotation K a d).1 = _
      rw [hr]
    have e2 : (a.merge K (some d)).myDeltaHeadingDes
        = a.myDeltaHeadingDes.merge K d.myDeltaHeadingDes := by
      show (ArActionDesired.mergeRotation K a d).2 = _
      rw [hr]
    have hm := merge_strength_mono K a.myDeltaHeadingDes d.myDeltaHeadingDes hmax
      (strengthOK_nonneg hK hd)
    have := ih (a.merge K (some d)) (by rw [e2]; exact lt_of_lt_of_le h hm.1)
      (by rw [e2]; exact hm.2) (fun x hx => hpost x (List.mem_cons_of_mem d hx))
    rw [e1] at this
    exact this

/-- Once the accumulator carries strength on rotational velocity and not on delta heading,
further merges never touch its delta-heading channel and it keeps carrying strength on
rotational velocity. -/
theorem mergeList_after_rotVel (K : Strengths) (hK : K.Ordered)
    (post : List ArActionDesired) :
    ∀ a : ArActionDesired, ¬ a.myDeltaHeadingDes.myStrength > K.NO_STRENGTH →
      a.myRotVelDes.myStrength > K.NO_STRENGTH →
      a.myRotVelDes.myStrength ≤ K.MAX_STRENGTH →
      (∀ d ∈ post, StrengthOK K d.myRotVelDes) →
      (ArActionDesired.mergeList K a post).myDeltaHeadingDes = a.myDeltaHeadingDes ∧
      (ArActionDesired.mergeList K a post).myRotVelDes.myStrength > K.NO_STRENGTH := by
  induction post with
  | nil => intro a _ h _ _; exact ⟨rfl, h⟩
  | cons d post ih =>
    intro a hn h hmax hpost
    have hd := hpost d (List.mem_cons_self d post)
    have hr : ArActionDesired.mergeRotation K a d
        = (a.myRotVelDes.merge K d.myRotVelDes, a.myDeltaHeadingDes) := by
      unfold ArActionDesired.mergeRotation
      rw [if_neg hn, if_pos h]
    have e1 : (a.merge K (some d)).myDeltaHeadingDes = a.myDeltaHeadingDes := by
      show (ArActionDesired.mergeRotation K a d).2 = _
      rw [hr]
    have e2 : (a.merge K (some d)).myRotVelDes = a.myRotVelDes.merge K d.myRotVelDes := by
      show (ArActionDesired.mergeRotation K a d).1 = _
      rw [hr]
    have hm := merge_strength_mono K a.myRotVelDes d.myRotVelDes hmax
      (strengthOK_nonneg hK hd)
    have := ih (a.merge K (some d)) (by rw [e1]; exact hn)
      (by rw [e2]; exact lt_of_lt_of_le h hm.1)
      (by rw [e2]; exact hm.2) (fun x hx => hpost x (List.mem_cons_of_mem d hx))
    rw [e1] at this
    exact this

/-- Contributions without strength on either rotation channel leave an accumulator without
strength on either rotation channel in that state. -/
theorem mergeList_neutral_prefix (K : Strengths) (hK : K.Ordered) (pre : List ArActionDesired) :
    ∀ a : ArActionDesired, a.myDeltaHeadingDes.myStrength = K.NO_STRENGTH →
      a.myRotVelDes.myStrength = K.NO_STRENGTH →
      (∀ p ∈ pre, p.myDeltaHeadingDes.myStrength = K.NO_STRENGTH ∧
        p.myRotVelDes.myStrength = K.NO_STRENGTH) →
      (ArActionDesired.mergeList K a pre).myDeltaHeadingDes.myStrength = K.NO_STRENGTH ∧
      (ArActionDesired.mergeList K a pre).myRotVelDes.myStrength = K.NO_STRENGTH := by
  have hmax : (0 : ℚ) ≤ K.MAX_STRENGTH := le_of_lt (lt_of_lt_of_le hK.2.1 hK.2.2)
  have h0 := hK.1
  induction pre with
  | nil => intro a h1 h2 _; exact ⟨h1, h2⟩
  | cons p pre ih =>
    intro a h1 h2 hpre
    have hp := hpre p (List.mem_cons_self p pre)
    have c1 := chan_merge_of_no_rotation_strength K a p h1 h2 Chan.deltaHeading
    have c2 := chan_merge_of_no_rotation_strength K a p h1 h2 Chan.rotVel
    have e1 : (a.merge K (some p)).myDeltaHeadingDes
        = merge K a.myDeltaHeadingDes p.myDeltaHeadingDes := c1
    have e2 : (a.merge K (some p)).myRotVelDes = merge K a.myRotVelDes p.myRotVelDes := c2
    apply ih (a.merge K (some p))
    · rw [e1, merge_strength_from_zero K _ _ (by rw [h1, h0]) (by rw [hp.1, h0]; exact hmax)]
      exact hp.1
    · rw [e2, merge_strength_from_zero K _ _ (by rw [h2, h0]) (by rw [hp.2, h0]; exact hmax)]
      exact hp.2
    · exact fun x hx => hpre x (List.mem_cons_of_mem p hx)

/-- Exclusive contributions keep an accumulator exclusive: if the accumulator does not carry
strength on both rotation channels and no contribution does, the merged accumulator does
not either (`NO_STRENGTH = 0`). -/
theorem mergeList_exclusive_from (K : Strengths) (hNO : K.NO_STRENGTH = 0)
    (l : List ArActionDesired) :
    ∀ a : ArActionDesired,
      (∀ d ∈ l, ¬ (d.myDeltaHeadingDes.myStrength > K.NO_STRENGTH ∧
                   d.myRotVelDes.myStrength > K.NO_STRENGTH)) →
      ¬ (a.myDeltaHeadingDes.myStrength > K.NO_STRENGTH ∧
         a.myRotVelDes.myStrength > K.NO_STRENGTH) →
      ¬ ((ArActionDesired.mergeList K a l).myDeltaHeadingDes.myStrength > K.NO_STRENGTH ∧
         (ArActionDesired.mergeList K a l).myRotVelDes.myStrength > K.NO_STRENGTH) := by
  induction l with
  | nil => intro a _ ha; exact ha
  | cons d l ih =>
    intro a hl ha
    have hstep := merge_rotation_exclusive_step K hNO a d ha (hl d (List.mem_cons_self d l))
    exact ih (a.merge K (some d)) (fun x hx => hl x (List.mem_cons_of_mem d hx)) hstep

/-- C28: with `NO_STRENGTH = 0 < MIN_STRENGTH ≤ MAX_STRENGTH`, let desired actions none of
which carries strength (`> NO_STRENGTH`) on both its delta-heading and its
rotational-velocity channel (each strength being `NO_STRENGTH` or in
`[MIN_STRENGTH, MAX_STRENGTH]`) be merged in order into a reset accumulator.  The
accumulator carries strength on at most one of the two channels; and if `d` is the first
contribution that carries strength on either, the accumulator carries strength on the
channel `d` uses and not on the other, and the other channel of the accumulator is what it
was right after merging `d`: the contributions after `d` never change it. -/
theorem mergeList_rotation_modality (K : Strengths) (hK : K.Ordered) (acc : ArActionDesired)
    (ds : List ArActionDesired)
    (hok : ∀ d ∈ ds, StrengthOK K d.myDeltaHeadingDes ∧ StrengthOK K d.myRotVelDes)
    (hex : ∀ d ∈ ds, ¬ (d.myDeltaHeadingDes.myStrength > K.NO_STRENGTH ∧
                        d.myRotVelDes.myStrength > K.NO_STRENGTH)) :
    ¬ ((ArActionDesired.mergeList K (acc.reset K) ds).myDeltaHeadingDes.myStrength
          > K.NO_STRENGTH ∧
       (ArActionDesired.mergeList K (acc.reset K) ds).myRotVelDes.myStrength
          > K.NO_STRENGTH) ∧
    (∀ (pre : List ArActionDesired) (d : ArActionDesired) (post : List ArActionDesired),
      ds = pre ++ d :: post →
      (∀ p ∈ pre, ¬ p.myDeltaHeadingDes.myStrength > K.NO_STRENGTH ∧
                  ¬ p.myRotVelDes.myStrength > K.NO_STRENGTH) →
      (d.myDeltaHeadingDes.myStrength > K.NO_STRENGTH →
        (ArActionDesired.mergeList K (acc.reset K) ds).myDeltaHeadingDes.myStrength
          > K.NO_STRENGTH ∧
        ¬ (ArActionDesired.mergeList K (acc.reset K) ds).myRotVelDes.myStrength
          > K.NO_STRENGTH ∧
        (ArActionDesired.mergeList K (acc.reset K) ds).myRotVelDes
          = (ArActionDesired.mergeList K (acc.reset K) (pre ++ [d])).myRotVelDes) ∧
      (d.myRotVelDes.myStrength > K.NO_STRENGTH →
        (ArActionDesired.mergeList K (acc.reset K) ds).myRotVelDes.myStrength
          > K.NO_STRENGTH ∧
        ¬ (ArActionDesired.mergeList K (acc.reset K) ds).myDeltaHeadingDes.myStrength
          > K.NO_STRENGTH ∧
        (ArActionDesired.mergeList K (acc.reset K) ds).myDeltaHeadingDes
          = (ArActionDesired.mergeList K (acc.reset K) (pre ++ [d])).myDeltaHeadingDes)) := by
  have h0 := hK.1
  have hexcl : ¬ ((ArActionDesired.mergeList K (acc.reset K) ds).myDeltaHeadingDes.myStrength
          > K.NO_STRENGTH ∧
       (ArActionDesired.mergeList K (acc.reset K) ds).myRotVelDes.myStrength
          > K.NO_STRENGTH) := by
    apply mergeList_exclusive_from K h0 ds (acc.reset K) hex
    intro h
    have : (acc.reset K).myDeltaHeadingDes.myStrength = K.NO_STRENGTH := rfl
    rw [this] at h
    exact lt_irrefl _ h.1
  refine ⟨hexcl, ?_⟩
  intro pre d post hds hpre
  have hdmem : d ∈ ds := by rw [hds]; simp
  have hpremem : ∀ p ∈ pre, p ∈ ds := by
    intro p hp; rw [hds]; exact List.mem_append_left _ hp
  have hpostmem : ∀ p ∈ post, p ∈ ds := by
    intro p hp; rw [hds]
    exact List.mem_append_right _ (List.mem_cons_of_mem d hp)
  -- the accumulator before `d`
  have hneutral := mergeList_neutral_prefix K hK pre (acc.reset K) rfl rfl
    (fun p hp => ⟨strength_eq_no_of_not_gt K hK _ (hok p (hpremem p hp)).1 (hpre p hp).1,
      strength_eq_no_of_not_gt K hK _ (hok p (hpremem p hp)).2 (hpre p hp).2⟩)
  -- the accumulator right after `d`
  have hsplit : ArActionDesired.mergeList K (acc.reset K) ds
      = ArActionDesired.mergeList K
          (ArActionDesired.mergeList K (acc.reset K) (pre ++ [d])) post := by
    rw [hds]
    unfold ArActionDesired.mergeList
    rw [← List.foldl_append]
    simp
  have hmid : ArActionDesired.mergeList K (acc.reset K) (pre ++ [d])
      = (ArActionDesired.mergeList K (acc.reset K) pre).merge K (some d) := by
    unfold ArActionDesired.mergeList
    rw [List.foldl_append]
    rfl
  have c1 := chan_merge_of_no_rotation_strength K
    (ArActionDesired.mergeList K (acc.reset K) pre) d hneutral.1 hneutral.2 Chan.deltaHeading
  have c2 := chan_merge_of_no_rotation_strength K
    (ArActionDesired.mergeList K (acc.reset K) pre) d hneutral.1 hneutral.2 Chan.rotVel
  have e1 : (ArActionDesired.mergeList K (acc.reset K) (pre ++ [d])).myDeltaHeadingDes.myStrength
      = d.myDeltaHeadingDes.myStrength := by
    rw [hmid]
    have : ((ArActionDesired.mergeList K (acc.reset K) pre).merge K (some d)).myDeltaHeadingDes
        = merge K (ArActionDesired.mergeList K (acc.reset K) pre).myDeltaHeadingDes
            d.myDeltaHeadingDes := c1
    rw [this]
    apply merge_strength_from_zero K _ _ (by rw [hneutral.1, h0])
    rcases (hok d hdmem).1 with h | h
    · rw [h, h0]; exact le_of_lt (lt_of_lt_of_le hK.2.1 hK.2.2)
    · exact h.2
  have e2 : (ArActionDesired.mergeList K (acc.reset K) (pre ++ [d])).myRotVelDes.myStrength
      = d.myRotVelDes.myStrength := by
    rw [hmid]
    have : ((ArActionDesired.mergeList K (acc.reset K) pre).merge K (some d)).myRotVelDes
        = merge K (ArActionDesired.mergeList K (acc.reset K) pre).myRotVelDes
            d.myRotVelDes := c2
    rw [this]
    apply merge_strength_from_zero K _ _ (by rw [hneutral.2, h0])
    rcases (hok d hdmem).2 with h | h
    · rw [h, h0]; exact le_of_lt (lt_of_lt_of_le hK.2.1 hK.2.2)
    · exact h.2
  have hle : ∀ c : ArActionDesiredChannel, StrengthOK K c → c.myStrength ≤ K.MAX_STRENGTH := by
    intro c hc
    rcases hc with h | h
    · rw [h, h0]; exact le_of_lt (lt_of_lt_of_le hK.2.1 hK.2.2)
    · exact h.2
  constructor
  · intro hd
    have hafter := mergeList_after_deltaHeading K hK post
      (ArActionDesired.mergeList K (acc.reset K) (pre ++ [d]))
      (by rw [e1]; exact hd) (by rw [e1]; exact hle _ (hok d hdmem).1)
      (fun x hx => (hok x (hpostmem x hx)).1)
    rw [← hsplit] at hafter
    exact ⟨hafter.2, fun h => hexcl ⟨hafter.2, h⟩, hafter.1⟩
  · intro hd
    have hnd : ¬ d.myDeltaHeadingDes.myStrength > K.NO_STRENGTH := fun h => hex d hdmem ⟨h, hd⟩
    have hafter := mergeList_after_rotVel K hK post
      (ArActionDesired.mergeList K (acc.reset K) (pre ++ [d]))
      (by rw [e1]; exact hnd) (by rw [e2]; exact hd)
      (by rw [e2]; exact hle _ (hok d hdmem).2)
      (fun x hx => (hok x (hpostmem x hx)).2)
    rw [← hsplit] at hafter
    exact ⟨hafter.2, fun h => hexcl ⟨h, hafter.2⟩, hafter.1⟩

/-- A witness for `mergeList_rotation_modality`: a contribution that turns by 30 degrees,
then one that proposes a rotational velocity of 50, merged into a reset accumulator; the
accumulator carries strength on delta heading, the channel of the first contribution. -/
theorem mergeList_rotation_modality_witness :
    stdStrengths.Ordered ∧
    (ArActionDesired.mergeList stdStrengths ((ArActionDesired.new stdStrengths).reset stdStrengths)
        [(ArActionDesired.new stdStrengths).setDeltaHeading stdStrengths 30 1,
         (ArActionDesired.new stdStrengths).setRotVel stdStrengths 50 1]).myDeltaHeadingDes.myStrength
      > stdStrengths.NO_STRENGTH :=
  ⟨by norm_num [Strengths.Ordered, stdStrengths],
   (((mergeList_rotation_modality stdStrengths
      (by norm_num [Strengths.Ordered, stdStrengths]) (ArActionDesired.new stdStrengths)
      [(ArActionDesired.new stdStrengths).setDeltaHeading stdStrengths 30 1,
       (ArActionDesired.new stdStrengths).setRotVel stdStrengths 50 1]
      (by
        intro d hd
        simp only [List.mem_cons, List.mem_singleton, List.not_mem_nil, or_false] at hd
        rcases hd with h | h <;> subst h <;>
          norm_num [StrengthOK, ArActionDesired.setDeltaHeading, ArActionDesired.setRotVel,
            ArActionDesired.new, new, reset, defaultMembers, setDesired, clampStrength,
            stdStrengths])
      (by
        intro d hd
        simp only [List.mem_cons, List.mem_singleton, List.not_mem_nil, or_false] at hd
        rcases hd with h | h <;> subst h <;>
          norm_num [ArActionDesired.setDeltaHeading, ArActionDesired.setRotVel,
            ArActionDesired.new, new, reset, defaultMembers, setDesired, clampStrength,
            stdStrengths])).2
      [] ((ArActionDesired.new stdStrengths).setDeltaHeading stdStrengths 30 1)
      [(ArActionDesired.new stdStrengths).setRotVel stdStrengths 50 1] rfl
      (by intro p hp; exact absurd hp (List.not_mem_nil p))).1
      (by norm_num [ArActionDesired.setDeltaHeading, ArActionDesired.new, new, reset,
        defaultMembers, setDesired, clampStrength, stdStrengths])).1⟩

/-- The methods of `ArActionDesired` keep the override policies of the constructor: merging,
resetting, the averaging protocol and the heading conversion never assign
`myOverrideDoesLessThan`. -/
theorem hasConstructedPolicies_preserved (K : Strengths) (a : ArActionDesired)
    (ha : a.HasConstructedPolicies) (ob : Option ArActionDesired) (r : ℚ) :
    (a.merge K ob).HasConstructedPolicies ∧ (a.reset K).HasConstructedPolicies ∧
    a.startAverage.HasConstructedPolicies ∧ (a.addAverage K ob).HasConstructedPolicies ∧
    (a.endAverage K).HasConstructedPolicies ∧
    (a.accountForRobotHeading K r).HasConstructedPolicies := by
  have hend : ∀ c : ArActionDesiredChannel,
      (endAverage K c).myOverrideDoesLessThan = c.myOverrideDoesLessThan := by
    intro c
    unfold endAverage
    split_ifs <;> rfl
  have hmr1 : ∀ b : ArActionDesired,
      (ArActionDesired.mergeRotation K a b).1.myOverrideDoesLessThan
        = a.myRotVelDes.myOverrideDoesLessThan := by
    intro b
    unfold ArActionDesired.mergeRotation
    split_ifs <;> rfl
  have hmr2 : ∀ b : ArActionDesired,
      (ArActionDesired.mergeRotation K a b).2.myOverrideDoesLessThan
        = a.myDeltaHeadingDes.myOverrideDoesLessThan := by
    intro b
    unfold ArActionDesired.mergeRotation
    split_ifs <;> rfl
  have har1 : ∀ b : ArActionDesired,
      (ArActionDesired.addAverageRotation K a b).1.myOverrideDoesLessThan
        = a.myRotVelDes.myOverrideDoesLessThan := by
    intro b
    unfold ArActionDesired.addAverageRotation
    split_ifs <;> rfl
  have har2 : ∀ b : ArActionDesired,
      (ArActionDesired.addAverageRotation K a b).2.myOverrideDoesLessThan
        = a.myDeltaHeadingDes.myOverrideDoesLessThan := by
    intro b
    unfold ArActionDesired.addAverageRotation
    split_ifs <;> rfl
  refine ⟨?_, ?_, ?_, ?_, ?_, ?_⟩
  · cases ob with
    | none => exact ha
    | some b =>
      intro ch
      rw [← ha ch]
      cases ch
      case rotVel => exact hmr1 b
      case deltaHeading => exact hmr2 b
      all_goals rfl
  · intro ch
    rw [← ha ch]
    cases ch <;> rfl
  · intro ch
    rw [← ha ch]
    cases ch <;> rfl
  · cases ob with
    | none => exact ha
    | some b =>
      intro ch
      rw [← ha ch]
      cases ch
      case rotVel => exact har1 b
      case deltaHeading => exact har2 b
      all_goals rfl
  · intro ch
    rw [← ha ch]
    cases ch <;> exact hend _
  · intro ch
    rw [← ha ch]
    unfold ArActionDesired.accountForRobotHeading
    split_ifs <;> cases ch <;> rfl

/-- With the identity as rounding function, `mergeWith` is the exact `merge`, on a channel
and on a desired action. -/
theorem mergeWith_id (K : Strengths) :
    (∀ c d : ArActionDesiredChannel, mergeWith (fun x => x) K c d = merge K c d) ∧
    (∀ (a : ArActionDesired) (ob : Option ArActionDesired),
      a.mergeWith (fun x => x) K ob = a.merge K ob) := by
  have h1 : ∀ c d : ArActionDesiredChannel, mergeWith (fun x => x) K c d = merge K c d :=
    fun _ _ => rfl
  refine ⟨h1, ?_⟩
  intro a ob
  cases ob with
  | none => rfl
  | some b =>
    have hr : ArActionDesired.mergeRotationWith (fun x => x) K a b
        = ArActionDesired.mergeRotation K a b := by
      unfold ArActionDesired.mergeRotationWith ArActionDesired.mergeRotation
      simp only [h1]
    simp only [ArActionDesired.mergeWith, ArActionDesired.merge, h1, hr]

/-- The integer binary logarithm of a positive rational, from the powers of two around it. -/
theorem int_log_two_eq (x : ℚ) (k : ℤ) (h1 : (2 : ℚ) ^ k ≤ x) (h2 : x < (2 : ℚ) ^ (k + 1)) :
    Int.log 2 x = k := by
  have hpos : 0 < x := lt_of_lt_of_le (by positivity) h1
  have a : k ≤ Int.log 2 x :=
    (Int.zpow_le_iff_le_log (by norm_num) hpos).mp (by exact_mod_cast h1)
  have b : Int.log 2 x < k + 1 :=
    (Int.lt_zpow_iff_log_lt (by norm_num) hpos).mp (by exact_mod_cast h2)
  omega

/-- Rounding to the nearest integer, ties to even, once the integer part is known. -/
theorem roundHalfEven_of_floor (q : ℚ) (f : ℤ) (hf : ⌊q⌋ = f) :
    roundHalfEven q =
      if q - f < 1 / 2 then f else if q - f > 1 / 2 then f + 1
      else if f % 2 = 0 then f else f + 1 := by
  unfold roundHalfEven
  rw [hf]

/-- The binary64 rounding of a positive rational in the binade `[2^k, 2^(k+1))`. -/
theorem roundBinary64_of_binade (x : ℚ) (k : ℤ) (hx : 0 < x) (h1 : (2 : ℚ) ^ k ≤ x)
    (h2 : x < (2 : ℚ) ^ (k + 1)) :
    roundBinary64 x = (roundHalfEven (x / 2 ^ (k - 52)) : ℚ) * 2 ^ (k - 52) := by
  unfold roundBinary64
  rw [if_neg (ne_of_gt hx), abs_of_pos hx, int_log_two_eq x k h1 h2]

/-- The binary64 roundings used below: 0, 1 and the `double` 0.1 are representable; the
product `3 * 0.1` is a tie that goes to the even significand; the quotient of the rounded
product by 0.1 rounds to the `double` above 3. -/
theorem roundBinary64_values :
    roundBinary64 0 = 0 ∧ roundBinary64 1 = 1 ∧
    roundBinary64 (3602879701896397 / 36028797018963968)
      = 3602879701896397 / 36028797018963968 ∧
    roundBinary64 (10808639105689191 / 36028797018963968)
      = 1351079888211149 / 4503599627370496 ∧
    roundBinary64 (1351079888211149 / 4503599627370496)
      = 1351079888211149 / 4503599627370496 ∧
    roundBinary64 (10808639105689192 / 3602879701896397)
      = 6755399441055745 / 2251799813685248 := by
  refine ⟨by simp [roundBinary64], ?_, ?_, ?_, ?_, ?_⟩
  · rw [roundBinary64_of_binade _ 0 (by norm_num) (by norm_num) (by norm_num)]
    have hfl : ⌊(1 : ℚ) / 2 ^ ((0 : ℤ) - 52)⌋ = 4503599627370496 := by
      rw [Int.floor_eq_iff]
      constructor <;> norm_num
    rw [roundHalfEven_of_floor _ _ hfl]
    norm_num
  · rw [roundBinary64_of_binade _ (-4) (by norm_num) (by norm_num) (by norm_num)]
    have hfl : ⌊(3602879701896397 / 36028797018963968 : ℚ) / 2 ^ ((-4 : ℤ) - 52)⌋
        = 7205759403792794 := by
      rw [Int.floor_eq_iff]
      constructor <;> norm_num
    rw [roundHalfEven_of_floor _ _ hfl]
    norm_num
  · rw [roundBinary64_of_binade _ (-2) (by norm_num) (by norm_num) (by norm_num)]
    have hfl : ⌊(10808639105689191 / 36028797018963968 : ℚ) / 2 ^ ((-2 : ℤ) - 52)⌋
        = 5404319552844595 := by
      rw [Int.floor_eq_iff]
      constructor <;> norm_num
    rw [roundHalfEven_of_floor _ _ hfl]
    norm_num
  · rw [roundBinary64_of_binade _ (-2) (by norm_num) (by norm_num) (by norm_num)]
    have hfl : ⌊(1351079888211149 / 4503599627370496 : ℚ) / 2 ^ ((-2 : ℤ) - 52)⌋
        = 5404319552844596 := by
      rw [Int.floor_eq_iff]
      constructor <;> norm_num
    rw [roundHalfEven_of_floor _ _ hfl]
    norm_num
  · rw [roundBinary64_of_binade _ 1 (by norm_num) (by norm_num) (by norm_num)]
    have hfl : ⌊(10808639105689192 / 3602879701896397 : ℚ) / 2 ^ ((1 : ℤ) - 52)⌋
        = 6755399441055744 := by
      rw [Int.floor_eq_iff]
      constructor <;> norm_num
    rw [roundHalfEven_of_floor _ _ hfl]
    norm_num

/-- Merging a channel without strength into a channel whose strength is a `double` not above
`MAX_STRENGTH`, with any rounding `rnd` of the arithmetic: the strength is kept, the flag
becomes the conjunction of both flags, the value is not assigned when the merged flag is set
or the strength is below `MIN_STRENGTH`, and otherwise it is recomputed as the rounded
weighted mean `(s * v + w * 0) / s`. -/
theorem mergeWith_noStrength (rnd : ℚ → ℚ) (K : Strengths) (hK : K.Ordered)
    (c d : ArActionDesiredChannel) (hfix : rnd c.myStrength = c.myStrength)
    (hc : c.myStrength ≤ K.MAX_STRENGTH) (hd : d.myStrength = K.NO_STRENGTH) :
    (mergeWith rnd K c d).myStrength = c.myStrength ∧
    (mergeWith rnd K c d).myAllowOverride = (c.myAllowOverride && d.myAllowOverride) ∧
    ((c.myAllowOverride && d.myAllowOverride) = true →
      (mergeWith rnd K c d).myDesired = c.myDesired) ∧
    (c.myStrength < K.MIN_STRENGTH → (mergeWith rnd K c d).myDesired = c.myDesired) ∧
    ((c.myAllowOverride && d.myAllowOverride) = false → K.MIN_STRENGTH ≤ c.myStrength →
      (mergeWith rnd K c d).myDesired
        = rnd (rnd (rnd (c.myStrength * c.myDesired) + rnd (d.myDesired * 0))
            / c.myStrength)) := by
  obtain ⟨h0, h1, _⟩ := hK
  have hd0 : d.myStrength = 0 := by rw [hd, h0]
  have hsum : rnd (c.myStrength + d.myStrength) = c.myStrength := by
    rw [hd0, add_zero, hfix]
  have hdm : ¬ d.myStrength ≥ K.MIN_STRENGTH := by rw [hd0]; exact not_le.mpr h1
  have hcap : ¬ c.myStrength > K.MAX_STRENGTH := not_lt.mpr hc
  have hunf : mergeWith rnd K c d =
      { c with
        myDesired :=
          if (c.myAllowOverride && d.myAllowOverride) = true ∧
              c.myStrength ≥ K.MIN_STRENGTH then c.myDesired
          else if c.myStrength ≥ K.MIN_STRENGTH then
            rnd (rnd (rnd (c.myStrength * c.myDesired) + rnd (d.myDesired * 0))
              / c.myStrength)
          else c.myDesired,
        myStrength := c.myStrength,
        myAllowOverride := (c.myAllowOverride && d.myAllowOverride) } := by
    unfold mergeWith
    simp only [hsum, hcap, hdm, and_false, if_false]
    rw [hd0]
  rw [hunf]
  refine ⟨rfl, rfl, ?_, ?_, ?_⟩
  · intro hf
    show (if _ then _ else _) = _
    split_ifs with h2 h3
    · rfl
    · exact absurd ⟨hf, h3⟩ h2
    · rfl
  · intro hlt
    have hn : ¬ c.myStrength ≥ K.MIN_STRENGTH := not_le.mpr hlt
    show (if _ then _ else _) = _
    simp only [hn, and_false, if_false]
  · intro hf hs
    have hs2 : c.myStrength ≥ K.MIN_STRENGTH := hs
    show (if _ then _ else _) = _
    simp only [hf, Bool.false_eq_true, false_and, if_false, hs2, if_true]

/-- On every channel but the two rotation channels, `ArActionDesired::merge` (with explicit
rounding) is the channel merge of the corresponding members. -/
theorem chan_mergeWith_of_not_rotation (rnd : ℚ → ℚ) (K : Strengths) (a b : ArActionDesired)
    (ch : Chan) (h1 : ch ≠ Chan.rotVel) (h2 : ch ≠ Chan.deltaHeading) :
    (a.mergeWith rnd K (some b)).chan ch = mergeWith rnd K (a.chan ch) (b.chan ch) := by
  cases ch <;> first | rfl | exact absurd rfl h1 | exact absurd rfl h2

/-- While `*this` carries strength on neither rotation channel, `ArActionDesired::merge`
(with explicit rounding) is the channel merge on every channel. -/
theorem chan_mergeWith_of_no_rotation_strength (rnd : ℚ → ℚ) (K : Strengths)
    (a b : ArActionDesired) (h1 : a.myDeltaHeadingDes.myStrength = K.NO_STRENGTH)
    (h2 : a.myRotVelDes.myStrength = K.NO_STRENGTH) (ch : Chan) :
    (a.mergeWith rnd K (some b)).chan ch = mergeWith rnd K (a.chan ch) (b.chan ch) := by
  have hr : ArActionDesired.mergeRotationWith rnd K a b
      = (a.myRotVelDes.mergeWith rnd K b.myRotVelDes,
         a.myDeltaHeadingDes.mergeWith rnd K b.myDeltaHeadingDes) := by
    unfold ArActionDesired.mergeRotationWith
    rw [h1, h2]
    simp
  cases ch
  case rotVel =>
    show (ArActionDesired.mergeRotationWith rnd K a b).1 = _
    rw [hr]; rfl
  case deltaHeading =>
    show (ArActionDesired.mergeRotationWith rnd K a b).2 = _
    rw [hr]; rfl
  all_goals rfl

/-- Merging a channel `x` that satisfies the invariant and whose strength is a `double` into a
channel in the reset state (value 0, `NO_STRENGTH`, override allowed), with any rounding `rnd`
of the arithmetic: the result has the strength and the flag of `x`; its value is the value of
`x`, copied, if `x` carries strength and allows override, the rounded weighted mean
`(0 * 0 + v * s) / s` if `x` carries strength and does not allow override, and 0 if `x`
carries no strength. -/
theorem mergeWith_into_reset_channel (rnd : ℚ → ℚ) (K : Strengths) (hK : K.Ordered)
    (c x : ArActionDesiredChannel) (hc1 : c.myDesired = 0) (hc2 : c.myStrength = K.NO_STRENGTH)
    (hc3 : c.myAllowOverride = true) (hx : StrengthOK K x)
    (hfix : rnd x.myStrength = x.myStrength) :
    (mergeWith rnd K c x).myStrength = x.myStrength ∧
    (mergeWith rnd K c x).myAllowOverride = x.myAllowOverride ∧
    (K.MIN_STRENGTH ≤ x.myStrength → x.myAllowOverride = true →
      (mergeWith rnd K c x).myDesired = x.myDesired) ∧
    (K.MIN_STRENGTH ≤ x.myStrength → x.myAllowOverride = false →
      (mergeWith rnd K c x).myDesired
        = rnd (rnd (rnd (0 * 0) + rnd (x.myDesired * x.myStrength)) / x.myStrength)) ∧
    (¬ K.MIN_STRENGTH ≤ x.myStrength → (mergeWith rnd K c x).myDesired = 0) := by
  obtain ⟨h0, h1, h2⟩ := hK
  have hcs : c.myStrength = 0 := by rw [hc2, h0]
  have hxm : x.myStrength ≤ K.MAX_STRENGTH := by
    rcases hx with h | h
    · rw [h, h0]; linarith
    · exact h.2
  have hcap : ¬ x.myStrength > K.MAX_STRENGTH := not_lt.mpr hxm
  have hnc : ¬ (0 : ℚ) ≥ K.MIN_STRENGTH := not_le.mpr h1
  have hunf : mergeWith rnd K c x =
      { c with
        myDesired :=
          if x.myAllowOverride = true ∧ x.myStrength ≥ K.MIN_STRENGTH then
            if x.myStrength ≥ K.MIN_STRENGTH then x.myDesired else 0
          else if x.myStrength ≥ K.MIN_STRENGTH then
            rnd (rnd (rnd (0 * 0) + rnd (x.myDesired * x.myStrength)) / x.myStrength)
          else 0,
        myStrength := x.myStrength,
        myAllowOverride := x.myAllowOverride } := by
    unfold mergeWith
    simp only [hcs, hc1, hc3, zero_add, hfix, hcap, if_false, Bool.true_and, hnc, false_and]
  rw [hunf]
  refine ⟨rfl, rfl, ?_, ?_, ?_⟩
  · intro hs hf
    have hs2 : x.myStrength ≥ K.MIN_STRENGTH := hs
    show (if _ then _ else _) = _
    simp only [hf, hs2, and_self, if_true]
  · intro hs hf
    have hs2 : x.myStrength ≥ K.MIN_STRENGTH := hs
    show (if _ then _ else _) = _
    simp only [hf, Bool.false_eq_true, false_and, if_false, hs2, if_true]
  · intro hs
    have hs2 : ¬ x.myStrength ≥ K.MIN_STRENGTH := hs
    show (if _ then _ else _) = _
    simp only [hs2, and_false, if_false]

/-- The channels of `velocityThree`: the velocity channel holds the value 3 at the strength
of the literal `0.1` without override, every other channel has strength 0. -/
theorem velocityThree_chan :
    (ArActionDesired.velocityThree.chan Chan.vel).myDesired = 3 ∧
    (ArActionDesired.velocityThree.chan Chan.vel).myStrength = oneTenth ∧
    (ArActionDesired.velocityThree.chan Chan.vel).myAllowOverride = false ∧
    (∀ ch : Chan, (ArActionDesired.velocityThree.chan ch).myStrength = 0 ∨
      (ArActionDesired.velocityThree.chan ch).myStrength = oneTenth) := by
  have hcl : clampStrength stdStrengths oneTenth = oneTenth := by
    norm_num [clampStrength, stdStrengths, oneTenth]
  refine ⟨rfl, hcl, rfl, ?_⟩
  intro ch
  cases ch
  case vel => exact Or.inr hcl
  all_goals exact Or.inl rfl

/-- The hypotheses on `velocityThree` that the merge statements need: the constants are
ordered, every channel satisfies the invariant, and every channel strength is a `double`. -/
theorem velocityThree_ok :
    stdStrengths.Ordered ∧
    (∀ ch : Chan, StrengthOK stdStrengths (ArActionDesired.velocityThree.chan ch)) ∧
    (∀ ch : Chan, (ArActionDesired.velocityThree.chan ch).myStrength
      ≤ stdStrengths.MAX_STRENGTH) ∧
    (∀ ch : Chan, roundBinary64 (ArActionDesired.velocityThree.chan ch).myStrength
      = (ArActionDesired.velocityThree.chan ch).myStrength) := by
  refine ⟨by norm_num [Strengths.Ordered, stdStrengths], ?_, ?_, ?_⟩
  · intro ch
    rcases velocityThree_chan.2.2.2 ch with h | h
    · exact Or.inl (by rw [h]; rfl)
    · refine Or.inr ?_
      rw [h]
      norm_num [stdStrengths, oneTenth]
  · intro ch
    rcases velocityThree_chan.2.2.2 ch with h | h
    · rw [h]; norm_num [stdStrengths]
    · rw [h]; norm_num [stdStrengths, oneTenth]
  · intro ch
    rcases velocityThree_chan.2.2.2 ch with h | h
    · rw [h]; exact roundBinary64_values.1
    · rw [h]; exact roundBinary64_values.2.2.1

/-- The weighted mean of the single value 3 at the strength 0.1, computed in binary64 as
`merge` does: the product `3 * 0.1` rounds to 0.30000000000000004, and its quotient by 0.1
rounds to 3.0000000000000004, the `double` above 3. -/
theorem roundBinary64_mean_three :
    roundBinary64 (roundBinary64 (roundBinary64 (0 * 0) + roundBinary64 (3 * oneTenth))
      / oneTenth) = 6755399441055745 / 2251799813685248 ∧
    roundBinary64 (roundBinary64 (roundBinary64 (oneTenth * 3) + roundBinary64 (0 * 0))
      / oneTenth) = 6755399441055745 / 2251799813685248 := by
  obtain ⟨v0, _, _, v3, v4, v5⟩ := roundBinary64_values
  have e1 : (0 : ℚ) * 0 = 0 := by norm_num
  have e2 : 3 * oneTenth = 10808639105689191 / 36028797018963968 := by norm_num [oneTenth]
  have e2b : oneTenth * 3 = 10808639105689191 / 36028797018963968 := by norm_num [oneTenth]
  have e3 : (1351079888211149 / 4503599627370496 : ℚ) / oneTenth
      = 10808639105689192 / 3602879701896397 := by norm_num [oneTenth]
  constructor
  · rw [e1, e2, v0, v3, zero_add, v4, e3, v5]
  · rw [e1, e2b, v0, v3, add_zero, v4, e3, v5]

/-- In binary64 arithmetic the merge of a desired action without any strength does change a
value of the accumulator: after `A.setVel(3, 0.1)` and the merge of a newly constructed `B`,
the velocity of `A` is 3.0000000000000004. -/
theorem mergeWith_noStrength_value_rounds :
    (ArActionDesired.velocityThree.chan Chan.vel).myDesired = 3 ∧
    ((ArActionDesired.velocityThree.mergeWith roundBinary64 stdStrengths
        (some (ArActionDesired.new stdStrengths))).chan Chan.vel).myDesired
      = 6755399441055745 / 2251799813685248 ∧
    ((ArActionDesired.velocityThree.mergeWith roundBinary64 stdStrengths
        (some (ArActionDesired.new stdStrengths))).chan Chan.vel).myDesired
      ≠ (ArActionDesired.velocityThree.chan Chan.vel).myDesired := by
  have hval : ((ArActionDesired.velocityThree.mergeWith roundBinary64 stdStrengths
        (some (ArActionDesired.new stdStrengths))).chan Chan.vel).myDesired
      = 6755399441055745 / 2251799813685248 := by
    rw [chan_mergeWith_of_not_rotation roundBinary64 stdStrengths _ _ Chan.vel
      (by decide) (by decide)]
    rw [(mergeWith_noStrength roundBinary64 stdStrengths velocityThree_ok.1
      (ArActionDesired.velocityThree.chan Chan.vel)
      ((ArActionDesired.new stdStrengths).chan Chan.vel)
      (velocityThree_ok.2.2.2 Chan.vel) (velocityThree_ok.2.2.1 Chan.vel) rfl).2.2.2.2
      (by rw [velocityThree_chan.2.2.1]; rfl)
      (by rw [velocityThree_chan.2.1]; norm_num [stdStrengths, oneTenth])]
    rw [velocityThree_chan.1, velocityThree_chan.2.1]
    have hw : ((ArActionDesired.new stdStrengths).chan Chan.vel).myDesired = 0 := rfl
    rw [hw]
    exact roundBinary64_mean_three.2
  refine ⟨velocityThree_chan.1, hval, ?_⟩
  rw [hval, velocityThree_chan.1]
  norm_num

/-- Counterexample to C27 in binary64 arithmetic: `X` called `setVel(3, 0.1)`, so that every
channel of `X` satisfies the invariant and the velocity channel carries strength with the
value 3.  After merging `X` into a freshly reset or a newly constructed desired action the
velocity channel of the accumulator holds 3.0000000000000004, not the value of `X`. -/
theorem merge_into_reset_rounding_counterexample :
    stdStrengths.Ordered ∧
    (∀ ch : Chan, StrengthOK stdStrengths (ArActionDesired.velocityThree.chan ch)) ∧
    stdStrengths.MIN_STRENGTH ≤ (ArActionDesired.velocityThree.chan Chan.vel).myStrength ∧
    (ArActionDesired.velocityThree.chan Chan.vel).myDesired = 3 ∧
    ((((ArActionDesired.new stdStrengths).reset stdStrengths).mergeWith roundBinary64
        stdStrengths (some ArActionDesired.velocityThree)).chan Chan.vel).myDesired
      = 6755399441055745 / 2251799813685248 ∧
    (((ArActionDesired.new stdStrengths).mergeWith roundBinary64
        stdStrengths (some ArActionDesired.velocityThree)).chan Chan.vel).myDesired
      = 6755399441055745 / 2251799813685248 ∧
    (6755399441055745 / 2251799813685248 : ℚ) ≠ 3 := by
  have hmin : stdStrengths.MIN_STRENGTH
      ≤ (ArActionDesired.velocityThree.chan Chan.vel).myStrength := by
    rw [velocityThree_chan.2.1]; norm_num [stdStrengths, oneTenth]
  have hch : ∀ c : ArActionDesiredChannel, c.myDesired = 0 →
      c.myStrength = stdStrengths.NO_STRENGTH → c.myAllowOverride = true →
      (mergeWith roundBinary64 stdStrengths c
        (ArActionDesired.velocityThree.chan Chan.vel)).myDesired
        = 6755399441055745 / 2251799813685248 := by
    intro c h1 h2 h3
    rw [(mergeWith_into_reset_channel roundBinary64 stdStrengths velocityThree_ok.1 c
      (ArActionDesired.velocityThree.chan Chan.vel) h1 h2 h3 (velocityThree_ok.2.1 Chan.vel)
      (velocityThree_ok.2.2.2 Chan.vel)).2.2.2.1 hmin velocityThree_chan.2.2.1]
    rw [velocityThree_chan.1, velocityThree_chan.2.1]
    exact roundBinary64_mean_three.1
  refine ⟨velocityThree_ok.1, velocityThree_ok.2.1, hmin, velocityThree_chan.1, ?_, ?_,
    by norm_num⟩
  · rw [chan_mergeWith_of_no_rotation_strength roundBinary64 stdStrengths _ _ rfl rfl Chan.vel]
    exact hch _ rfl rfl rfl
  · rw [chan_mergeWith_of_no_rotation_strength roundBinary64 stdStrengths _ _ rfl rfl Chan.vel]
    exact hch _ rfl rfl rfl

/-- C27 as amended, for the arithmetic of `double` with any rounding function `rnd`: with
`NO_STRENGTH = 0 < MIN_STRENGTH ≤ MAX_STRENGTH`, let `X` be a desired action whose channel
strengths are `double`s (fixed by `rnd`) equal to `NO_STRENGTH` or in
`[MIN_STRENGTH, MAX_STRENGTH]`.  After merging `X` into a freshly reset or a newly constructed
desired action, every channel of the accumulator, the two rotation channels included, has
the strength and the override flag of the channel of `X`.  Its value is the value of `X`
where `X` carries strength and allows override, the rounded weighted mean
`(0 * 0 + v * s) / s` of the value `v` of `X` at its strength `s` where `X` carries strength
and does not allow override, and 0 where `X` carries no strength. -/
theorem mergeWith_into_reset (rnd : ℚ → ℚ) (K : Strengths) (hK : K.Ordered)
    (acc X : ArActionDesired) (hX : ∀ ch : Chan, StrengthOK K (X.chan ch))
    (hfix : ∀ ch : Chan, rnd (X.chan ch).myStrength = (X.chan ch).myStrength) (ch : Chan) :
    ((((acc.reset K).mergeWith rnd K (some X)).chan ch).myStrength = (X.chan ch).myStrength ∧
      (((acc.reset K).mergeWith rnd K (some X)).chan ch).myAllowOverride
        = (X.chan ch).myAllowOverride ∧
      (K.MIN_STRENGTH ≤ (X.chan ch).myStrength → (X.chan ch).myAllowOverride = true →
        (((acc.reset K).mergeWith rnd K (some X)).chan ch).myDesired = (X.chan ch).myDesired) ∧
      (K.MIN_STRENGTH ≤ (X.chan ch).myStrength → (X.chan ch).myAllowOverride = false →
        (((acc.reset K).mergeWith rnd K (some X)).chan ch).myDesired
          = rnd (rnd (rnd (0 * 0) + rnd ((X.chan ch).myDesired * (X.chan ch).myStrength))
              / (X.chan ch).myStrength)) ∧
      (¬ K.MIN_STRENGTH ≤ (X.chan ch).myStrength →
        (((acc.reset K).mergeWith rnd K (some X)).chan ch).myDesired = 0)) ∧
    ((((ArActionDesired.new K).mergeWith rnd K (some X)).chan ch).myStrength
        = (X.chan ch).myStrength ∧
      (((ArActionDesired.new K).mergeWith rnd K (some X)).chan ch).myAllowOverride
        = (X.chan ch).myAllowOverride ∧
      (K.MIN_STRENGTH ≤ (X.chan ch).myStrength → (X.chan ch).myAllowOverride = true →
        (((ArActionDesired.new K).mergeWith rnd K (some X)).chan ch).myDesired
          = (X.chan ch).myDesired) ∧
      (K.MIN_STRENGTH ≤ (X.chan ch).myStrength → (X.chan ch).myAllowOverride = false →
        (((ArActionDesired.new K).mergeWith rnd K (some X)).chan ch).myDesired
          = rnd (rnd (rnd (0 * 0) + rnd ((X.chan ch).myDesired * (X.chan ch).myStrength))
              / (X.chan ch).myStrength)) ∧
      (¬ K.MIN_STRENGTH ≤ (X.chan ch).myStrength →
        (((ArActionDesired.new K).mergeWith rnd K (some X)).chan ch).myDesired = 0)) := by
  have hreset : ∀ c : Chan, ((acc.reset K).chan c).myDesired = 0 ∧
      ((acc.reset K).chan c).myStrength = K.NO_STRENGTH ∧
      ((acc.reset K).chan c).myAllowOverride = true := by
    intro c; cases c <;> exact ⟨rfl, rfl, rfl⟩
  have hnew : ∀ c : Chan, ((ArActionDesired.new K).chan c).myDesired = 0 ∧
      ((ArActionDesired.new K).chan c).myStrength = K.NO_STRENGTH ∧
      ((ArActionDesired.new K).chan c).myAllowOverride = true := by
    intro c; cases c <;> exact ⟨rfl, rfl, rfl⟩
  constructor
  · rw [chan_mergeWith_of_no_rotation_strength rnd K (acc.reset K) X
      (hreset Chan.deltaHeading).2.1 (hreset Chan.rotVel).2.1 ch]
    exact mergeWith_into_reset_channel rnd K hK _ _ (hreset ch).1 (hreset ch).2.1
      (hreset ch).2.2 (hX ch) (hfix ch)
  · rw [chan_mergeWith_of_no_rotation_strength rnd K (ArActionDesired.new K) X
      (hnew Chan.deltaHeading).2.1 (hnew Chan.rotVel).2.1 ch]
    exact mergeWith_into_reset_channel rnd K hK _ _ (hnew ch).1 (hnew ch).2.1 (hnew ch).2.2
      (hX ch) (hfix ch)

/-- A witness for `mergeWith_into_reset` in binary64 arithmetic: a desired action that called
`setVel(3, 0.1)`, merged into a reset one, seen on the velocity channel. -/
theorem mergeWith_into_reset_witness :
    stdStrengths.Ordered ∧
    (∀ ch : Chan, StrengthOK stdStrengths (ArActionDesired.velocityThree.chan ch)) ∧
    (∀ ch : Chan, roundBinary64 (ArActionDesired.velocityThree.chan ch).myStrength
      = (ArActionDesired.velocityThree.chan ch).myStrength) ∧
    ((((ArActionDesired.new stdStrengths).reset stdStrengths).mergeWith roundBinary64
        stdStrengths (some ArActionDesired.velocityThree)).chan Chan.vel).myStrength
      = (ArActionDesired.velocityThree.chan Chan.vel).myStrength ∧
    ((((ArActionDesired.new stdStrengths).reset stdStrengths).mergeWith roundBinary64
        stdStrengths (some ArActionDesired.velocityThree)).chan Chan.vel).myAllowOverride
      = (ArActionDesired.velocityThree.chan Chan.vel).myAllowOverride :=
  ⟨velocityThree_ok.1, velocityThree_ok.2.1, velocityThree_ok.2.2.2,
   (mergeWith_into_reset roundBinary64 stdStrengths velocityThree_ok.1
      (ArActionDesired.new stdStrengths) ArActionDesired.velocityThree
      velocityThree_ok.2.1 velocityThree_ok.2.2.2 Chan.vel).1.1,
   (mergeWith_into_reset roundBinary64 stdStrengths velocityThree_ok.1
      (ArActionDesired.new stdStrengths) ArActionDesired.velocityThree
      velocityThree_ok.2.1 velocityThree_ok.2.2.2 Chan.vel).1.2.1⟩

end AriaCoda
